import Mathlib

/-!
# Spreadsheet engine: `Sheet` and `Cell`

A shallow embedding of `sheet.cpp`, `cell.cpp` and `formula.cpp`.

* A `Cell` object lives on the heap and is named by its address (`CellId`); the
  sheet's `std::map<Position, std::unique_ptr<Cell>>` is an association list of
  entries `(pos, addr, cell)`.  Addresses are handed out by a counter and never
  reused, so a pointer kept in an edge set after its cell was erased stays
  recognisably dangling; dereferencing it is `Status.undefinedBehaviour`.
* `std::unordered_set<Cell*>` is a list of addresses with set-like insert and erase.
* A C++ exception is a `Status` returned next to the sheet as it stands at the throw.
* Recursions that C++ runs on the call stack (`InvalidateCache`, the DFS of
  `HasCircularDependency`, `GetValue` through the evaluator) take fuel.  `SetCell` hands
  out `cells_.length + 1`, which is never exhausted (`Sheet.SetCell_fuel`); `GetValue`
  takes its fuel from the caller, since on a reference cycle it does not return.
* `text.size()`, `text.front()` and `text.substr(1)` act on the character list of a
  Lean `String`; the only characters they look at (`=` and `'`) are one byte long.
-/

namespace Spreadsheet

/-! ## Declarations of `common.h` -/

/-- Modelled from the spec: `common.h` is absent; a grid coordinate `(row, col)`. -/
structure Position where
  row : Int
  col : Int
deriving DecidableEq, Repr

/-- Modelled from the spec: `common.h` is absent; default bound on rows. -/
def MAX_ROWS : Int := 16384

/-- Modelled from the spec: `common.h` is absent; default bound on columns. -/
def MAX_COLS : Int := 16384

/-- Modelled from the spec: `common.h` is absent; `is_valid()` is "row and col in `[0, MAX)`". -/
def Position.IsValid (p : Position) : Bool :=
  decide (0 ≤ p.row) && decide (0 ≤ p.col) && decide (p.row < MAX_ROWS) && decide (p.col < MAX_COLS)

/-- Modelled from the spec: `common.h` is absent; `operator<` is lexicographic by `(row, col)`. -/
def Position.lt (a b : Position) : Bool :=
  decide (a.row < b.row) || (decide (a.row = b.row) && decide (a.col < b.col))

/-- Modelled from the spec: `common.h` is absent; the printable rectangle. -/
structure Size where
  rows : Int
  cols : Int
deriving DecidableEq, Repr

/-- Modelled from the spec: `common.h` is absent; evaluation-time error kinds. -/
inductive FormulaError where
  | Ref
  | Value
  | Arithm
deriving DecidableEq, Repr

/-- Modelled from the spec: `common.h` is absent; `CellInterface::Value` is a variant of text,
double and `FormulaError`.  A finite double is represented by the rational it denotes. -/
inductive Value where
  | text (s : String)
  | number (d : Rat)
  | error (e : FormulaError)
deriving DecidableEq

/-- Constant `FORMULA_SIGN` of `common.h` (glossary of the spec). -/
def FORMULA_SIGN : Char := '='

/-- Constant `ESCAPE_SIGN` of `common.h` (glossary of the spec). -/
def ESCAPE_SIGN : Char := '\''

/-- What a call ends with: normal return, one of the three exceptions, or a fault of the
model (a dereferenced dangling pointer, exhausted fuel). -/
inductive Status where
  | ok
  | InvalidPositionException
  | FormulaException
  | CircularDependencyException
  | undefinedBehaviour
  | outOfFuel
deriving DecidableEq, Repr

/-! ## `std::string` primitives -/

/-- Call `text.size()`. -/
def size (text : String) : Nat := text.data.length

/-- Call `text.front()`; on the empty string the byte read is the terminating NUL. -/
def front (text : String) : Char := text.data.headD (Char.ofNat 0)

/-- Call `text.substr(1)`. -/
def substr1 (text : String) : String := String.mk text.data.tail

/-! ## `FormulaAST.h` (absent) and `formula.cpp` -/

/-- Modelled from the spec: `FormulaAST.h` is absent; the binary operators `+ - * /`. -/
inductive BinaryOp where
  | Add
  | Sub
  | Mul
  | Div
deriving DecidableEq, Repr

/-- Modelled from the spec: `FormulaAST.h` is absent; the unary operators `+` and `-`. -/
inductive UnaryOp where
  | Plus
  | Minus
deriving DecidableEq, Repr

/-- Modelled from the spec: `FormulaAST.h` is absent; the AST has numeric literals, cell
references and unary and binary operator nodes. -/
inductive FormulaAST where
  | Number (v : Rat)
  | CellRef (p : Position)
  | UnaryOpExpr (op : UnaryOp) (operand : FormulaAST)
  | BinaryOpExpr (op : BinaryOp) (lhs rhs : FormulaAST)
deriving DecidableEq

/-- Modelled from the spec: `FormulaAST.h` is absent; `ast_.GetCells()` lists the position
leaves of the tree (with repetitions, here left to right). -/
def FormulaAST.GetCells : FormulaAST → List Position
  | .Number _ => []
  | .CellRef p => [p]
  | .UnaryOpExpr _ e => e.GetCells
  | .BinaryOpExpr _ l r => l.GetCells ++ r.GetCells

/-- The functions of the absent formula front end that the engine calls: the parser
(`none` when `ParseFormulaAST` throws), the canonical printer, the conversion of a
text value to a double used when a referenced cell holds text, and the IEEE-754 rounding
of the exact result of an arithmetic operation to a double (`none` when the rounded result
is not finite: overflow).  A finite double is the rational number it denotes. -/
structure Env where
  ParseFormulaAST : String → Option FormulaAST
  PrintFormula : FormulaAST → String
  toDouble : String → Option Rat
  roundDouble : Rat → Option Rat

/-- Library function `std::unique(begin, end)`: drops an element equal to its predecessor. -/
def unique : List Position → List Position
  | [] => []
  | [a] => [a]
  | a :: b :: rest => if a = b then unique (b :: rest) else a :: unique (b :: rest)

/-- Method `Formula::GetReferencedCells`: copy, `std::sort`, erase consecutive duplicates. -/
def Formula.GetReferencedCells (ast_ : FormulaAST) : List Position :=
  unique (List.insertionSort (fun a b => a.lt b = true ∨ a = b) ast_.GetCells)

/-- Method `Formula::GetExpression`: prints the AST. -/
def Formula.GetExpression (env : Env) (ast_ : FormulaAST) : String :=
  env.PrintFormula ast_

/-- Function `ParseFormula`: the `Formula` constructor turns any parser failure into
`FormulaException` (`none`).  The field `expression_` is written but never read. -/
def ParseFormula (env : Env) (expression : String) : Option FormulaAST :=
  env.ParseFormulaAST expression

/-! ## `cell.h`: the cell object -/

/-- The address of a `Cell` object. -/
abbrev CellId := Nat

/-- The three `Impl` subclasses. -/
inductive Impl where
  | EmptyImpl
  | TextImpl (text_ : String)
  | FormulaImpl (formula_ : FormulaAST)
deriving DecidableEq

/-- Data members of `Cell` (`impl_` is null until the first `Set`). -/
structure Cell where
  impl_ : Option Impl := none
  cache_ : Option Value := none
  isCacheInvalidated_ : Bool := false
  referencedCells_ : List CellId := []
  dependentCells_ : List CellId := []
deriving DecidableEq

/-- One node of `cells_`: the key, the address of the owned `Cell`, the object. -/
structure Entry where
  pos : Position
  addr : CellId
  cell : Cell
deriving DecidableEq

/-- Data members of `Sheet`, and the allocation counter. -/
structure Sheet where
  cells_ : List Entry := []
  printableSize_ : Size := ⟨0, 0⟩
  nextAddr : CellId := 0
deriving DecidableEq

/-- The sheet right after construction. -/
def Sheet.empty : Sheet := {}

/-- Lookup `cells_.find(pos)`. -/
def Sheet.find (s : Sheet) (pos : Position) : Option Entry :=
  s.cells_.find? (fun e => decide (e.pos = pos))

/-- Lookup `cells_.count(pos)`. -/
def Sheet.count (s : Sheet) (pos : Position) : Bool :=
  (s.find pos).isSome

/-- Dereferences a `Cell*`: `none` when no live cell has that address. -/
def Sheet.deref (s : Sheet) (id : CellId) : Option Cell :=
  (s.cells_.find? (fun e => decide (e.addr = id))).map Entry.cell

/-- Writes through a `Cell*`. -/
def Sheet.modify (s : Sheet) (id : CellId) (f : Cell → Cell) : Sheet :=
  { s with cells_ := s.cells_.map (fun e => if e.addr = id then { e with cell := f e.cell } else e) }

/-- Library function `std::unordered_set::insert`. -/
def setInsert (xs : List CellId) (x : CellId) : List CellId :=
  if x ∈ xs then xs else xs ++ [x]

/-- Library function `std::unordered_set::erase`. -/
def setErase (xs : List CellId) (x : CellId) : List CellId :=
  xs.filter (fun y => decide (y ≠ x))

/-! ## `cell.cpp` -/

/-- Method `Impl::GetText` of the three subclasses. -/
def Impl.GetText (env : Env) : Impl → String
  | .EmptyImpl => ""
  | .TextImpl text_ => text_
  | .FormulaImpl formula_ => String.mk (FORMULA_SIGN :: (Formula.GetExpression env formula_).data)

/-- Method `Impl::GetValue` of the three subclasses (`FormulaImpl::GetValue` returns `""`; a
formula cell is evaluated through `FormulaImpl::Evaluate` instead). -/
def Impl.GetValue : Impl → Value
  | .EmptyImpl => .text ""
  | .TextImpl text_ =>
      if text_.data ≠ [] ∧ front text_ = ESCAPE_SIGN then .text (substr1 text_) else .text text_
  | .FormulaImpl _ => .text ""

/-- Method `Cell::GetText`. -/
def Cell.GetText (env : Env) (c : Cell) : String :=
  match c.impl_ with
  | some impl => impl.GetText env
  | none => ""

/-- Method `Cell::GetReferencedCells`. -/
def Cell.GetReferencedCells (c : Cell) : List Position :=
  match c.impl_ with
  | some (.FormulaImpl formula_) => Formula.GetReferencedCells formula_
  | _ => []

/-- Method `Cell::GetDependentCells`: returns `referencedCells_`. -/
def Cell.GetDependentCells (c : Cell) : List CellId :=
  c.referencedCells_

/-- Runs `step` on each element in turn, stopping at the first status that is not `ok`. -/
def forEach {α : Type} (step : Sheet → α → Status × Sheet) : List α → Sheet → Status × Sheet
  | [], s => (.ok, s)
  | x :: rest, s =>
      match step s x with
      | (.ok, s1) => forEach step rest s1
      | r => r

/-- Method `Cell::InvalidateCache` on the cell at address `id`. -/
def Cell.InvalidateCache : Nat → Sheet → CellId → Status × Sheet
  | 0, s, _ => (.outOfFuel, s)
  | fuel + 1, s, id =>
      match s.deref id with
      | none => (.undefinedBehaviour, s)
      | some c =>
          if c.isCacheInvalidated_ then (.ok, s)
          else
            let s1 := s.modify id (fun c => { c with cache_ := none, isCacheInvalidated_ := true })
            forEach (fun st d => Cell.InvalidateCache fuel st d) c.dependentCells_ s1

/-- Loop of lines 165-167: `oldCell->RemoveDependentCell(this)`. -/
def removeDependentStep (id : CellId) (s : Sheet) (oldCell : CellId) : Status × Sheet :=
  match s.deref oldCell with
  | none => (.undefinedBehaviour, s)
  | some _ => (.ok, s.modify oldCell (fun c => { c with dependentCells_ := setErase c.dependentCells_ id }))

/-- Loop body of lines 171-177: `sheet_.GetCell(pos)` throws on an invalid position; an
absent target is skipped, a present one gets the pair of edges. -/
def addReferenceStep (id : CellId) (s : Sheet) (pos : Position) : Status × Sheet :=
  if !pos.IsValid then (.InvalidPositionException, s)
  else
    match s.find pos with
    | none => (.ok, s)
    | some e =>
        let s1 := s.modify id (fun c => { c with referencedCells_ := setInsert c.referencedCells_ e.addr })
        (.ok, s1.modify e.addr (fun c => { c with dependentCells_ := setInsert c.dependentCells_ id }))

/-- Method `Cell::UpdateDependencies` on the cell at address `id`. -/
def Cell.UpdateDependencies (s : Sheet) (id : CellId) : Status × Sheet :=
  match s.deref id with
  | none => (.undefinedBehaviour, s)
  | some c =>
      match forEach (removeDependentStep id) c.referencedCells_ s with
      | (.ok, s1) =>
          let s2 := s1.modify id (fun c => { c with referencedCells_ := [] })
          match c.impl_ with
          | some (.FormulaImpl formula_) =>
              forEach (addReferenceStep id) (Formula.GetReferencedCells formula_) s2
          | _ => (.ok, s2)
      | r => r

/-- The `impl_` chosen by `Cell::Set` (lines 84-98). -/
def Cell.makeImpl (env : Env) (text : String) : Impl :=
  if text.data = [] then .EmptyImpl
  else if front text = FORMULA_SIGN then
    if size text > 1 then
      match ParseFormula env (substr1 text) with
      | some formula_ => .FormulaImpl formula_
      | none => .TextImpl text
    else .TextImpl text
  else .TextImpl text

/-- Method `Cell::Set` on the cell at address `id`. -/
def Cell.Set (env : Env) (s : Sheet) (id : CellId) (text : String) : Status × Sheet :=
  match s.deref id with
  | none => (.undefinedBehaviour, s)
  | some _ =>
      let s1 := s.modify id (fun c => { c with cache_ := none })
      let s2 := s1.modify id (fun c => { c with impl_ := some (Cell.makeImpl env text) })
      match Cell.InvalidateCache (s2.cells_.length + 1) s2 id with
      | (.ok, s3) => Cell.UpdateDependencies s3 id
      | r => r

/-- Method `Cell::Clear`. -/
def Cell.Clear (env : Env) (s : Sheet) (id : CellId) : Status × Sheet :=
  Cell.Set env s id ""

/-- Modelled from the spec: `FormulaAST.h` is absent; the result of an IEEE-754 operation
whose exact result is `exact`: the rounded double, or `#ARITHM!` when it is not finite. -/
def Env.finite (env : Env) (exact : Rat) : Except FormulaError Rat :=
  match env.roundDouble exact with
  | some d => .ok d
  | none => .error .Arithm

/-- Modelled from the spec: `FormulaAST.h` is absent; IEEE-754 arithmetic of a binary
operator, where division by zero, overflow and any non-finite result are `#ARITHM!`. -/
def BinaryOp.apply (env : Env) : BinaryOp → Rat → Rat → Except FormulaError Rat
  | .Add, a, b => env.finite (a + b)
  | .Sub, a, b => env.finite (a - b)
  | .Mul, a, b => env.finite (a * b)
  | .Div, a, b => if b = 0 then .error .Arithm else env.finite (a / b)

/-- Modelled from the spec: `FormulaAST.h` is absent; arithmetic of a unary operator (a sign
change is exact in IEEE-754). -/
def UnaryOp.apply : UnaryOp → Rat → Rat
  | .Plus, a => a
  | .Minus, a => -a

/-- Modelled from the spec: `FormulaAST.h` is absent; `ast_.Execute(sheet)` evaluates operands
post-order, a reference outside the grid is `#REF!`, a reference to an absent or empty cell
is `0`, otherwise the cell's `GetValue()` is used (`getValue`, which also returns the sheet
with the caches it filled): an error propagates, text is converted or is `#VALUE!`. -/
def FormulaAST.Execute (env : Env) (getValue : Sheet → CellId → Option (Value × Sheet)) :
    FormulaAST → Sheet → Option (Except FormulaError Rat × Sheet)
  | .Number v, s => some (.ok v, s)
  | .CellRef p, s =>
      if !p.IsValid then some (.error .Ref, s)
      else
        match s.find p with
        | none => some (.ok 0, s)
        | some e =>
            if (e.cell.GetText env).data = [] then some (.ok 0, s)
            else
              match getValue s e.addr with
              | none => none
              | some (.number d, s1) => some (.ok d, s1)
              | some (.error fe, s1) => some (.error fe, s1)
              | some (.text t, s1) =>
                  match env.toDouble t with
                  | some d => some (.ok d, s1)
                  | none => some (.error .Value, s1)
  | .UnaryOpExpr op e, s =>
      match FormulaAST.Execute env getValue e s with
      | none => none
      | some (.error fe, s1) => some (.error fe, s1)
      | some (.ok a, s1) => some (.ok (op.apply a), s1)
  | .BinaryOpExpr op l r, s =>
      match FormulaAST.Execute env getValue l s with
      | none => none
      | some (.error fe, s1) => some (.error fe, s1)
      | some (.ok a, s1) =>
          match FormulaAST.Execute env getValue r s1 with
          | none => none
          | some (.error fe, s2) => some (.error fe, s2)
          | some (.ok b, s2) => some (op.apply env a b, s2)

/-- Method `FormulaImpl::Evaluate` (through `Formula::Evaluate`): the double or the error, as a
`CellInterface::Value`. -/
def FormulaImpl.Evaluate (env : Env) (getValue : Sheet → CellId → Option (Value × Sheet))
    (formula_ : FormulaAST) (s : Sheet) : Option (Value × Sheet) :=
  match FormulaAST.Execute env getValue formula_ s with
  | none => none
  | some (.ok d, s1) => some (.number d, s1)
  | some (.error fe, s1) => some (.error fe, s1)

/-- Method `Cell::GetValue` on the cell at address `id`, with the evaluator it calls for a formula
body passed in as `Evaluate`.  `none`: the call does not return. -/
def Cell.GetValueWith (Evaluate : FormulaAST → Sheet → Option (Value × Sheet))
    (s : Sheet) (id : CellId) : Option (Value × Sheet) :=
  match s.deref id with
  | none => none
  | some c =>
      match c.cache_ with
      | some v => some (v, s)
      | none =>
          match c.impl_ with
          | none => some (.text "", s)
          | some (.FormulaImpl formula_) =>
              match Evaluate formula_ s with
              | none => none
              | some (v, s1) => some (v, s1.modify id (fun c => { c with cache_ := some v }))
          | some impl =>
              let v := impl.GetValue
              some (v, s.modify id (fun c => { c with cache_ := some v }))

/-- Method `Cell::GetValue` with the evaluator of `FormulaImpl::Evaluate`; the fuel bounds the depth
of the chain of formula cells evaluated through one another. -/
def Cell.GetValue (env : Env) : Nat → Sheet → CellId → Option (Value × Sheet)
  | 0 => fun _ _ => none
  | fuel + 1 => Cell.GetValueWith (FormulaImpl.Evaluate env (Cell.GetValue env fuel))

/-! ## `sheet.cpp` -/

/-- Method `Sheet::UpdatePrintableSize`. -/
def Sheet.UpdatePrintableSize (s : Sheet) (pos : Position) : Sheet :=
  { s with printableSize_ :=
      ⟨max s.printableSize_.rows (pos.row + 1), max s.printableSize_.cols (pos.col + 1)⟩ }

/-- Result of the lambda `dfs`: it returned `true`, it returned `false` (with the two sets
as it leaves them), or the traversal faulted. -/
inductive DfsResult where
  | found
  | notFound (visited path : List CellId)
  | fault (st : Status)
deriving DecidableEq

/-- The `for` loop of lines 133-140, with the recursive call passed in as `dfs`. -/
def dfsLoop (dfs : List CellId → List CellId → CellId → DfsResult) :
    List CellId → List CellId → List CellId → DfsResult
  | [], visited, path => .notFound visited path
  | nextCell :: rest, visited, path =>
      if nextCell ∈ path then .found
      else
        match dfs visited path nextCell with
        | .notFound visited1 path1 => dfsLoop dfs rest visited1 path1
        | r => r

/-- The lambda `dfs` of `Sheet::HasCircularDependency`. -/
def dfs (s : Sheet) : Nat → List CellId → List CellId → CellId → DfsResult
  | 0, _, _, _ => .fault .outOfFuel
  | fuel + 1, visited, path, cell =>
      if cell ∈ visited then .notFound visited path
      else
        let visited1 := setInsert visited cell
        let path1 := setInsert path cell
        match s.deref cell with
        | none => .fault .undefinedBehaviour
        | some c =>
            match dfsLoop (dfs s fuel) c.GetDependentCells visited1 path1 with
            | .notFound visited2 path2 => .notFound visited2 (setErase path2 cell)
            | r => r

/-- Method `Sheet::HasCircularDependency`. -/
def Sheet.HasCircularDependency (s : Sheet) (startCell : CellId) : DfsResult :=
  dfs s (s.cells_.length + 1) [] [] startCell

/-- Lines 20-22 of `Sheet::SetCell`: a missing cell is allocated and put into the map. -/
def Sheet.ensureCell (s : Sheet) (pos : Position) : Sheet :=
  if s.count pos then s
  else { s with cells_ := s.cells_ ++ [⟨pos, s.nextAddr, {}⟩], nextAddr := s.nextAddr + 1 }

/-- Lines 33-41 of `Sheet::SetCell`, where `cell` is `cells_[pos].get()`: set the text, and
on a cycle clear the cell and throw, else extend the printable size. -/
def Sheet.setAndCheck (env : Env) (s1 : Sheet) (pos : Position) (cell : CellId) (text : String) :
    Status × Sheet :=
  match Cell.Set env s1 cell text with
  | (.ok, s2) =>
      match s2.HasCircularDependency cell with
      | .found =>
          match Cell.Clear env s2 cell with
          | (.ok, s3) => (.CircularDependencyException, s3)
          | r => r
      | .notFound _ _ => (.ok, s2.UpdatePrintableSize pos)
      | .fault st => (st, s2)
  | r => r

/-- Method `Sheet::SetCell`. -/
def Sheet.SetCell (env : Env) (s : Sheet) (pos : Position) (text : String) : Status × Sheet :=
  if !pos.IsValid then (.InvalidPositionException, s)
  else
    let s1 := s.ensureCell pos
    if front text = FORMULA_SIGN ∧ size text > 1 ∧ ParseFormula env (substr1 text) = none then
      (.FormulaException, s1)
    else
      match s1.find pos with
      | none => (.undefinedBehaviour, s1)
      | some e => s1.setAndCheck env pos e.addr text

/-- Method `Sheet::GetCell`: the status, and the pointer returned: the address of the cell, or
null (`none`) when the map has none. -/
def Sheet.GetCell (s : Sheet) (pos : Position) : Status × Option CellId :=
  if !pos.IsValid then (.InvalidPositionException, none)
  else
    match s.find pos with
    | some e => (.ok, some e.addr)
    | none => (.ok, none)

/-- Method `Sheet::ClearCell`. -/
def Sheet.ClearCell (s : Sheet) (pos : Position) : Status × Sheet :=
  if !pos.IsValid then (.InvalidPositionException, s)
  else if s.count pos then
    let cells := s.cells_.filter (fun e => decide (e.pos ≠ pos))
    (.ok, cells.foldl (fun st e => st.UpdatePrintableSize e.pos)
            { s with cells_ := cells, printableSize_ := ⟨0, 0⟩ })
  else (.ok, s)

/-- Method `Sheet::GetPrintableSize`. -/
def Sheet.GetPrintableSize (s : Sheet) : Size :=
  s.printableSize_

/-- Call `GetCell(pos)->GetText()` for a position that holds a cell. -/
def Sheet.GetText (env : Env) (s : Sheet) (pos : Position) : Option String :=
  (s.find pos).map (fun e => e.cell.GetText env)

/-- Call `GetCell(pos)->GetValue()` for a position that holds a cell. -/
def Sheet.GetValue (env : Env) (fuel : Nat) (s : Sheet) (pos : Position) : Option (Value × Sheet) :=
  match s.find pos with
  | some e => Cell.GetValue env fuel s e.addr
  | none => none

/-- Output operator applied to a `CellInterface::Value` by the `std::visit` of
`Sheet::PrintValues` (lines 88-92): text verbatim, a double in the stream's number format
`fmt`, a `FormulaError` as `#ARITHM!` (`operator<<` of `formula.cpp`). -/
def Value.print (fmt : Rat → String) : Value → String
  | .text s => s
  | .number d => fmt d
  | .error _ => "#ARITHM!"

/-- Lines 94-96 and 109-111: a tab after every column but the last. -/
def Sheet.separator (s : Sheet) (col : Nat) : List Char :=
  if (col : Int) < s.printableSize_.cols - 1 then ['\t'] else []

/-- Inner loop of `Sheet::PrintTexts` (lines 104-112) for the row `row`. -/
def Sheet.printTextsRow (env : Env) (s : Sheet) (row : Nat) : List Char :=
  (List.range s.printableSize_.cols.toNat).flatMap fun col =>
    (match s.find ⟨row, col⟩ with
      | some e => (e.cell.GetText env).data
      | none => []) ++ s.separator col

/-- Method `Sheet::PrintTexts`: the characters written to `output`. -/
def Sheet.PrintTexts (env : Env) (s : Sheet) : String :=
  String.mk ((List.range s.printableSize_.rows.toNat).flatMap fun row =>
    s.printTextsRow env row ++ ['\n'])

/-- Inner loop of `Sheet::PrintValues` (lines 85-97) for the row `row`, over the columns
still to print; `out` is what has been written so far, and the sheet is threaded because
`GetValue` fills caches.  The bound `size` is `printableSize_`, which `GetValue` leaves
alone. -/
def Sheet.printValuesCols (env : Env) (fmt : Rat → String) (fuel : Nat) (size : Sheet) (row : Nat) :
    List Nat → List Char → Sheet → Option (List Char × Sheet)
  | [], out, s => some (out, s)
  | col :: rest, out, s =>
      match s.find ⟨row, col⟩ with
      | some e =>
          match Cell.GetValue env fuel s e.addr with
          | none => none
          | some (v, s1) =>
              Sheet.printValuesCols env fmt fuel size row rest
                (out ++ (v.print fmt).data ++ size.separator col) s1
      | none => Sheet.printValuesCols env fmt fuel size row rest (out ++ size.separator col) s

/-- Outer loop of `Sheet::PrintValues` (lines 84-99) over the rows still to print. -/
def Sheet.printValuesRows (env : Env) (fmt : Rat → String) (fuel : Nat) (size : Sheet) :
    List Nat → List Char → Sheet → Option (List Char × Sheet)
  | [], out, s => some (out, s)
  | row :: rest, out, s =>
      match Sheet.printValuesCols env fmt fuel size row
          (List.range size.printableSize_.cols.toNat) out s with
      | none => none
      | some (out1, s1) => Sheet.printValuesRows env fmt fuel size rest (out1 ++ ['\n']) s1

/-- Method `Sheet::PrintValues`: the characters written to `output` and the sheet with the
caches that the calls of `GetValue` filled; `none` when a `GetValue` does not return within
`fuel`. -/
def Sheet.PrintValues (env : Env) (fmt : Rat → String) (fuel : Nat) (s : Sheet) :
    Option (String × Sheet) :=
  (Sheet.printValuesRows env fmt fuel s (List.range s.printableSize_.rows.toNat) [] s).map
    fun r => (String.mk r.1, r.2)

/-! ## Predicates used in the statements -/

/-- Two sheets with the same map nodes (same keys and addresses, in the same order), the
cells related pairwise by `R`, and the same printable size and allocation counter. -/
def Sheet.Rel (R : Cell → Cell → Prop) (s s' : Sheet) : Prop :=
  List.Forall₂ (fun e e' => e'.pos = e.pos ∧ e'.addr = e.addr ∧ R e.cell e'.cell) s.cells_ s'.cells_
    ∧ s'.printableSize_ = s.printableSize_ ∧ s'.nextAddr = s.nextAddr

/-- What `InvalidateCache` may do to a cell: drop the cache and raise the flag. -/
def InvalidatedFrom (c c' : Cell) : Prop :=
  c'.impl_ = c.impl_ ∧ c'.referencedCells_ = c.referencedCells_ ∧
    c'.dependentCells_ = c.dependentCells_ ∧
    (c.isCacheInvalidated_ = true → c'.isCacheInvalidated_ = true) ∧
    (c'.cache_ = c.cache_ ∨ c'.cache_ = none)

/-- What `UpdateDependencies` may do to a cell: change its two edge sets. -/
def RewiredFrom (c c' : Cell) : Prop :=
  c'.impl_ = c.impl_ ∧ c'.cache_ = c.cache_ ∧ c'.isCacheInvalidated_ = c.isCacheInvalidated_

/-- What `GetValue` may do to a cell: fill its cache. -/
def CachedFrom (c c' : Cell) : Prop :=
  c'.impl_ = c.impl_ ∧ c'.isCacheInvalidated_ = c.isCacheInvalidated_ ∧
    c'.referencedCells_ = c.referencedCells_ ∧ c'.dependentCells_ = c.dependentCells_

/-- No edge set of a live cell holds a dangling pointer. -/
def Sheet.PointersLive (s : Sheet) : Prop :=
  ∀ e ∈ s.cells_, (∀ i ∈ e.cell.referencedCells_, (s.deref i).isSome = true) ∧
    (∀ i ∈ e.cell.dependentCells_, (s.deref i).isSome = true)

instance (s : Sheet) : Decidable s.PointersLive := by
  unfold Sheet.PointersLive; infer_instance

/-- Number of live cells whose `isCacheInvalidated_` is still false. -/
def Sheet.unflagged (s : Sheet) : Nat :=
  s.cells_.countP (fun e => !e.cell.isCacheInvalidated_)

/-- Every cell reference of every AST the parser returns is a valid position (spec, formula
surface: cell references are "bounded by MAX_ROWS/MAX_COLS"). -/
def Env.RefsValid (env : Env) : Prop :=
  ∀ expression ast, env.ParseFormulaAST expression = some ast → ∀ p ∈ ast.GetCells, p.IsValid = true

/-- A status that `InvalidateCache` and the DFS can end with. -/
def Status.isFaultOrOk (st : Status) : Prop :=
  st = .ok ∨ st = .undefinedBehaviour ∨ st = .outOfFuel


/-! ## Scenario data -/

/-- Position `A1`. -/
def A1 : Position := ⟨0, 0⟩

/-- Position `A2`. -/
def A2 : Position := ⟨1, 0⟩

/-- Position `B1`. -/
def B1 : Position := ⟨0, 1⟩

/-- Position `B2`. -/
def B2 : Position := ⟨1, 1⟩

/-- An instance of the formula front end for the scenario texts: the parser accepts the
formula bodies `A1`, `A2` and `B2+5` with the trees the grammar gives them and rejects every
other text (among them `*bad`); the printer is the inverse on these trees; the texts `10`
and `20` are read as numbers, every other text is not; the sums the scenarios compute are
integers far below 2^53, which a double holds exactly, so rounding returns them as they
are. -/
def scenarioEnv : Env where
  ParseFormulaAST := fun expression =>
    if expression = "A1" then some (.CellRef A1)
    else if expression = "A2" then some (.CellRef A2)
    else if expression = "B2+5" then some (.BinaryOpExpr .Add (.CellRef B2) (.Number 5))
    else none
  PrintFormula := fun ast =>
    if ast = .CellRef A1 then "A1"
    else if ast = .CellRef A2 then "A2"
    else if ast = .BinaryOpExpr .Add (.CellRef B2) (.Number 5) then "B2+5"
    else ""
  toDouble := fun t => if t = "10" then some 10 else if t = "20" then some 20 else none
  roundDouble := fun exact => some exact

/-- Scenario S3, first call: `SetCell(A1, "=A2")` on the empty sheet. -/
def S3.first : Status × Sheet := Sheet.SetCell scenarioEnv Sheet.empty A1 "=A2"

/-- Scenario S3, second call: `SetCell(A2, "=A1")`. -/
def S3.second : Status × Sheet := Sheet.SetCell scenarioEnv S3.first.2 A2 "=A1"

/-- Scenario S3: the cell of `A1` after the second call. -/
def S3.cellA1 : Cell :=
  { impl_ := some (.FormulaImpl (.CellRef A2)), isCacheInvalidated_ := true,
    dependentCells_ := [1] }

/-- Scenario S3: the cell of `A2` after the second call. -/
def S3.cellA2 : Cell :=
  { impl_ := some (.FormulaImpl (.CellRef A1)), isCacheInvalidated_ := true,
    referencedCells_ := [0] }

/-- Scenario S2: `SetCell(B1, "=B2+5")` on the empty sheet. -/
def S2.setB1 : Status × Sheet := Sheet.SetCell scenarioEnv Sheet.empty B1 "=B2+5"

/-- Scenario S2: the first `GetValue(B1)`. -/
def S2.read1 : Option (Value × Sheet) := Sheet.GetValue scenarioEnv 2 S2.setB1.2 B1

/-- Scenario S2: `SetCell(B2, "10")` in the sheet left by the first read. -/
def S2.setB2 : Status × Sheet :=
  Sheet.SetCell scenarioEnv ((S2.read1.map Prod.snd).getD Sheet.empty) B2 "10"

/-- Scenario S2: the second `GetValue(B1)`. -/
def S2.read2 : Option (Value × Sheet) := Sheet.GetValue scenarioEnv 2 S2.setB2.2 B1

/-- Rollback scenario: `SetCell(A2, "x")` on the empty sheet. -/
def Rollback.setA2 : Status × Sheet := Sheet.SetCell scenarioEnv Sheet.empty A2 "x"

/-- Rollback scenario: then `SetCell(A1, "=A2")`. -/
def Rollback.setA1 : Status × Sheet := Sheet.SetCell scenarioEnv Rollback.setA2.2 A1 "=A2"

/-- Rollback scenario: then `SetCell(A2, "=A1")`, which closes a cycle. -/
def Rollback.cycle : Status × Sheet := Sheet.SetCell scenarioEnv Rollback.setA1.2 A2 "=A1"

/-- Failed-edit scenario: `SetCell(B2, "=*bad")` on the empty sheet. -/
def BadFormula.set : Status × Sheet := Sheet.SetCell scenarioEnv Sheet.empty B2 "=*bad"

/-- Self-reference scenario: `SetCell(B2, "=B2+5")` on the empty sheet. -/
def SelfRef.set : Status × Sheet := Sheet.SetCell scenarioEnv Sheet.empty B2 "=B2+5"

/-- The printable size in the spec's words, for the positions `ps` present in the sheet:
`(0, 0)` when there is none, otherwise one more than the largest row and one more than the
largest column. -/
def IsBoundingSize (ps : List Position) (sz : Size) : Prop :=
  (ps = [] → sz = ⟨0, 0⟩) ∧
    (ps ≠ [] →
      (∃ p ∈ ps, sz.rows = p.row + 1) ∧ (∀ p ∈ ps, p.row + 1 ≤ sz.rows) ∧
      (∃ p ∈ ps, sz.cols = p.col + 1) ∧ (∀ p ∈ ps, p.col + 1 ≤ sz.cols))

instance (ps : List Position) (sz : Size) : Decidable (IsBoundingSize ps sz) := by
  unfold IsBoundingSize; infer_instance

/-- The positions for which `GetCell` returns a cell. -/
def Sheet.positions (s : Sheet) : List Position :=
  s.cells_.map Entry.pos

/-- Shrinking scenario: the text `x` at `A1` and at `B2`. -/
def Shrink.sheet : Sheet :=
  (Sheet.SetCell scenarioEnv (Sheet.SetCell scenarioEnv Sheet.empty A1 "x").2 B2 "x").2

/-- Checks that `rank` strictly decreases along formula references: every cell that a
formula cell's AST refers to and that is present in the sheet has a smaller rank than the
formula cell.  Such a rank exists exactly when the references form no cycle. -/
def Sheet.rankedBy (rank : CellId → Nat) (s : Sheet) : Bool :=
  s.cells_.all fun e =>
    match e.cell.impl_ with
    | some (.FormulaImpl formula_) =>
        formula_.GetCells.all fun p =>
          match s.find p with
          | some e' => decide (rank e'.addr < rank e.addr)
          | none => true
    | _ => true

/-- Re-edit scenario: `SetCell(B2, "10")` on the empty sheet. -/
def Reedit.setB2 : Status × Sheet := Sheet.SetCell scenarioEnv Sheet.empty B2 "10"

/-- Re-edit scenario: then `SetCell(B1, "=B2+5")`; `B2` holds a cell, the edge is recorded. -/
def Reedit.setB1 : Status × Sheet := Sheet.SetCell scenarioEnv Reedit.setB2.2 B1 "=B2+5"

/-- Re-edit scenario: the first `GetValue(B1)`. -/
def Reedit.read1 : Option (Value × Sheet) := Sheet.GetValue scenarioEnv 2 Reedit.setB1.2 B1

/-- Re-edit scenario: then `SetCell(B2, "20")` in the sheet left by the first read. -/
def Reedit.editB2 : Status × Sheet :=
  Sheet.SetCell scenarioEnv ((Reedit.read1.map Prod.snd).getD Sheet.empty) B2 "20"

/-- Re-edit scenario: the second `GetValue(B1)`. -/
def Reedit.read2 : Option (Value × Sheet) := Sheet.GetValue scenarioEnv 2 Reedit.editB2.2 B1

/-- Number of map nodes whose cell the DFS has not visited yet. -/
def Sheet.unvisited (s : Sheet) (visited : List CellId) : Nat :=
  s.cells_.countP (fun e => decide (e.addr ∉ visited))

/-- The sheets reached from the empty sheet by `SetCell` and `ClearCell` calls that return
normally. -/
inductive Sheet.ReachableOk (env : Env) : Sheet → Prop where
  | empty : Sheet.ReachableOk env Sheet.empty
  | setCell (s : Sheet) (pos : Position) (text : String) :
      Sheet.ReachableOk env s → (Sheet.SetCell env s pos text).1 = .ok →
      Sheet.ReachableOk env (Sheet.SetCell env s pos text).2
  | clearCell (s : Sheet) (pos : Position) :
      Sheet.ReachableOk env s → (s.ClearCell pos).1 = .ok →
      Sheet.ReachableOk env (s.ClearCell pos).2

/-- What the edge sets of a cell may become: every pointer they hold was there before or
points to a cell that is live in `s0`. -/
def EdgesWithin (s0 : Sheet) (c c' : Cell) : Prop :=
  (∀ i ∈ c'.referencedCells_, i ∈ c.referencedCells_ ∨ (s0.deref i).isSome = true) ∧
    (∀ i ∈ c'.dependentCells_, i ∈ c.dependentCells_ ∨ (s0.deref i).isSome = true)

/-- The sheets reached from the empty sheet by `SetCell` calls, whatever they end with. -/
inductive Sheet.ReachableBySetCell (env : Env) : Sheet → Prop where
  | empty : Sheet.ReachableBySetCell env Sheet.empty
  | setCell (s : Sheet) (pos : Position) (text : String) :
      Sheet.ReachableBySetCell env s → Sheet.ReachableBySetCell env (Sheet.SetCell env s pos text).2

/-- Number of newline characters in an output. -/
def newlines (out : String) : Nat :=
  out.data.count '\n'

/-- No text that `PrintTexts` can write for a cell of the sheet contains a newline. -/
def Sheet.TextsOneLine (env : Env) (s : Sheet) : Prop :=
  ∀ e ∈ s.cells_, '\n' ∉ (e.cell.GetText env).data

instance (env : Env) (s : Sheet) : Decidable (s.TextsOneLine env) := by
  unfold Sheet.TextsOneLine; infer_instance

/-- The raw text of a text cell, empty for any other body. -/
def Cell.rawText (c : Cell) : String :=
  match c.impl_ with
  | some (.TextImpl text_) => text_
  | _ => ""

/-- What the cached value prints as, empty when the cache is. -/
def Cell.cachedPrint (fmt : Rat → String) (c : Cell) : String :=
  match c.cache_ with
  | some v => v.print fmt
  | none => ""

/-- No value that `GetValue` can return for a cell of the sheet without evaluating a formula
prints with a newline: neither the raw text of a text cell nor a cached value. -/
def Sheet.ValuesOneLine (fmt : Rat → String) (s : Sheet) : Prop :=
  ∀ e ∈ s.cells_, '\n' ∉ e.cell.rawText.data ∧ '\n' ∉ (e.cell.cachedPrint fmt).data

instance (fmt : Rat → String) (s : Sheet) : Decidable (s.ValuesOneLine fmt) := by
  unfold Sheet.ValuesOneLine; infer_instance

/-- A number format for the scenarios: `5`, `15` and `25` print as such. -/
def scenarioFormat (d : Rat) : String :=
  if d = 5 then "5" else if d = 15 then "15" else if d = 25 then "25" else "0"

/-- Print scenario: the text `a`, a newline, `b` at `A1` of the empty sheet. -/
def TwoLines.sheet : Sheet := (Sheet.SetCell scenarioEnv Sheet.empty A1 "a\nb").2

/-- Both directions of every recorded edge, and no dangling pointer: every cell in
`referencedCells_` of a cell is live and has that cell in its `dependentCells_`, and every
cell in `dependentCells_` of a cell is live and has that cell in its `referencedCells_`. -/
def Sheet.EdgesConsistent (s : Sheet) : Prop :=
  ∀ e ∈ s.cells_,
    (∀ i ∈ e.cell.referencedCells_,
      (s.deref i).map (fun c => decide (e.addr ∈ c.dependentCells_)) = some true) ∧
    (∀ i ∈ e.cell.dependentCells_,
      (s.deref i).map (fun c => decide (e.addr ∈ c.referencedCells_)) = some true)

instance (s : Sheet) : Decidable s.EdgesConsistent := by
  unfold Sheet.EdgesConsistent; infer_instance

/-- The invariant of the spec between cache and flag: a filled cache means the flag is
down, a raised flag means the cache is empty. -/
def Cell.CacheFlagConsistent (c : Cell) : Prop :=
  (c.cache_.isSome = true → c.isCacheInvalidated_ = false) ∧
    (c.isCacheInvalidated_ = true → c.cache_ = none)

instance (c : Cell) : Decidable c.CacheFlagConsistent := by
  unfold Cell.CacheFlagConsistent; infer_instance

/-- Call `text.front()` with its precondition `!empty()` made visible: `none` when the
string is empty and there is no character to read. -/
def frontChecked (text : String) : Option Char :=
  text.data.head?

/-- The test of line 25 of `Sheet::SetCell`,
`text.front() == FORMULA_SIGN && text.size() > 1`: `&&` evaluates `text.front()` first, on
whatever text the call was given; `none` when that call has no character to read. -/
def Sheet.formulaGuard (text : String) : Option Bool :=
  (frontChecked text).map fun ch => decide (ch = FORMULA_SIGN) && decide (size text > 1)

/-- Rebuild scenario: the text `x` at `A1`, no cell at `A2`. -/
def Rebuild.sheet : Sheet := (Sheet.SetCell scenarioEnv Sheet.empty A1 "x").2

/-- Rebuild scenario: `Cell::Set("=A2")` on the cell of `A1` (address 0). -/
def Rebuild.set : Status × Sheet := Cell.Set scenarioEnv Rebuild.sheet 0 "=A2"

/-- Flag scenario: the first `GetValue(A1)` on the sheet with the text `x` at `A1`. -/
def Flag.read : Option (Value × Sheet) := Sheet.GetValue scenarioEnv 1 Rebuild.sheet A1

/-- Guard scenario: `SetCell(B2, "=*bad")` fails and leaves an unflagged cell at `B2`; then
`SetCell(B1, "=B2+5")`. -/
def Guard.setB1 : Status × Sheet := Sheet.SetCell scenarioEnv BadFormula.set.2 B1 "=B2+5"

/-- Guard scenario: the sheet after the first `GetValue(B1)`. -/
def Guard.sheet : Sheet :=
  ((Sheet.GetValue scenarioEnv 2 Guard.setB1.2 B1).map Prod.snd).getD Sheet.empty

/-- Guard scenario: then `SetCell(B2, "10")`. -/
def Guard.setB2 : Status × Sheet := Sheet.SetCell scenarioEnv Guard.sheet B2 "10"

/-- Empty-text scenario: `SetCell(A1, "")` on the empty sheet. -/
def EmptyText.set : Status × Sheet := Sheet.SetCell scenarioEnv Sheet.empty A1 ""

/-! ## The graph walked by `HasCircularDependency` -/

/-- Edge of the graph the DFS walks: `j` is among `GetDependentCells()` of the live cell
at `i`. -/
def Sheet.Edge (s : Sheet) (i j : CellId) : Prop :=
  ∃ c, s.deref i = some c ∧ j ∈ c.GetDependentCells

/-- A cycle of the graph can be reached from `i` (possibly through `i` itself). -/
def Sheet.ReachesCycle (s : Sheet) (i : CellId) : Prop :=
  ∃ z, Relation.ReflTransGen s.Edge i z ∧ Relation.TransGen s.Edge z z

/-- The recorded reference graph has no cycle. -/
def Sheet.Acyclic (s : Sheet) : Prop :=
  ∀ i, ¬ Relation.TransGen s.Edge i i

/-- Every pointer in a `referencedCells_` set points to a live cell. -/
def Sheet.RefsLive (s : Sheet) : Prop :=
  ∀ e ∈ s.cells_, ∀ i ∈ e.cell.referencedCells_, (s.deref i).isSome = true

instance (s : Sheet) : Decidable s.RefsLive := by
  unfold Sheet.RefsLive; infer_instance

/-- What one call `dfs(cell)` entered with sets `v` and `p` guarantees about its result. -/
def Sheet.DfsSpec (s : Sheet) (v p : List CellId) (c : CellId) : DfsResult → Prop
  | .found => s.ReachesCycle c
  | .notFound v1 p1 =>
      p1 = p ∧ (∀ x ∈ v, x ∈ v1) ∧ c ∈ v1 ∧ ∀ x ∈ v1, x ∉ p → ¬ s.ReachesCycle x
  | .fault _ => False

/-- What the loop over the neighbours `l` of `c` guarantees about its result. -/
def Sheet.DfsLoopSpec (s : Sheet) (l v p : List CellId) (c : CellId) : DfsResult → Prop
  | .found => s.ReachesCycle c
  | .notFound v1 p1 =>
      p1 = p ∧ (∀ x ∈ v, x ∈ v1) ∧ (∀ y ∈ l, y ∈ v1 ∧ y ∉ p) ∧
        ∀ x ∈ v1, x ∉ p → ¬ s.ReachesCycle x
  | .fault _ => False

/-- Off the cell at `id`, the two sheets record the same references for every pointer. -/
def Sheet.SameRefsOff (id : CellId) (s s' : Sheet) : Prop :=
  ∀ j, j ≠ id →
    (s'.deref j).map Cell.GetDependentCells = (s.deref j).map Cell.GetDependentCells

/-- Loop scenario: two cells whose `referencedCells_` point at each other, and a third
that points at the first. -/
def Loop.sheet : Sheet :=
  { cells_ := [⟨A1, 0, { referencedCells_ := [1] }⟩, ⟨A2, 1, { referencedCells_ := [0] }⟩,
               ⟨B1, 2, { referencedCells_ := [0] }⟩],
    printableSize_ := ⟨2, 2⟩, nextAddr := 3 }

/-- Position `A16385`, in the first row below the grid (`MAX_ROWS` is 16384). -/
def A16385 : Position := ⟨16384, 0⟩

/-- Modelled from the spec: the parser is absent; an instance of the front end in which a
reference outside the grid is parsed into the AST, as the spec's formula surface has it
("Referenced position outside the valid grid produces `#REF!` at execute time"): the
bodies `A1`, `A16385` and `A2+A16385` get the trees the grammar gives them, every other
text is rejected; no text is read as a number. -/
def outOfGridEnv : Env where
  ParseFormulaAST := fun expression =>
    if expression = "A1" then some (.CellRef A1)
    else if expression = "A16385" then some (.CellRef A16385)
    else if expression = "A2+A16385" then
      some (.BinaryOpExpr .Add (.CellRef A2) (.CellRef A16385))
    else none
  PrintFormula := fun ast =>
    if ast = .CellRef A1 then "A1"
    else if ast = .CellRef A16385 then "A16385"
    else if ast = .BinaryOpExpr .Add (.CellRef A2) (.CellRef A16385) then "A2+A16385"
    else ""
  toDouble := fun _ => none
  roundDouble := fun exact => some exact

/-- Out-of-grid scenario: `SetCell(A1, "x")` on the empty sheet. -/
def OutOfGrid.setA1 : Status × Sheet := Sheet.SetCell outOfGridEnv Sheet.empty A1 "x"

/-- Escape scenario: `SetCell(A1, "x")`, then `SetCell(A2, "=A1")`. -/
def Escape.setA2 : Status × Sheet := Sheet.SetCell outOfGridEnv OutOfGrid.setA1.2 A2 "=A1"

/-- Escape scenario: then `SetCell(A1, "=A2+A16385")`. -/
def Escape.setA1 : Status × Sheet :=
  Sheet.SetCell outOfGridEnv Escape.setA2.2 A1 "=A2+A16385"

/-- Dangling scenario: the rollback scenario's `x` at `A2` and `=A2` at `A1`, then
`ClearCell(A2)`. -/
def Dangling.clear : Status × Sheet := Rollback.setA1.2.ClearCell A2

/-- Dangling scenario: then `SetCell(A1, "y")`. -/
def Dangling.set : Status × Sheet := Sheet.SetCell scenarioEnv Dangling.clear.2 A1 "y"

/-! ## Entry-wise relations between sheets -/

theorem forall₂_find? {Q : Entry → Entry → Prop} {p q : Entry → Bool}
    (hp : ∀ a b, Q a b → p a = q b) {l l' : List Entry} (h : List.Forall₂ Q l l') :
    (l.find? p = none ∧ l'.find? q = none) ∨
      ∃ a b, l.find? p = some a ∧ l'.find? q = some b ∧ Q a b := by
  induction h with
  | nil => exact Or.inl ⟨rfl, rfl⟩
  | cons hab _ ih =>
      rename_i a b l l' _
      simp only [List.find?_cons, ← hp a b hab]
      cases hpa : p a with
      | true => exact Or.inr ⟨a, b, rfl, rfl, hab⟩
      | false => exact ih

theorem forall₂_mem_right {Q : Entry → Entry → Prop} {l l' : List Entry}
    (h : List.Forall₂ Q l l') {b : Entry} (hb : b ∈ l') : ∃ a ∈ l, Q a b := by
  induction h with
  | nil => cases hb
  | cons hab _ ih =>
      rename_i a0 b0 l l' _
      rcases List.mem_cons.1 hb with h1 | h1
      · subst h1; exact ⟨a0, List.mem_cons_self _ _, hab⟩
      · obtain ⟨a, ha1, ha2⟩ := ih h1
        exact ⟨a, List.mem_cons_of_mem _ ha1, ha2⟩

theorem forall₂_mem_left {Q : Entry → Entry → Prop} {l l' : List Entry}
    (h : List.Forall₂ Q l l') {a : Entry} (ha : a ∈ l) : ∃ b ∈ l', Q a b := by
  induction h with
  | nil => cases ha
  | cons hab _ ih =>
      rename_i a0 b0 l l' _
      rcases List.mem_cons.1 ha with h1 | h1
      · subst h1; exact ⟨b0, List.mem_cons_self _ _, hab⟩
      · obtain ⟨b, hb1, hb2⟩ := ih h1
        exact ⟨b, List.mem_cons_of_mem _ hb1, hb2⟩

theorem forall₂_same_of {Q : Entry → Entry → Prop} (hQ : ∀ a, Q a a) (l : List Entry) :
    List.Forall₂ Q l l := by
  induction l with
  | nil => exact List.Forall₂.nil
  | cons e l ih => exact List.Forall₂.cons (hQ e) ih

theorem forall₂_map_of {Q : Entry → Entry → Prop} (g : Entry → Entry) (hQ : ∀ a, Q a (g a))
    (l : List Entry) : List.Forall₂ Q l (l.map g) := by
  induction l with
  | nil => exact List.Forall₂.nil
  | cons e l ih => exact List.Forall₂.cons (hQ e) ih

theorem forall₂_trans_of {Q : Entry → Entry → Prop} (hQ : ∀ a b c, Q a b → Q b c → Q a c)
    {l1 l2 l3 : List Entry} (h1 : List.Forall₂ Q l1 l2) (h2 : List.Forall₂ Q l2 l3) :
    List.Forall₂ Q l1 l3 := by
  induction h1 generalizing l3 with
  | nil => cases h2; exact List.Forall₂.nil
  | cons hab _ ih =>
      cases h2 with
      | cons hbc htl => exact List.Forall₂.cons (hQ _ _ _ hab hbc) (ih htl)

theorem Sheet.Rel.refl {R : Cell → Cell → Prop} (hR : ∀ c, R c c) (s : Sheet) : Sheet.Rel R s s :=
  ⟨forall₂_same_of (fun _ => ⟨rfl, rfl, hR _⟩) _, rfl, rfl⟩

theorem Sheet.Rel.mono {R R' : Cell → Cell → Prop} (h : ∀ a b, R a b → R' a b) {s s' : Sheet}
    (hs : Sheet.Rel R s s') : Sheet.Rel R' s s' :=
  ⟨hs.1.imp (fun _ _ hab => ⟨hab.1, hab.2.1, h _ _ hab.2.2⟩), hs.2⟩

theorem Sheet.Rel.trans {R : Cell → Cell → Prop} (hR : ∀ a b c, R a b → R b c → R a c)
    {s t u : Sheet} (h1 : Sheet.Rel R s t) (h2 : Sheet.Rel R t u) : Sheet.Rel R s u :=
  ⟨forall₂_trans_of (fun _ _ _ hab hbc =>
      ⟨hbc.1.trans hab.1, hbc.2.1.trans hab.2.1, hR _ _ _ hab.2.2 hbc.2.2⟩) h1.1 h2.1,
    h2.2.1.trans h1.2.1, h2.2.2.trans h1.2.2⟩

theorem Sheet.modify_rel {R : Cell → Cell → Prop} (hR : ∀ c, R c c) (s : Sheet) (id : CellId)
    (f : Cell → Cell) (hf : ∀ c, R c (f c)) : Sheet.Rel R s (s.modify id f) := by
  refine ⟨forall₂_map_of _ (fun e => ?_) _, rfl, rfl⟩
  by_cases h : e.addr = id
  · simp [h, hf]
  · simp [h, hR]

theorem Sheet.Rel.length_eq {R : Cell → Cell → Prop} {s s' : Sheet} (h : Sheet.Rel R s s') :
    s'.cells_.length = s.cells_.length :=
  h.1.length_eq.symm

theorem Sheet.Rel.find_cases {R : Cell → Cell → Prop} {s s' : Sheet} (h : Sheet.Rel R s s')
    (pos : Position) :
    (s.find pos = none ∧ s'.find pos = none) ∨
      ∃ e e', s.find pos = some e ∧ s'.find pos = some e' ∧
        e'.pos = e.pos ∧ e'.addr = e.addr ∧ R e.cell e'.cell :=
  forall₂_find? (fun a b hab => by simp [hab.1]) h.1

theorem Sheet.Rel.find_some {R : Cell → Cell → Prop} {s s' : Sheet} (h : Sheet.Rel R s s')
    {pos : Position} {e : Entry} (he : s.find pos = some e) :
    ∃ e', s'.find pos = some e' ∧ e'.pos = e.pos ∧ e'.addr = e.addr ∧ R e.cell e'.cell := by
  rcases h.find_cases pos with ⟨h1, _⟩ | ⟨a, b, h1, h2, h3⟩
  · rw [h1] at he; cases he
  · rw [h1] at he; cases he; exact ⟨b, h2, h3⟩

theorem Sheet.Rel.find_some_rev {R : Cell → Cell → Prop} {s s' : Sheet} (h : Sheet.Rel R s s')
    {pos : Position} {e' : Entry} (he : s'.find pos = some e') :
    ∃ e, s.find pos = some e ∧ e'.pos = e.pos ∧ e'.addr = e.addr ∧ R e.cell e'.cell := by
  rcases h.find_cases pos with ⟨_, h1⟩ | ⟨a, b, h1, h2, h3⟩
  · rw [h1] at he; cases he
  · rw [h2] at he; cases he; exact ⟨a, h1, h3⟩

theorem Sheet.Rel.find_none {R : Cell → Cell → Prop} {s s' : Sheet} (h : Sheet.Rel R s s')
    {pos : Position} (he : s.find pos = none) : s'.find pos = none := by
  rcases h.find_cases pos with ⟨_, h1⟩ | ⟨a, b, h1, _, _⟩
  · exact h1
  · rw [h1] at he; cases he

theorem Sheet.Rel.deref_cases {R : Cell → Cell → Prop} {s s' : Sheet} (h : Sheet.Rel R s s')
    (id : CellId) :
    (s.deref id = none ∧ s'.deref id = none) ∨
      ∃ c c', s.deref id = some c ∧ s'.deref id = some c' ∧ R c c' := by
  unfold Sheet.deref
  rcases forall₂_find? (p := fun e => decide (e.addr = id)) (q := fun e => decide (e.addr = id))
      (fun a b hab => by simp [hab.2.1]) h.1 with ⟨h1, h2⟩ | ⟨a, b, h1, h2, h3⟩
  · exact Or.inl ⟨by rw [h1]; rfl, by rw [h2]; rfl⟩
  · exact Or.inr ⟨a.cell, b.cell, by rw [h1]; rfl, by rw [h2]; rfl, h3.2.2⟩

theorem Sheet.Rel.deref_some {R : Cell → Cell → Prop} {s s' : Sheet} (h : Sheet.Rel R s s')
    {id : CellId} {c : Cell} (hc : s.deref id = some c) :
    ∃ c', s'.deref id = some c' ∧ R c c' := by
  rcases h.deref_cases id with ⟨h1, _⟩ | ⟨a, b, h1, h2, h3⟩
  · rw [h1] at hc; cases hc
  · rw [h1] at hc; cases hc; exact ⟨b, h2, h3⟩

theorem Sheet.Rel.deref_isSome {R : Cell → Cell → Prop} {s s' : Sheet} (h : Sheet.Rel R s s')
    (id : CellId) : (s'.deref id).isSome = (s.deref id).isSome := by
  rcases h.deref_cases id with ⟨h1, h2⟩ | ⟨a, b, h1, h2, _⟩
  · rw [h1, h2]
  · rw [h1, h2]; rfl

theorem Sheet.Rel.mem_right {R : Cell → Cell → Prop} {s s' : Sheet} (h : Sheet.Rel R s s')
    {e' : Entry} (he : e' ∈ s'.cells_) :
    ∃ e ∈ s.cells_, e'.pos = e.pos ∧ e'.addr = e.addr ∧ R e.cell e'.cell :=
  forall₂_mem_right h.1 he

theorem Sheet.deref_modify (s : Sheet) (id : CellId) (f : Cell → Cell) :
    (s.modify id f).deref id = (s.deref id).map f := by
  unfold Sheet.deref Sheet.modify
  simp only
  induction s.cells_ with
  | nil => rfl
  | cons e l ih =>
      simp only [List.map_cons, List.find?_cons]
      by_cases h : e.addr = id
      · simp [h]
      · simp only [h, if_false, decide_False]
        exact ih

theorem Sheet.deref_modify_ne (s : Sheet) {id j : CellId} (f : Cell → Cell) (h : j ≠ id) :
    (s.modify id f).deref j = s.deref j := by
  unfold Sheet.deref Sheet.modify
  simp only
  induction s.cells_ with
  | nil => rfl
  | cons e l ih =>
      simp only [List.map_cons, List.find?_cons]
      by_cases h1 : e.addr = id
      · have h2 : ¬ e.addr = j := fun h3 => h (h3.symm.trans h1)
        simp only [h1, if_true]
        rw [h1] at h2
        simp only [h2, decide_False]
        exact ih
      · simp only [h1, if_false]
        by_cases h2 : e.addr = j
        · simp [h2]
        · simp only [h2, decide_False]
          exact ih

theorem Sheet.mem_modify {s : Sheet} {id : CellId} {f : Cell → Cell} {e' : Entry}
    (he : e' ∈ (s.modify id f).cells_) :
    ∃ e ∈ s.cells_, e'.pos = e.pos ∧ e'.addr = e.addr ∧
      e'.cell = if e.addr = id then f e.cell else e.cell := by
  unfold Sheet.modify at he
  simp only [List.mem_map] at he
  obtain ⟨e, he1, he2⟩ := he
  refine ⟨e, he1, ?_⟩
  subst he2
  by_cases h : e.addr = id <;> simp [h]
/-! ## Loops and `InvalidateCache` -/

theorem forEach_spec {α : Type} (step : Sheet → α → Status × Sheet) (l : List α)
    (I : Sheet → Prop) (Good : Status → Prop) (T : Sheet → Sheet → Prop)
    (hrefl : ∀ s, T s s) (htrans : ∀ a b c, T a b → T b c → T a c) (hok : Good .ok)
    (hstep : ∀ s x, x ∈ l → I s →
      Good (step s x).1 ∧ T s (step s x).2 ∧ ((step s x).1 = .ok → I (step s x).2)) :
    ∀ s, I s → Good (forEach step l s).1 ∧ T s (forEach step l s).2 ∧
      ((forEach step l s).1 = .ok → I (forEach step l s).2) := by
  induction l with
  | nil => intro s hs; exact ⟨hok, hrefl s, fun _ => hs⟩
  | cons x rest ih =>
      intro s hs
      have h1 := hstep s x (List.mem_cons_self _ _) hs
      have ih1 := ih (fun s y hy => hstep s y (List.mem_cons_of_mem _ hy))
      unfold forEach
      rcases hsx : step s x with ⟨st, s1⟩
      rw [hsx] at h1
      cases st with
      | ok =>
          simp only
          have h2 := ih1 s1 (h1.2.2 rfl)
          exact ⟨h2.1, htrans _ _ _ h1.2.1 h2.2.1, h2.2.2⟩
      | InvalidPositionException => exact ⟨h1.1, h1.2.1, fun h => by cases h⟩
      | FormulaException => exact ⟨h1.1, h1.2.1, fun h => by cases h⟩
      | CircularDependencyException => exact ⟨h1.1, h1.2.1, fun h => by cases h⟩
      | undefinedBehaviour => exact ⟨h1.1, h1.2.1, fun h => by cases h⟩
      | outOfFuel => exact ⟨h1.1, h1.2.1, fun h => by cases h⟩

theorem invalidatedFrom_refl (c : Cell) : InvalidatedFrom c c :=
  ⟨rfl, rfl, rfl, id, Or.inl rfl⟩

theorem invalidatedFrom_trans (a b c : Cell) (h1 : InvalidatedFrom a b) (h2 : InvalidatedFrom b c) :
    InvalidatedFrom a c := by
  obtain ⟨a1, a2, a3, a4, a5⟩ := h1
  obtain ⟨b1, b2, b3, b4, b5⟩ := h2
  refine ⟨b1.trans a1, b2.trans a2, b3.trans a3, fun h => b4 (a4 h), ?_⟩
  rcases b5 with h | h
  · rcases a5 with h' | h'
    · exact Or.inl (h.trans h')
    · exact Or.inr (h.trans h')
  · exact Or.inr h

theorem rewiredFrom_refl (c : Cell) : RewiredFrom c c := ⟨rfl, rfl, rfl⟩

theorem rewiredFrom_trans (a b c : Cell) (h1 : RewiredFrom a b) (h2 : RewiredFrom b c) :
    RewiredFrom a c :=
  ⟨h2.1.trans h1.1, h2.2.1.trans h1.2.1, h2.2.2.trans h1.2.2⟩

theorem cachedFrom_refl (c : Cell) : CachedFrom c c := ⟨rfl, rfl, rfl, rfl⟩

theorem cachedFrom_trans (a b c : Cell) (h1 : CachedFrom a b) (h2 : CachedFrom b c) :
    CachedFrom a c :=
  ⟨h2.1.trans h1.1, h2.2.1.trans h1.2.1, h2.2.2.1.trans h1.2.2.1, h2.2.2.2.trans h1.2.2.2⟩

theorem Cell.InvalidateCache_rel (fuel : Nat) : ∀ (s : Sheet) (id : CellId),
    (Cell.InvalidateCache fuel s id).1.isFaultOrOk ∧
      Sheet.Rel InvalidatedFrom s (Cell.InvalidateCache fuel s id).2 := by
  induction fuel with
  | zero => intro s id; exact ⟨Or.inr (Or.inr rfl), Sheet.Rel.refl invalidatedFrom_refl s⟩
  | succ n ih =>
      intro s id
      unfold Cell.InvalidateCache
      cases hd : s.deref id with
      | none => exact ⟨Or.inr (Or.inl rfl), Sheet.Rel.refl invalidatedFrom_refl s⟩
      | some c =>
          simp only
          by_cases hf : c.isCacheInvalidated_ = true
          · rw [if_pos hf]; exact ⟨Or.inl rfl, Sheet.Rel.refl invalidatedFrom_refl s⟩
          · rw [if_neg hf]
            have h1 : Sheet.Rel InvalidatedFrom s
                (s.modify id (fun c => { c with cache_ := none, isCacheInvalidated_ := true })) :=
              Sheet.modify_rel invalidatedFrom_refl s id _
                (fun c => ⟨rfl, rfl, rfl, fun _ => rfl, Or.inr rfl⟩)
            have h2 := forEach_spec (fun st d => Cell.InvalidateCache n st d) c.dependentCells_
              (fun _ => True) Status.isFaultOrOk (Sheet.Rel InvalidatedFrom)
              (Sheet.Rel.refl invalidatedFrom_refl)
              (fun _ _ _ => Sheet.Rel.trans invalidatedFrom_trans) (Or.inl rfl)
              (fun st d _ _ => ⟨(ih st d).1, (ih st d).2, fun _ => trivial⟩)
              (s.modify id (fun c => { c with cache_ := none, isCacheInvalidated_ := true })) trivial
            exact ⟨h2.1, Sheet.Rel.trans invalidatedFrom_trans h1 h2.2.1⟩

theorem Sheet.deref_some_mem {s : Sheet} {id : CellId} {c : Cell} (h : s.deref id = some c) :
    ∃ e ∈ s.cells_, e.addr = id ∧ e.cell = c := by
  unfold Sheet.deref at h
  cases hf : s.cells_.find? (fun e => decide (e.addr = id)) with
  | none => rw [hf] at h; cases h
  | some e =>
      rw [hf] at h
      refine ⟨e, List.mem_of_find?_eq_some hf, ?_, by simpa using h⟩
      simpa using List.find?_some hf

theorem Sheet.find_some_mem {s : Sheet} {pos : Position} {e : Entry} (h : s.find pos = some e) :
    e ∈ s.cells_ ∧ e.pos = pos := by
  unfold Sheet.find at h
  exact ⟨List.mem_of_find?_eq_some h, by simpa using List.find?_some h⟩

theorem Sheet.deref_of_find {s : Sheet} {pos : Position} {e : Entry} (h : s.find pos = some e) :
    (s.deref e.addr).isSome = true := by
  have hm := (Sheet.find_some_mem h).1
  unfold Sheet.deref
  cases hf : s.cells_.find? (fun x => decide (x.addr = e.addr)) with
  | none =>
      have := List.find?_eq_none.1 hf e hm
      simp at this
  | some x => rfl

theorem Sheet.PointersLive.of_rel {R : Cell → Cell → Prop} {s s' : Sheet}
    (hR : ∀ c c', R c c' →
      c'.referencedCells_ = c.referencedCells_ ∧ c'.dependentCells_ = c.dependentCells_)
    (h : Sheet.Rel R s s') (hs : s.PointersLive) : s'.PointersLive := by
  intro e' he'
  obtain ⟨e, he, _, _, hr⟩ := h.mem_right he'
  obtain ⟨h1, h2⟩ := hR _ _ hr
  rw [h1, h2]
  refine ⟨fun i hi => ?_, fun i hi => ?_⟩
  · rw [h.deref_isSome]; exact (hs e he).1 i hi
  · rw [h.deref_isSome]; exact (hs e he).2 i hi

theorem countP_unflagged_le {l l' : List Entry}
    (h : List.Forall₂ (fun e e' => e'.pos = e.pos ∧ e'.addr = e.addr ∧ InvalidatedFrom e.cell e'.cell)
      l l') :
    l'.countP (fun e => !e.cell.isCacheInvalidated_) ≤ l.countP (fun e => !e.cell.isCacheInvalidated_) := by
  induction h with
  | nil => exact Nat.le_refl _
  | cons hab _ ih =>
      rename_i a b l l' _
      simp only [List.countP_cons]
      have h4 := hab.2.2.2.2.2.1
      cases ha : a.cell.isCacheInvalidated_ with
      | true => rw [h4 ha]; simpa using ih
      | false =>
          cases hb : b.cell.isCacheInvalidated_ with
          | true => simp only [Bool.not_true, Bool.not_false, if_true]; simp; omega
          | false => simpa using ih

theorem Sheet.unflagged_le {s s' : Sheet} (h : Sheet.Rel InvalidatedFrom s s') :
    s'.unflagged ≤ s.unflagged :=
  countP_unflagged_le h.1

theorem countP_flagged_lt (id : CellId) (g : Entry → Entry)
    (hg : ∀ e, g e = if e.addr = id then
      { e with cell := { e.cell with cache_ := none, isCacheInvalidated_ := true } } else e)
    {c : Cell} (hf : c.isCacheInvalidated_ = false) :
    ∀ l : List Entry, (l.find? (fun e => decide (e.addr = id))).map Entry.cell = some c →
      (l.map g).countP (fun e => !e.cell.isCacheInvalidated_)
        < l.countP (fun e => !e.cell.isCacheInvalidated_) := by
  have key : ∀ l : List Entry, List.Forall₂
      (fun e e' => e'.pos = e.pos ∧ e'.addr = e.addr ∧ InvalidatedFrom e.cell e'.cell) l (l.map g) := by
    intro l
    refine forall₂_map_of g (fun e => ?_) l
    rw [hg e]
    by_cases h1 : e.addr = id
    · rw [if_pos h1]
      exact ⟨rfl, rfl, rfl, rfl, rfl, fun _ => rfl, Or.inr rfl⟩
    · rw [if_neg h1]
      exact ⟨rfl, rfl, invalidatedFrom_refl _⟩
  intro l
  induction l with
  | nil => intro hd; simp at hd
  | cons a l ih =>
      intro hd
      rw [List.map_cons, List.countP_cons, List.countP_cons]
      by_cases h : a.addr = id
      · have ha : a.cell = c := by simpa [List.find?_cons, h] using hd
        have hle := countP_unflagged_le (key l)
        have h1 : (!(g a).cell.isCacheInvalidated_) = false := by rw [hg a, if_pos h]; rfl
        have h2 : (!a.cell.isCacheInvalidated_) = true := by rw [ha, hf]; rfl
        rw [h1, h2]
        simp only [Bool.false_eq_true, if_false, if_true]
        omega
      · have hd' : (l.find? (fun e => decide (e.addr = id))).map Entry.cell = some c := by
          simpa [List.find?_cons, h] using hd
        have h1 : g a = a := by rw [hg a, if_neg h]
        rw [h1]
        have := ih hd'
        omega

theorem Sheet.unflagged_modify_lt {s : Sheet} {id : CellId} {c : Cell} (hd : s.deref id = some c)
    (hf : c.isCacheInvalidated_ = false) :
    (s.modify id (fun c => { c with cache_ := none, isCacheInvalidated_ := true })).unflagged
      < s.unflagged :=
  countP_flagged_lt id _ (fun _ => rfl) hf s.cells_ hd

theorem Cell.InvalidateCache_ok (fuel : Nat) : ∀ (s : Sheet) (id : CellId),
    s.PointersLive → (s.deref id).isSome = true → s.unflagged < fuel →
      (Cell.InvalidateCache fuel s id).1 = .ok := by
  have hedges : ∀ c c', InvalidatedFrom c c' →
      c'.referencedCells_ = c.referencedCells_ ∧ c'.dependentCells_ = c.dependentCells_ :=
    fun _ _ h => ⟨h.2.1, h.2.2.1⟩
  induction fuel with
  | zero => intro s id _ _ h; exact absurd h (Nat.not_lt_zero _)
  | succ n ih =>
      intro s id hpl hlive hlt
      unfold Cell.InvalidateCache
      cases hd : s.deref id with
      | none => rw [hd] at hlive; cases hlive
      | some c =>
          simp only
          by_cases hf : c.isCacheInvalidated_ = true
          · rw [if_pos hf]
          · rw [if_neg hf]
            have hf' : c.isCacheInvalidated_ = false := by simpa using hf
            have h1 : Sheet.Rel InvalidatedFrom s
                (s.modify id (fun c => { c with cache_ := none, isCacheInvalidated_ := true })) :=
              Sheet.modify_rel invalidatedFrom_refl s id _
                (fun c => ⟨rfl, rfl, rfl, fun _ => rfl, Or.inr rfl⟩)
            have hlt1 := Sheet.unflagged_modify_lt hd hf'
            obtain ⟨e, he, _, hec⟩ := Sheet.deref_some_mem hd
            have h2 := forEach_spec (fun st d => Cell.InvalidateCache n st d) c.dependentCells_
              (fun st => Sheet.Rel InvalidatedFrom s st ∧ st.unflagged < n) (fun st => st = .ok)
              (fun _ _ => True) (fun _ => trivial) (fun _ _ _ _ _ => trivial) rfl
              (fun st d hdm hI => by
                have hr := (Cell.InvalidateCache_rel n st d).2
                refine ⟨ih st d (Sheet.PointersLive.of_rel hedges hI.1 hpl) ?_ hI.2, trivial,
                  fun _ => ⟨Sheet.Rel.trans invalidatedFrom_trans hI.1 hr, ?_⟩⟩
                · rw [hI.1.deref_isSome]
                  exact (hpl e he).2 d (hec ▸ hdm)
                · exact Nat.lt_of_le_of_lt (Sheet.unflagged_le hr) hI.2)
              (s.modify id (fun c => { c with cache_ := none, isCacheInvalidated_ := true }))
              ⟨h1, by omega⟩
            exact h2.1

theorem Sheet.unflagged_le_length (s : Sheet) : s.unflagged ≤ s.cells_.length :=
  List.countP_le_length _
/-! ## `UpdateDependencies` and `Set` -/

theorem Sheet.Rel.forall_addr {R : Cell → Cell → Prop} {s s' : Sheet} (h : Sheet.Rel R s s')
    {P : Cell → Prop} (hP : ∀ c c', R c c' → P c → P c') {id : CellId}
    (hs : ∀ e ∈ s.cells_, e.addr = id → P e.cell) :
    ∀ e' ∈ s'.cells_, e'.addr = id → P e'.cell := by
  intro e' he' hid
  obtain ⟨e, he, _, ha, hr⟩ := h.mem_right he'
  exact hP _ _ hr (hs e he (ha ▸ hid))

theorem removeDependentStep_spec (id : CellId) (s : Sheet) (oldCell : CellId) :
    ((removeDependentStep id s oldCell).1 = .ok ∨
        (removeDependentStep id s oldCell).1 = .undefinedBehaviour) ∧
      Sheet.Rel RewiredFrom s (removeDependentStep id s oldCell).2 ∧
      ((s.deref oldCell).isSome = true → (removeDependentStep id s oldCell).1 = .ok) := by
  unfold removeDependentStep
  cases hd : s.deref oldCell with
  | none => exact ⟨Or.inr rfl, Sheet.Rel.refl rewiredFrom_refl s, fun h => by cases h⟩
  | some c =>
      exact ⟨Or.inl rfl, Sheet.modify_rel rewiredFrom_refl s _ _ (fun _ => ⟨rfl, rfl, rfl⟩),
        fun _ => rfl⟩

theorem addReferenceStep_spec (id : CellId) (s : Sheet) (pos : Position) :
    ((addReferenceStep id s pos).1 = .ok ∨
        ((addReferenceStep id s pos).1 = .InvalidPositionException ∧ pos.IsValid = false)) ∧
      Sheet.Rel RewiredFrom s (addReferenceStep id s pos).2 := by
  unfold addReferenceStep
  cases hv : pos.IsValid with
  | false => exact ⟨Or.inr ⟨rfl, rfl⟩, Sheet.Rel.refl rewiredFrom_refl s⟩
  | true =>
      simp only [Bool.not_true, Bool.false_eq_true, if_false]
      cases hf : s.find pos with
      | none => exact ⟨Or.inl rfl, Sheet.Rel.refl rewiredFrom_refl s⟩
      | some e =>
          refine ⟨Or.inl rfl, ?_⟩
          refine Sheet.Rel.trans rewiredFrom_trans
            (t := s.modify id
              (fun c => { c with referencedCells_ := setInsert c.referencedCells_ e.addr })) ?_ ?_
          · exact Sheet.modify_rel rewiredFrom_refl s _ _ (fun _ => ⟨rfl, rfl, rfl⟩)
          · exact Sheet.modify_rel rewiredFrom_refl _ _ _ (fun _ => ⟨rfl, rfl, rfl⟩)

theorem removeLoop_spec (id : CellId) (l : List CellId) (s : Sheet) :
    ((forEach (removeDependentStep id) l s).1 = .ok ∨
        (forEach (removeDependentStep id) l s).1 = .undefinedBehaviour) ∧
      Sheet.Rel RewiredFrom s (forEach (removeDependentStep id) l s).2 ∧
      ((∀ x ∈ l, (s.deref x).isSome = true) → (forEach (removeDependentStep id) l s).1 = .ok) := by
  have h1 := forEach_spec (removeDependentStep id) l (fun _ => True)
    (fun st => st = .ok ∨ st = .undefinedBehaviour) (Sheet.Rel RewiredFrom)
    (Sheet.Rel.refl rewiredFrom_refl) (fun _ _ _ => Sheet.Rel.trans rewiredFrom_trans) (Or.inl rfl)
    (fun st x _ _ => ⟨(removeDependentStep_spec id st x).1, (removeDependentStep_spec id st x).2.1,
      fun _ => trivial⟩) s trivial
  refine ⟨h1.1, h1.2.1, fun hl => ?_⟩
  have h2 := forEach_spec (removeDependentStep id) l (fun st => Sheet.Rel RewiredFrom s st)
    (fun st => st = .ok) (fun _ _ => True) (fun _ => trivial) (fun _ _ _ _ _ => trivial) rfl
    (fun st x hx hI => by
      have h3 := removeDependentStep_spec id st x
      refine ⟨h3.2.2 ?_, trivial, fun _ => Sheet.Rel.trans rewiredFrom_trans hI h3.2.1⟩
      rw [hI.deref_isSome]; exact hl x hx) s (Sheet.Rel.refl rewiredFrom_refl s)
  exact h2.1

theorem addLoop_spec (id : CellId) (l : List Position) (s : Sheet) :
    ((forEach (addReferenceStep id) l s).1 = .ok ∨
        ((forEach (addReferenceStep id) l s).1 = .InvalidPositionException ∧
          ∃ p ∈ l, p.IsValid = false)) ∧
      Sheet.Rel RewiredFrom s (forEach (addReferenceStep id) l s).2 := by
  have h1 := forEach_spec (addReferenceStep id) l (fun _ => True)
    (fun st => st = .ok ∨ (st = .InvalidPositionException ∧ ∃ p ∈ l, p.IsValid = false))
    (Sheet.Rel RewiredFrom)
    (Sheet.Rel.refl rewiredFrom_refl) (fun _ _ _ => Sheet.Rel.trans rewiredFrom_trans) (Or.inl rfl)
    (fun st x hx _ => by
      refine ⟨?_, (addReferenceStep_spec id st x).2, fun _ => trivial⟩
      rcases (addReferenceStep_spec id st x).1 with h | ⟨h, hv⟩
      · exact Or.inl h
      · exact Or.inr ⟨h, x, hx, hv⟩) s trivial
  exact ⟨h1.1, h1.2.1⟩

/-- The facts about one run of `UpdateDependencies` that the statements below use. -/
theorem Cell.UpdateDependencies_spec (s : Sheet) (id : CellId) :
    ((Cell.UpdateDependencies s id).1 = .ok ∨
        (Cell.UpdateDependencies s id).1 = .undefinedBehaviour ∨
        ((Cell.UpdateDependencies s id).1 = .InvalidPositionException ∧
          ∃ c formula_ p, s.deref id = some c ∧ c.impl_ = some (.FormulaImpl formula_) ∧
            p ∈ Formula.GetReferencedCells formula_ ∧ p.IsValid = false)) ∧
      Sheet.Rel RewiredFrom s (Cell.UpdateDependencies s id).2 := by
  unfold Cell.UpdateDependencies
  cases hd : s.deref id with
  | none => exact ⟨Or.inr (Or.inl rfl), Sheet.Rel.refl rewiredFrom_refl s⟩
  | some c =>
      simp only
      have h1 := removeLoop_spec id c.referencedCells_ s
      rcases hr : forEach (removeDependentStep id) c.referencedCells_ s with ⟨st, s1⟩
      rw [hr] at h1
      have hm : Sheet.Rel RewiredFrom s (s1.modify id (fun c => { c with referencedCells_ := [] })) :=
        Sheet.Rel.trans rewiredFrom_trans h1.2.1
          (Sheet.modify_rel rewiredFrom_refl _ _ _ (fun _ => ⟨rfl, rfl, rfl⟩))
      rcases h1.1 with h | h
      · simp only at h
        subst h
        simp only
        cases hi : c.impl_ with
        | none => exact ⟨Or.inl rfl, hm⟩
        | some impl =>
            cases impl with
            | EmptyImpl => exact ⟨Or.inl rfl, hm⟩
            | TextImpl t => exact ⟨Or.inl rfl, hm⟩
            | FormulaImpl f =>
                simp only
                have h2 := addLoop_spec id (Formula.GetReferencedCells f)
                  (s1.modify id (fun c => { c with referencedCells_ := [] }))
                refine ⟨?_, Sheet.Rel.trans rewiredFrom_trans hm h2.2⟩
                rcases h2.1 with h3 | ⟨h3, p, hp, hv⟩
                · exact Or.inl h3
                · exact Or.inr (Or.inr ⟨h3, c, f, p, rfl, hi, hp, hv⟩)
      · simp only at h
        subst h
        exact ⟨Or.inr (Or.inl rfl), h1.2.1⟩

/-- With live old targets and a body that is not a formula, `UpdateDependencies` returns and
leaves the cell without outgoing edges. -/
theorem Cell.UpdateDependencies_no_formula {s : Sheet} {id : CellId} {c : Cell}
    (hd : s.deref id = some c) (hlive : ∀ x ∈ c.referencedCells_, (s.deref x).isSome = true)
    (himpl : ∀ formula_, c.impl_ ≠ some (.FormulaImpl formula_)) :
    (Cell.UpdateDependencies s id).1 = .ok ∧
      ∃ c', (Cell.UpdateDependencies s id).2.deref id = some c' ∧ c'.referencedCells_ = [] := by
  unfold Cell.UpdateDependencies
  rw [hd]
  simp only
  have h1 := removeLoop_spec id c.referencedCells_ s
  rcases hr : forEach (removeDependentStep id) c.referencedCells_ s with ⟨st, s1⟩
  rw [hr] at h1
  have hst : st = .ok := h1.2.2 hlive
  subst hst
  simp only
  obtain ⟨c1, hc1, _⟩ := h1.2.1.deref_some hd
  have hfin : ∃ c', (s1.modify id (fun c => { c with referencedCells_ := [] })).deref id = some c' ∧
      c'.referencedCells_ = [] := by
    rw [Sheet.deref_modify, hc1]
    exact ⟨_, rfl, rfl⟩
  cases hi : c.impl_ with
  | none => exact ⟨trivial, hfin⟩
  | some impl =>
      cases impl with
      | EmptyImpl => exact ⟨trivial, hfin⟩
      | TextImpl t => exact ⟨trivial, hfin⟩
      | FormulaImpl f => exact absurd hi (himpl f)

theorem Sheet.modify_set_fields (env : Env) (s : Sheet) (id : CellId) (text : String) :
    ∀ e ∈ ((s.modify id (fun c => { c with cache_ := none })).modify id
        (fun c => { c with impl_ := some (Cell.makeImpl env text) })).cells_,
      e.addr = id → e.cell.impl_ = some (Cell.makeImpl env text) ∧ e.cell.cache_ = none := by
  intro e he hid
  obtain ⟨e1, he1, _, ha1, hc1⟩ := Sheet.mem_modify he
  obtain ⟨e0, _, _, ha0, hc0⟩ := Sheet.mem_modify he1
  rw [if_pos (ha1 ▸ hid)] at hc1
  rw [if_pos (ha0 ▸ ha1 ▸ hid)] at hc0
  rw [hc1, hc0]
  exact ⟨rfl, rfl⟩

/-- The facts about one run of `Cell::Set` that hold whatever status it ends with. -/
theorem Cell.Set_spec (env : Env) (s : Sheet) (id : CellId) (text : String) :
    ((Cell.Set env s id text).1 = .ok ∨ (Cell.Set env s id text).1 = .undefinedBehaviour ∨
        (Cell.Set env s id text).1 = .outOfFuel ∨
        ((Cell.Set env s id text).1 = .InvalidPositionException ∧
          ∃ formula_ p, Cell.makeImpl env text = .FormulaImpl formula_ ∧
            p ∈ Formula.GetReferencedCells formula_ ∧ p.IsValid = false)) ∧
      Sheet.Rel (fun _ _ => True) s (Cell.Set env s id text).2 ∧
      ((s.deref id).isSome = true → ∀ e ∈ (Cell.Set env s id text).2.cells_, e.addr = id →
        e.cell.impl_ = some (Cell.makeImpl env text) ∧ e.cell.cache_ = none) := by
  unfold Cell.Set
  cases hd : s.deref id with
  | none =>
      exact ⟨Or.inr (Or.inl rfl), Sheet.Rel.refl (fun _ => trivial) s, fun h => by cases h⟩
  | some c0 =>
      simp only
      have hf2 := Sheet.modify_set_fields env s id text
      have hr2 : Sheet.Rel (fun _ _ => True) s
          ((s.modify id (fun c => { c with cache_ := none })).modify id
            (fun c => { c with impl_ := some (Cell.makeImpl env text) })) :=
        Sheet.Rel.trans (fun _ _ _ _ _ => trivial)
          (Sheet.modify_rel (fun _ => trivial) s _ _ (fun _ => trivial))
          (Sheet.modify_rel (fun _ => trivial) _ _ _ (fun _ => trivial))
      generalize (s.modify id (fun c => { c with cache_ := none })).modify id
            (fun c => { c with impl_ := some (Cell.makeImpl env text) }) = s2 at hf2 hr2 ⊢
      have h3 := Cell.InvalidateCache_rel (s2.cells_.length + 1) s2 id
      rcases hr3 : Cell.InvalidateCache (s2.cells_.length + 1) s2 id with ⟨st3, s3⟩
      rw [hr3] at h3
      have hf3 : ∀ e ∈ s3.cells_, e.addr = id →
          e.cell.impl_ = some (Cell.makeImpl env text) ∧ e.cell.cache_ = none :=
        h3.2.forall_addr (P := fun c => c.impl_ = some (Cell.makeImpl env text) ∧ c.cache_ = none)
          (fun c c' hr hp => ⟨hr.1.trans hp.1, by
            rcases hr.2.2.2.2 with h | h
            · exact h.trans hp.2
            · exact h⟩) hf2
      have hr3' : Sheet.Rel (fun _ _ => True) s s3 :=
        Sheet.Rel.trans (fun _ _ _ _ _ => trivial) hr2 (h3.2.mono (fun _ _ _ => trivial))
      rcases h3.1 with h | h | h
      · simp only at h
        subst h
        simp only
        have h4 := Cell.UpdateDependencies_spec s3 id
        have hf4 : ∀ e ∈ (Cell.UpdateDependencies s3 id).2.cells_, e.addr = id →
            e.cell.impl_ = some (Cell.makeImpl env text) ∧ e.cell.cache_ = none :=
          h4.2.forall_addr (P := fun c => c.impl_ = some (Cell.makeImpl env text) ∧ c.cache_ = none)
            (fun c c' hr hp => ⟨hr.1.trans hp.1, hr.2.1.trans hp.2⟩) hf3
        refine ⟨?_, Sheet.Rel.trans (fun _ _ _ _ _ => trivial) hr3' (h4.2.mono (fun _ _ _ => trivial)),
          fun _ => hf4⟩
        rcases h4.1 with h5 | h5 | ⟨h5, c, f, p, hc, hi, hp, hv⟩
        · exact Or.inl h5
        · exact Or.inr (Or.inl h5)
        · refine Or.inr (Or.inr (Or.inr ⟨h5, f, p, ?_, hp, hv⟩))
          obtain ⟨e, he, hea, hec⟩ := Sheet.deref_some_mem hc
          have := (hf3 e he hea).1
          rw [hec, hi] at this
          exact (Option.some.inj this).symm
      · simp only at h
        subst h
        exact ⟨Or.inr (Or.inl rfl), hr3', fun _ => hf3⟩
      · simp only at h
        subst h
        exact ⟨Or.inr (Or.inr (Or.inl rfl)), hr3', fun _ => hf3⟩

/-- In a sheet without dangling pointers, `Cell::Set` with a body that is not a formula
returns and leaves the cell without outgoing edges. -/
theorem Cell.Set_no_formula (env : Env) {s : Sheet} {id : CellId} {text : String}
    (hpl : s.PointersLive) (hlive : (s.deref id).isSome = true)
    (himpl : ∀ formula_, Cell.makeImpl env text ≠ .FormulaImpl formula_) :
    (Cell.Set env s id text).1 = .ok ∧
      ∃ c', (Cell.Set env s id text).2.deref id = some c' ∧ c'.referencedCells_ = [] := by
  unfold Cell.Set
  cases hd : s.deref id with
  | none => rw [hd] at hlive; cases hlive
  | some c0 =>
      simp only
      have hf2 := Sheet.modify_set_fields env s id text
      have hr2 : Sheet.Rel (fun c c' => c'.referencedCells_ = c.referencedCells_ ∧
            c'.dependentCells_ = c.dependentCells_) s
          ((s.modify id (fun c => { c with cache_ := none })).modify id
            (fun c => { c with impl_ := some (Cell.makeImpl env text) })) := by
        refine Sheet.Rel.trans (fun _ _ _ h1 h2 => ⟨h2.1.trans h1.1, h2.2.trans h1.2⟩)
          (t := s.modify id (fun c => { c with cache_ := none })) ?_ ?_
        · exact Sheet.modify_rel (fun _ => ⟨rfl, rfl⟩) s _ _ (fun _ => ⟨rfl, rfl⟩)
        · exact Sheet.modify_rel (fun _ => ⟨rfl, rfl⟩) _ _ _ (fun _ => ⟨rfl, rfl⟩)
      generalize (s.modify id (fun c => { c with cache_ := none })).modify id
            (fun c => { c with impl_ := some (Cell.makeImpl env text) }) = s2 at hf2 hr2 ⊢
      have hpl2 : s2.PointersLive := Sheet.PointersLive.of_rel (fun _ _ h => h) hr2 hpl
      have hlive2 : (s2.deref id).isSome = true := by rw [hr2.deref_isSome, hd]; rfl
      have hok := Cell.InvalidateCache_ok (s2.cells_.length + 1) s2 id hpl2 hlive2
        (Nat.lt_succ_of_le s2.unflagged_le_length)
      have h3 := Cell.InvalidateCache_rel (s2.cells_.length + 1) s2 id
      rcases hr3 : Cell.InvalidateCache (s2.cells_.length + 1) s2 id with ⟨st3, s3⟩
      rw [hr3] at h3 hok
      simp only at hok
      subst hok
      simp only
      have hpl3 : s3.PointersLive :=
        Sheet.PointersLive.of_rel (fun _ _ h => ⟨h.2.1, h.2.2.1⟩) h3.2 hpl2
      have hf3 : ∀ e ∈ s3.cells_, e.addr = id → e.cell.impl_ = some (Cell.makeImpl env text) :=
        h3.2.forall_addr (P := fun c => c.impl_ = some (Cell.makeImpl env text))
          (fun c c' hr hp => hr.1.trans hp) (fun e he hid => (hf2 e he hid).1)
      cases hd3 : s3.deref id with
      | none => rw [← h3.2.deref_isSome, hd3] at hlive2; cases hlive2
      | some c3 =>
          obtain ⟨e, he, hea, hec⟩ := Sheet.deref_some_mem hd3
          refine Cell.UpdateDependencies_no_formula hd3 (fun x hx => ?_) (fun f hf => ?_)
          · exact (hpl3 e he).1 x (hec ▸ hx)
          · have := hf3 e he hea
            rw [hec, hf] at this
            exact himpl f (Option.some.inj this).symm
/-! ## The fuel handed out by `Set` and `HasCircularDependency` is never exhausted -/

theorem countP_lt_of_imp {l : List Entry} {p q : Entry → Bool}
    (himp : ∀ x ∈ l, q x = true → p x = true)
    (hex : ∃ x ∈ l, p x = true ∧ q x = false) : l.countP q < l.countP p := by
  induction l with
  | nil => obtain ⟨x, hx, _⟩ := hex; cases hx
  | cons a l ih =>
      simp only [List.countP_cons]
      have hle : l.countP q ≤ l.countP p :=
        List.countP_mono_left (fun x hx => himp x (List.mem_cons_of_mem _ hx))
      obtain ⟨x, hx, hpx, hqx⟩ := hex
      rcases List.mem_cons.1 hx with h | h
      · subst h
        simp only [hpx, hqx, if_true, Bool.false_eq_true, if_false]
        omega
      · have := ih (fun x hx => himp x (List.mem_cons_of_mem _ hx)) ⟨x, h, hpx, hqx⟩
        have ha := himp a (List.mem_cons_self _ _)
        cases hqa : q a with
        | true => simp only [ha hqa, if_true]; omega
        | false =>
            simp only [Bool.false_eq_true, if_false]
            split <;> omega

theorem mem_setInsert {xs : List CellId} {x y : CellId} : y ∈ setInsert xs x ↔ y ∈ xs ∨ y = x := by
  unfold setInsert
  split_ifs with h
  · constructor
    · exact Or.inl
    · rintro (h1 | h1)
      · exact h1
      · exact h1 ▸ h
  · simp

theorem Sheet.unvisited_mono (s : Sheet) {v v' : List CellId} (h : ∀ x ∈ v, x ∈ v') :
    s.unvisited v' ≤ s.unvisited v := by
  unfold Sheet.unvisited
  refine List.countP_mono_left (fun e _ he => ?_)
  simp only [decide_eq_true_eq] at he ⊢
  exact fun hv => he (h _ hv)

theorem Sheet.unvisited_insert_lt (s : Sheet) {v : List CellId} {c : CellId} {cell : Cell}
    (hc : c ∉ v) (hd : s.deref c = some cell) : s.unvisited (setInsert v c) < s.unvisited v := by
  unfold Sheet.unvisited
  obtain ⟨e, he, hea, _⟩ := Sheet.deref_some_mem hd
  refine countP_lt_of_imp (fun x _ hx => ?_) ⟨e, he, ?_, ?_⟩
  · simp only [decide_eq_true_eq] at hx ⊢
    exact fun hv => hx (mem_setInsert.2 (Or.inl hv))
  · simp only [decide_eq_true_eq, hea]; exact hc
  · simp only [decide_eq_false_iff_not, not_not, hea]
    exact mem_setInsert.2 (Or.inr rfl)

/-- With fuel above the number of unvisited cells the DFS does not run out of fuel, and the
visited set only grows. -/
theorem dfs_fuel (s : Sheet) (fuel : Nat) : ∀ (v p : List CellId) (c : CellId),
    s.unvisited v < fuel →
      dfs s fuel v p c ≠ .fault .outOfFuel ∧
        ∀ v' p', dfs s fuel v p c = .notFound v' p' → ∀ x ∈ v, x ∈ v' := by
  induction fuel with
  | zero => intro v p c h; exact absurd h (Nat.not_lt_zero _)
  | succ n ih =>
      intro v p c hlt
      unfold dfs
      by_cases hv : c ∈ v
      · rw [if_pos hv]
        exact ⟨(fun h => by cases h), (fun v' p' h => by cases h; exact fun x hx => hx)⟩
      · rw [if_neg hv]
        simp only
        cases hd : s.deref c with
        | none => exact ⟨(fun h => by cases h), (fun v' p' h => by cases h)⟩
        | some cell =>
            simp only
            have hlt1 : s.unvisited (setInsert v c) < n := by
              have := Sheet.unvisited_insert_lt s hv hd
              omega
            have hloop : ∀ (l v1 p1 : List CellId), s.unvisited v1 < n →
                dfsLoop (dfs s n) l v1 p1 ≠ .fault .outOfFuel ∧
                  ∀ v' p', dfsLoop (dfs s n) l v1 p1 = .notFound v' p' → ∀ x ∈ v1, x ∈ v' := by
              intro l
              induction l with
              | nil =>
                  intro v1 p1 _
                  unfold dfsLoop
                  exact ⟨(fun h => by cases h), (fun v' p' h => by cases h; exact fun x hx => hx)⟩
              | cons y rest ihl =>
                  intro v1 p1 h1
                  unfold dfsLoop
                  by_cases hy : y ∈ p1
                  · rw [if_pos hy]
                    exact ⟨(fun h => by cases h), (fun v' p' h => by cases h)⟩
                  · rw [if_neg hy]
                    have hrec := ih v1 p1 y h1
                    cases hr : dfs s n v1 p1 y with
                    | found => exact ⟨(fun h => by cases h), (fun v' p' h => by cases h)⟩
                    | fault st =>
                        refine ⟨fun h => ?_, (fun v' p' h => by cases h)⟩
                        rw [hr] at hrec
                        exact hrec.1 h
                    | notFound v2 p2 =>
                        simp only
                        rw [hr] at hrec
                        have hsub := hrec.2 v2 p2 rfl
                        have h2 : s.unvisited v2 < n :=
                          Nat.lt_of_le_of_lt (Sheet.unvisited_mono s hsub) h1
                        have hrest := ihl v2 p2 h2
                        exact ⟨hrest.1, fun v' p' h x hx => hrest.2 v' p' h x (hsub x hx)⟩
            have hl := hloop cell.GetDependentCells (setInsert v c) (setInsert p c) hlt1
            cases hr : dfsLoop (dfs s n) cell.GetDependentCells (setInsert v c) (setInsert p c) with
            | found => exact ⟨(fun h => by cases h), (fun v' p' h => by cases h)⟩
            | fault st =>
                refine ⟨fun h => ?_, (fun v' p' h => by cases h)⟩
                rw [hr] at hl
                exact hl.1 h
            | notFound v2 p2 =>
                simp only
                rw [hr] at hl
                refine ⟨(fun h => by cases h), fun v' p' h x hx => ?_⟩
                cases h
                exact hl.2 _ p2 rfl x (mem_setInsert.2 (Or.inl hx))

theorem Sheet.HasCircularDependency_fuel (s : Sheet) (id : CellId) :
    s.HasCircularDependency id ≠ .fault .outOfFuel := by
  unfold Sheet.HasCircularDependency
  refine (dfs_fuel s _ [] [] id ?_).1
  exact Nat.lt_succ_of_le (List.countP_le_length _)

/-- With fuel above the number of unflagged cells `InvalidateCache` does not run out of
fuel. -/
theorem Cell.InvalidateCache_fuel (fuel : Nat) : ∀ (s : Sheet) (id : CellId),
    s.unflagged < fuel → (Cell.InvalidateCache fuel s id).1 ≠ .outOfFuel := by
  induction fuel with
  | zero => intro s id h; exact absurd h (Nat.not_lt_zero _)
  | succ n ih =>
      intro s id hlt
      unfold Cell.InvalidateCache
      cases hd : s.deref id with
      | none => exact fun h => by cases h
      | some c =>
          simp only
          by_cases hf : c.isCacheInvalidated_ = true
          · rw [if_pos hf]; exact fun h => by cases h
          · rw [if_neg hf]
            have hf' : c.isCacheInvalidated_ = false := by simpa using hf
            have hlt1 := Sheet.unflagged_modify_lt hd hf'
            have h2 := forEach_spec (fun st d => Cell.InvalidateCache n st d) c.dependentCells_
              (fun st => st.unflagged < n) (fun st => st ≠ .outOfFuel)
              (fun _ _ => True) (fun _ => trivial) (fun _ _ _ _ _ => trivial)
              (fun h => by cases h)
              (fun st d _ hI => ⟨ih st d hI, trivial, fun _ =>
                Nat.lt_of_le_of_lt (Sheet.unflagged_le (Cell.InvalidateCache_rel n st d).2) hI⟩)
              (s.modify id (fun c => { c with cache_ := none, isCacheInvalidated_ := true }))
              (by omega)
            exact h2.1
/-! ## `GetValue` -/

theorem FormulaAST.Execute_rel (env : Env) (getValue : Sheet → CellId → Option (Value × Sheet))
    (hget : ∀ s id v s', getValue s id = some (v, s') → Sheet.Rel CachedFrom s s') :
    ∀ (ast : FormulaAST) (s : Sheet) (r : Except FormulaError Rat) (s' : Sheet),
      FormulaAST.Execute env getValue ast s = some (r, s') → Sheet.Rel CachedFrom s s' := by
  intro ast
  induction ast with
  | Number v =>
      intro s r s' h
      unfold FormulaAST.Execute at h
      cases h
      exact Sheet.Rel.refl cachedFrom_refl s
  | CellRef p =>
      intro s r s' h
      unfold FormulaAST.Execute at h
      split_ifs at h with hv
      · cases h; exact Sheet.Rel.refl cachedFrom_refl s
      · split at h
        · cases h; exact Sheet.Rel.refl cachedFrom_refl s
        · split_ifs at h with ht
          · cases h; exact Sheet.Rel.refl cachedFrom_refl s
          · split at h
            · cases h
            · rename_i hg; cases h; exact hget _ _ _ _ hg
            · rename_i hg; cases h; exact hget _ _ _ _ hg
            · rename_i hg
              split at h <;> (cases h; exact hget _ _ _ _ hg)
  | UnaryOpExpr op e ih =>
      intro s r s' h
      unfold FormulaAST.Execute at h
      split at h
      · cases h
      · rename_i he; cases h; exact ih _ _ _ he
      · rename_i he; cases h; exact ih _ _ _ he
  | BinaryOpExpr op l r ihl ihr =>
      intro s res s' h
      unfold FormulaAST.Execute at h
      split at h
      · cases h
      · rename_i hl; cases h; exact ihl _ _ _ hl
      · rename_i hl
        split at h
        · cases h
        · rename_i hr
          cases h
          exact Sheet.Rel.trans cachedFrom_trans (ihl _ _ _ hl) (ihr _ _ _ hr)
        · rename_i hr
          cases h
          exact Sheet.Rel.trans cachedFrom_trans (ihl _ _ _ hl) (ihr _ _ _ hr)

theorem FormulaImpl.Evaluate_rel (env : Env) (getValue : Sheet → CellId → Option (Value × Sheet))
    (hget : ∀ s id v s', getValue s id = some (v, s') → Sheet.Rel CachedFrom s s')
    {formula_ : FormulaAST} {s s' : Sheet} {v : Value}
    (h : FormulaImpl.Evaluate env getValue formula_ s = some (v, s')) : Sheet.Rel CachedFrom s s' := by
  unfold FormulaImpl.Evaluate at h
  split at h
  · cases h
  · rename_i he; cases h; exact FormulaAST.Execute_rel env getValue hget _ _ _ _ he
  · rename_i he; cases h; exact FormulaAST.Execute_rel env getValue hget _ _ _ _ he

theorem Cell.GetValueWith_rel {Evaluate : FormulaAST → Sheet → Option (Value × Sheet)}
    (hEval : ∀ f s v s', Evaluate f s = some (v, s') → Sheet.Rel CachedFrom s s')
    {s s' : Sheet} {id : CellId} {v : Value}
    (h : Cell.GetValueWith Evaluate s id = some (v, s')) : Sheet.Rel CachedFrom s s' := by
  unfold Cell.GetValueWith at h
  split at h
  · cases h
  · split at h
    · cases h; exact Sheet.Rel.refl cachedFrom_refl s
    · split at h
      · cases h; exact Sheet.Rel.refl cachedFrom_refl s
      · split at h
        · cases h
        · rename_i he
          cases h
          exact Sheet.Rel.trans cachedFrom_trans (hEval _ _ _ _ he)
            (Sheet.modify_rel cachedFrom_refl _ _ _ (fun _ => ⟨rfl, rfl, rfl, rfl⟩))
      · cases h
        exact Sheet.modify_rel cachedFrom_refl _ _ _ (fun _ => ⟨rfl, rfl, rfl, rfl⟩)

theorem Cell.GetValue_rel (env : Env) (fuel : Nat) : ∀ (s : Sheet) (id : CellId) (v : Value)
    (s' : Sheet), Cell.GetValue env fuel s id = some (v, s') → Sheet.Rel CachedFrom s s' := by
  induction fuel with
  | zero => intro s id v s' h; unfold Cell.GetValue at h; cases h
  | succ n ih =>
      intro s id v s' h
      unfold Cell.GetValue at h
      exact Cell.GetValueWith_rel
        (fun f s v s' he => FormulaImpl.Evaluate_rel env (Cell.GetValue env n) ih he) h

/-- A call of `GetValue` that finds the cache filled returns it and changes nothing,
whatever the evaluator is. -/
theorem Cell.GetValueWith_cached (Evaluate : FormulaAST → Sheet → Option (Value × Sheet))
    {s : Sheet} {id : CellId} {c : Cell} {v : Value} (hd : s.deref id = some c)
    (hc : c.cache_ = some v) : Cell.GetValueWith Evaluate s id = some (v, s) := by
  unfold Cell.GetValueWith
  rw [hd]
  simp only [hc]

theorem Sheet.rankedBy_spec {rank : CellId → Nat} {s : Sheet} (h : s.rankedBy rank = true)
    {e : Entry} (he : e ∈ s.cells_) {formula_ : FormulaAST}
    (hf : e.cell.impl_ = some (.FormulaImpl formula_)) {p : Position} (hp : p ∈ formula_.GetCells)
    {e' : Entry} (he' : s.find p = some e') : rank e'.addr < rank e.addr := by
  unfold Sheet.rankedBy at h
  have h1 := List.all_eq_true.1 h e he
  simp only [hf] at h1
  have h2 := List.all_eq_true.1 h1 p hp
  simp only [he'] at h2
  exact of_decide_eq_true h2

theorem Sheet.rankedBy_of_rel {rank : CellId → Nat} {s s' : Sheet} (hrel : Sheet.Rel CachedFrom s s')
    (h : s.rankedBy rank = true) : s'.rankedBy rank = true := by
  unfold Sheet.rankedBy
  rw [List.all_eq_true]
  intro e1 he1
  obtain ⟨e, he, _, hea, hr⟩ := hrel.mem_right he1
  split
  · rename_i f hf
    rw [List.all_eq_true]
    intro p hp
    split
    · rename_i e1' he1'
      obtain ⟨e', he', _, hea', _⟩ := hrel.find_some_rev he1'
      rw [hea, hea']
      exact decide_eq_true (Sheet.rankedBy_spec h he (hr.1 ▸ hf) hp he')
    · rfl
  · rfl

/-- With references of rank below `n`, `Execute` returns when `GetValue` with fuel `n`
returns on every cell of rank below `n`. -/
theorem FormulaAST.Execute_returns (env : Env) (rank : CellId → Nat) (n : Nat)
    (ih : ∀ (s : Sheet) (id : CellId), s.rankedBy rank = true → (s.deref id).isSome = true →
      rank id < n → ∃ v s', Cell.GetValue env n s id = some (v, s')) :
    ∀ (ast : FormulaAST) (s : Sheet), s.rankedBy rank = true →
      (∀ p ∈ ast.GetCells, ∀ e', s.find p = some e' → rank e'.addr < n) →
      ∃ r s', FormulaAST.Execute env (Cell.GetValue env n) ast s = some (r, s') := by
  intro ast
  induction ast with
  | Number v => intro s _ _; exact ⟨_, _, rfl⟩
  | CellRef p =>
      intro s hs hlow
      unfold FormulaAST.Execute
      split_ifs with hv
      · exact ⟨_, _, rfl⟩
      · cases hf : s.find p with
        | none => exact ⟨_, _, rfl⟩
        | some e =>
            simp only
            split_ifs with ht
            · exact ⟨_, _, rfl⟩
            · obtain ⟨v, s1, hg⟩ := ih s e.addr hs (Sheet.deref_of_find hf)
                (hlow p (by simp [FormulaAST.GetCells]) e hf)
              rw [hg]
              cases v with
              | number d => exact ⟨_, _, rfl⟩
              | error fe => exact ⟨_, _, rfl⟩
              | text t =>
                  simp only
                  cases env.toDouble t with
                  | none => exact ⟨_, _, rfl⟩
                  | some d => exact ⟨_, _, rfl⟩
  | UnaryOpExpr op e ihe =>
      intro s hs hlow
      obtain ⟨r, s1, h1⟩ := ihe s hs hlow
      unfold FormulaAST.Execute
      rw [h1]
      cases r with
      | error fe => exact ⟨_, _, rfl⟩
      | ok a => exact ⟨_, _, rfl⟩
  | BinaryOpExpr op l r ihl ihr =>
      intro s hs hlow
      obtain ⟨r1, s1, h1⟩ := ihl s hs
        (fun p hp => hlow p (by simp [FormulaAST.GetCells, hp]))
      unfold FormulaAST.Execute
      rw [h1]
      cases r1 with
      | error fe => exact ⟨_, _, rfl⟩
      | ok a =>
          simp only
          have hrel := FormulaAST.Execute_rel env (Cell.GetValue env n) (Cell.GetValue_rel env n)
            _ _ _ _ h1
          obtain ⟨r2, s2, h2⟩ := ihr s1 (Sheet.rankedBy_of_rel hrel hs)
            (fun p hp e1 he1 => by
              obtain ⟨e0, he0, _, hea, _⟩ := hrel.find_some_rev he1
              rw [hea]
              exact hlow p (by simp [FormulaAST.GetCells, hp]) e0 he0)
          rw [h2]
          cases r2 with
          | error fe => exact ⟨_, _, rfl⟩
          | ok b => exact ⟨_, _, rfl⟩

/-- On a sheet whose formula references decrease a rank, `GetValue` returns as soon as
the fuel exceeds the rank of the cell. -/
theorem Cell.GetValue_returns (env : Env) (rank : CellId → Nat) (fuel : Nat) :
    ∀ (s : Sheet) (id : CellId), s.rankedBy rank = true → (s.deref id).isSome = true →
      rank id < fuel → ∃ v s', Cell.GetValue env fuel s id = some (v, s') := by
  induction fuel with
  | zero => intro s id _ _ h; exact absurd h (Nat.not_lt_zero _)
  | succ n ih =>
      intro s id hs hlive hlt
      cases hd : s.deref id with
      | none => rw [hd] at hlive; cases hlive
      | some c =>
          unfold Cell.GetValue Cell.GetValueWith
          rw [hd]
          simp only
          cases hc : c.cache_ with
          | some v => exact ⟨_, _, rfl⟩
          | none =>
              simp only
              cases hi : c.impl_ with
              | none => exact ⟨_, _, rfl⟩
              | some impl =>
                  cases impl with
                  | EmptyImpl => exact ⟨_, _, rfl⟩
                  | TextImpl t => exact ⟨_, _, rfl⟩
                  | FormulaImpl f =>
                      simp only
                      obtain ⟨e0, he0, hea0, hec0⟩ := Sheet.deref_some_mem hd
                      obtain ⟨r, s1, h1⟩ := FormulaAST.Execute_returns env rank n ih f s hs
                        (fun p hp e' he' => by
                          have := Sheet.rankedBy_spec hs he0 (hec0 ▸ hi) hp he'
                          rw [hea0] at this
                          omega)
                      unfold FormulaImpl.Evaluate
                      rw [h1]
                      cases r with
                      | error fe => exact ⟨_, _, rfl⟩
                      | ok a => exact ⟨_, _, rfl⟩

/-- A formula cell with an empty cache whose formula is a single reference to a present,
non-empty cell returns from `GetValue` only if the inner `GetValue` on that cell does. -/
theorem Cell.GetValueWith_cellRef_none (env : Env)
    (getValue : Sheet → CellId → Option (Value × Sheet)) {s : Sheet} {id : CellId} {c : Cell}
    {p : Position} {e : Entry} (hd : s.deref id = some c) (hc : c.cache_ = none)
    (hi : c.impl_ = some (.FormulaImpl (.CellRef p))) (hv : p.IsValid = true)
    (hf : s.find p = some e) (ht : (e.cell.GetText env).data ≠ [])
    (hg : getValue s e.addr = none) :
    Cell.GetValueWith (FormulaImpl.Evaluate env getValue) s id = none := by
  unfold Cell.GetValueWith
  rw [hd]
  simp only [hc, hi]
  unfold FormulaImpl.Evaluate FormulaAST.Execute
  simp only [hv, Bool.not_true, Bool.false_eq_true, if_false, hf, ht, hg]

theorem S3.getValue_diverges (fuel : Nat) :
    Cell.GetValue scenarioEnv fuel S3.second.2 0 = none ∧
      Cell.GetValue scenarioEnv fuel S3.second.2 1 = none := by
  induction fuel with
  | zero => exact ⟨rfl, rfl⟩
  | succ n ih =>
      constructor
      · unfold Cell.GetValue
        exact Cell.GetValueWith_cellRef_none scenarioEnv _ (c := S3.cellA1) (p := A2)
          (e := ⟨A2, 1, S3.cellA2⟩) (by decide) rfl rfl (by decide) (by decide) (by decide) ih.2
      · unfold Cell.GetValue
        exact Cell.GetValueWith_cellRef_none scenarioEnv _ (c := S3.cellA2) (p := A1)
          (e := ⟨A1, 0, S3.cellA1⟩) (by decide) rfl rfl (by decide) (by decide) (by decide) ih.1
/-! ## The DFS and `SetCell` -/

theorem dfsLoop_fault {rec : List CellId → List CellId → CellId → DfsResult} {Q : Status → Prop}
    (hrec : ∀ v p c st, rec v p c = .fault st → Q st) :
    ∀ (l v p : List CellId) (st : Status), dfsLoop rec l v p = .fault st → Q st := by
  intro l
  induction l with
  | nil => intro v p st h; unfold dfsLoop at h; cases h
  | cons x rest ih =>
      intro v p st h
      unfold dfsLoop at h
      by_cases hx : x ∈ p
      · rw [if_pos hx] at h; cases h
      · rw [if_neg hx] at h
        cases hr : rec v p x with
        | found => rw [hr] at h; cases h
        | notFound v1 p1 => rw [hr] at h; exact ih v1 p1 st h
        | fault st1 =>
            rw [hr] at h
            simp only [DfsResult.fault.injEq] at h
            subst h
            exact hrec v p x _ hr

theorem dfs_fault (s : Sheet) (fuel : Nat) : ∀ (v p : List CellId) (c : CellId) (st : Status),
    dfs s fuel v p c = .fault st → st = .undefinedBehaviour ∨ st = .outOfFuel := by
  induction fuel with
  | zero =>
      intro v p c st h
      unfold dfs at h
      simp only [DfsResult.fault.injEq] at h
      exact Or.inr h.symm
  | succ n ih =>
      intro v p c st h
      unfold dfs at h
      by_cases hv : c ∈ v
      · rw [if_pos hv] at h; cases h
      · rw [if_neg hv] at h
        simp only at h
        cases hd : s.deref c with
        | none =>
            rw [hd] at h
            simp only [DfsResult.fault.injEq] at h
            exact Or.inl h.symm
        | some cell =>
            rw [hd] at h
            simp only at h
            cases hl : dfsLoop (dfs s n) cell.GetDependentCells (setInsert v c) (setInsert p c) with
            | found => rw [hl] at h; cases h
            | notFound v1 p1 => rw [hl] at h; cases h
            | fault st1 =>
                rw [hl] at h
                simp only [DfsResult.fault.injEq] at h
                subst h
                exact dfsLoop_fault ih _ _ _ _ hl

/-- A cell without outgoing edges is not on a cycle: the DFS returns `false` at once. -/
theorem Sheet.HasCircularDependency_no_edges {s : Sheet} {id : CellId} {c : Cell}
    (hd : s.deref id = some c) (hc : c.referencedCells_ = []) :
    ∃ v p, s.HasCircularDependency id = .notFound v p := by
  unfold Sheet.HasCircularDependency dfs
  rw [if_neg (List.not_mem_nil _), hd]
  simp only [Cell.GetDependentCells, hc, dfsLoop]
  exact ⟨_, _, rfl⟩

theorem Sheet.find_ensureCell (s : Sheet) (pos : Position) :
    ∃ e, (s.ensureCell pos).find pos = some e := by
  unfold Sheet.ensureCell
  cases hc : s.count pos with
  | true =>
      simp only [if_true]
      unfold Sheet.count at hc
      exact Option.isSome_iff_exists.1 hc
  | false =>
      simp only [Bool.false_eq_true, if_false]
      unfold Sheet.count at hc
      have hn : s.find pos = none := by
        cases h : s.find pos with
        | none => rfl
        | some e => rw [h] at hc; cases hc
      unfold Sheet.find at hn ⊢
      refine ⟨Entry.mk pos s.nextAddr {}, ?_⟩
      simp only [List.find?_append, hn, Option.none_or]
      simp [List.find?_cons]


theorem Sheet.ensureCell_pointersLive {s : Sheet} (pos : Position) (h : s.PointersLive) :
    (s.ensureCell pos).PointersLive := by
  unfold Sheet.ensureCell
  cases hc : s.count pos with
  | true => simpa using h
  | false =>
      simp only [Bool.false_eq_true, if_false]
      have hmono : ∀ i, (s.deref i).isSome = true →
          (Sheet.deref { s with cells_ := s.cells_ ++ [⟨pos, s.nextAddr, {}⟩],
                                nextAddr := s.nextAddr + 1 } i).isSome = true := by
        intro i hi
        unfold Sheet.deref at hi ⊢
        simp only [List.find?_append]
        cases hf : s.cells_.find? (fun e => decide (e.addr = i)) with
        | none => rw [hf] at hi; cases hi
        | some e => rfl
      intro e he
      simp only [List.mem_append, List.mem_singleton] at he
      rcases he with he | he
      · exact ⟨fun i hi => hmono i ((h e he).1 i hi), fun i hi => hmono i ((h e he).2 i hi)⟩
      · subst he
        exact ⟨fun i hi => (by cases hi), fun i hi => (by cases hi)⟩

theorem Cell.makeImpl_empty (env : Env) : Cell.makeImpl env "" = .EmptyImpl := rfl

/-- The facts about lines 33-41 of `SetCell` that hold for every outcome. -/
theorem Sheet.setAndCheck_spec (env : Env) (s1 : Sheet) (pos : Position) (id : CellId)
    (text : String) (hlive : (s1.deref id).isSome = true) :
    (s1.setAndCheck env pos id text).1 ≠ .FormulaException ∧
      ((s1.setAndCheck env pos id text).1 = .InvalidPositionException →
        ∃ formula_ p, Cell.makeImpl env text = .FormulaImpl formula_ ∧
          p ∈ Formula.GetReferencedCells formula_ ∧ p.IsValid = false) ∧
      ((s1.setAndCheck env pos id text).1 = .CircularDependencyException →
        Sheet.Rel (fun _ _ => True) s1 (s1.setAndCheck env pos id text).2 ∧
          ∀ e ∈ (s1.setAndCheck env pos id text).2.cells_, e.addr = id →
            e.cell.impl_ = some .EmptyImpl) ∧
      ((s1.setAndCheck env pos id text).1 = .ok →
        ∃ s2, Cell.Set env s1 id text = (.ok, s2) ∧
          (s1.setAndCheck env pos id text).2 = s2.UpdatePrintableSize pos) := by
  have hset := Cell.Set_spec env s1 id text
  unfold Sheet.setAndCheck
  rcases hr : Cell.Set env s1 id text with ⟨st2, s2⟩
  rw [hr] at hset
  simp only at hset
  cases st2 with
  | ok =>
      simp only
      cases hdfs : s2.HasCircularDependency id with
      | found =>
          simp only
          have hlive2 : (s2.deref id).isSome = true := by rw [hset.2.1.deref_isSome]; exact hlive
          have hclr := Cell.Set_spec env s2 id ""
          unfold Cell.Clear
          rcases hr3 : Cell.Set env s2 id "" with ⟨st3, s3⟩
          rw [hr3] at hclr
          simp only at hclr
          have hst3 : st3 ≠ .InvalidPositionException := by
            intro h
            rcases hclr.1 with h1 | h1 | h1 | ⟨_, f, p, hf, _⟩
            · rw [h] at h1; cases h1
            · rw [h] at h1; cases h1
            · rw [h] at h1; cases h1
            · rw [Cell.makeImpl_empty] at hf; cases hf
          have hst3' : st3 = .ok ∨ st3 = .undefinedBehaviour ∨ st3 = .outOfFuel := by
            rcases hclr.1 with h1 | h1 | h1 | ⟨h1, _⟩
            · exact Or.inl h1
            · exact Or.inr (Or.inl h1)
            · exact Or.inr (Or.inr h1)
            · exact absurd h1 hst3
          rcases hst3' with h | h | h
          · subst h
            simp only
            refine ⟨(fun h => by cases h), (fun h => by cases h), fun _ => ⟨?_, ?_⟩, (fun h => by cases h)⟩
            · exact Sheet.Rel.trans (fun _ _ _ _ _ => trivial) hset.2.1 hclr.2.1
            · intro e he hid
              exact (hclr.2.2 hlive2 e he hid).1
          · subst h
            exact ⟨(fun h => by cases h), (fun h => by cases h), (fun h => by cases h), (fun h => by cases h)⟩
          · subst h
            exact ⟨(fun h => by cases h), (fun h => by cases h), (fun h => by cases h), (fun h => by cases h)⟩
      | notFound v p =>
          exact ⟨(fun h => by cases h), (fun h => by cases h), (fun h => by cases h),
            fun _ => ⟨s2, rfl, rfl⟩⟩
      | fault st =>
          simp only
          have hf := dfs_fault s2 _ _ _ _ _ hdfs
          rcases hf with h | h
          · subst h
            exact ⟨(fun h => by cases h), (fun h => by cases h), (fun h => by cases h), (fun h => by cases h)⟩
          · subst h
            exact ⟨(fun h => by cases h), (fun h => by cases h), (fun h => by cases h), (fun h => by cases h)⟩
  | InvalidPositionException =>
      refine ⟨(fun h => by cases h), fun _ => ?_, (fun h => by cases h), (fun h => by cases h)⟩
      rcases hset.1 with h1 | h1 | h1 | ⟨_, h1⟩
      · cases h1
      · cases h1
      · cases h1
      · exact h1
  | FormulaException =>
      rcases hset.1 with h1 | h1 | h1 | ⟨h1, _⟩ <;> cases h1
  | CircularDependencyException =>
      rcases hset.1 with h1 | h1 | h1 | ⟨h1, _⟩ <;> cases h1
  | undefinedBehaviour =>
      exact ⟨(fun h => by cases h), (fun h => by cases h), (fun h => by cases h), (fun h => by cases h)⟩
  | outOfFuel =>
      exact ⟨(fun h => by cases h), (fun h => by cases h), (fun h => by cases h), (fun h => by cases h)⟩

theorem mem_of_mem_unique : ∀ (l : List Position) (p : Position), p ∈ unique l → p ∈ l
  | [], _, h => h
  | [_], _, h => h
  | a :: b :: rest, p, h => by
      unfold unique at h
      by_cases hab : a = b
      · rw [if_pos hab] at h
        exact List.mem_cons_of_mem _ (mem_of_mem_unique (b :: rest) p h)
      · rw [if_neg hab] at h
        rcases List.mem_cons.1 h with h1 | h1
        · exact h1 ▸ List.mem_cons_self _ _
        · exact List.mem_cons_of_mem _ (mem_of_mem_unique (b :: rest) p h1)

theorem Formula.mem_GetCells_of_mem_GetReferencedCells {ast_ : FormulaAST} {p : Position}
    (h : p ∈ Formula.GetReferencedCells ast_) : p ∈ ast_.GetCells :=
  (List.perm_insertionSort _ _).mem_iff.1 (mem_of_mem_unique _ _ h)

theorem Cell.makeImpl_formula {env : Env} {text : String} {formula_ : FormulaAST}
    (h : Cell.makeImpl env text = .FormulaImpl formula_) :
    env.ParseFormulaAST (substr1 text) = some formula_ := by
  unfold Cell.makeImpl ParseFormula at h
  split_ifs at h
  split at h
  · rename_i f hf
    cases h
    exact hf
  · cases h

/-- Lines 33-41 of `SetCell` on a cell that `Set` leaves without outgoing edges: normal
return with the printable size extended. -/
theorem Sheet.setAndCheck_no_edges {env : Env} {s1 s2 : Sheet} {pos : Position} {id : CellId}
    {text : String} {c : Cell} (hset : Cell.Set env s1 id text = (.ok, s2))
    (hd : s2.deref id = some c) (hc : c.referencedCells_ = []) :
    s1.setAndCheck env pos id text = (.ok, s2.UpdatePrintableSize pos) := by
  obtain ⟨v, p, hdfs⟩ := Sheet.HasCircularDependency_no_edges hd hc
  unfold Sheet.setAndCheck
  rw [hset]
  simp only
  rw [hdfs]

/-! ## `ClearCell` -/

theorem foldl_UpdatePrintableSize (l : List Entry) : ∀ st : Sheet,
    (l.foldl (fun st e => st.UpdatePrintableSize e.pos) st).cells_ = st.cells_ ∧
      st.printableSize_.rows ≤ (l.foldl (fun st e => st.UpdatePrintableSize e.pos) st).printableSize_.rows ∧
      st.printableSize_.cols ≤ (l.foldl (fun st e => st.UpdatePrintableSize e.pos) st).printableSize_.cols ∧
      (∀ e ∈ l, e.pos.row + 1 ≤
        (l.foldl (fun st e => st.UpdatePrintableSize e.pos) st).printableSize_.rows) ∧
      (∀ e ∈ l, e.pos.col + 1 ≤
        (l.foldl (fun st e => st.UpdatePrintableSize e.pos) st).printableSize_.cols) ∧
      ((l.foldl (fun st e => st.UpdatePrintableSize e.pos) st).printableSize_.rows
          = st.printableSize_.rows ∨
        ∃ e ∈ l, (l.foldl (fun st e => st.UpdatePrintableSize e.pos) st).printableSize_.rows
          = e.pos.row + 1) ∧
      ((l.foldl (fun st e => st.UpdatePrintableSize e.pos) st).printableSize_.cols
          = st.printableSize_.cols ∨
        ∃ e ∈ l, (l.foldl (fun st e => st.UpdatePrintableSize e.pos) st).printableSize_.cols
          = e.pos.col + 1) := by
  induction l with
  | nil =>
      intro st
      exact ⟨rfl, le_refl _, le_refl _, fun e he => (by cases he), fun e he => (by cases he),
        Or.inl rfl, Or.inl rfl⟩
  | cons a l ih =>
      intro st
      simp only [List.foldl_cons]
      obtain ⟨h1, h2, h3, h4, h5, h6, h7⟩ := ih (st.UpdatePrintableSize a.pos)
      have hr : (st.UpdatePrintableSize a.pos).printableSize_.rows
          = max st.printableSize_.rows (a.pos.row + 1) := rfl
      have hc : (st.UpdatePrintableSize a.pos).printableSize_.cols
          = max st.printableSize_.cols (a.pos.col + 1) := rfl
      rw [hr] at h2 h6
      rw [hc] at h3 h7
      refine ⟨h1, le_trans (le_max_left _ _) h2, le_trans (le_max_left _ _) h3, ?_, ?_, ?_, ?_⟩
      · intro e he
        rcases List.mem_cons.1 he with h | h
        · subst h; exact le_trans (le_max_right _ _) h2
        · exact h4 e h
      · intro e he
        rcases List.mem_cons.1 he with h | h
        · subst h; exact le_trans (le_max_right _ _) h3
        · exact h5 e h
      · rcases h6 with h | ⟨e, he, h⟩
        · rcases max_choice st.printableSize_.rows (a.pos.row + 1) with hm | hm
          · exact Or.inl (h.trans hm)
          · exact Or.inr ⟨a, List.mem_cons_self _ _, h.trans hm⟩
        · exact Or.inr ⟨e, List.mem_cons_of_mem _ he, h⟩
      · rcases h7 with h | ⟨e, he, h⟩
        · rcases max_choice st.printableSize_.cols (a.pos.col + 1) with hm | hm
          · exact Or.inl (h.trans hm)
          · exact Or.inr ⟨a, List.mem_cons_self _ _, h.trans hm⟩
        · exact Or.inr ⟨e, List.mem_cons_of_mem _ he, h⟩

theorem find?_filter_pos_ne (pos q : Position) (hq : q ≠ pos) : ∀ l : List Entry,
    (l.filter (fun e => decide (e.pos ≠ pos))).find? (fun e => decide (e.pos = q))
      = l.find? (fun e => decide (e.pos = q)) := by
  intro l
  induction l with
  | nil => rfl
  | cons a l ih =>
      by_cases h1 : a.pos = pos
      · have h2 : ¬ a.pos = q := fun h => hq (h.symm.trans h1)
        simp only [List.filter_cons, List.find?_cons, h1, h2, ne_eq, not_true_eq_false,
          decide_False, Bool.false_eq_true, if_false]
        rw [h1] at h2
        simp only [h2, decide_False]
        exact ih
      · simp only [List.filter_cons, ne_eq, h1, not_false_eq_true, decide_True, if_true,
          List.find?_cons]
        rw [ih]

theorem find?_filter_pos_self (pos : Position) (l : List Entry) :
    (l.filter (fun e => decide (e.pos ≠ pos))).find? (fun e => decide (e.pos = pos)) = none := by
  rw [List.find?_eq_none]
  intro e he
  have := (List.mem_filter.1 he).2
  simpa using this

theorem Position.nonneg_of_isValid {p : Position} (h : p.IsValid = true) : 0 ≤ p.row ∧ 0 ≤ p.col := by
  unfold Position.IsValid at h
  simp only [Bool.and_eq_true, decide_eq_true_eq] at h
  exact ⟨h.1.1.1, h.1.1.2⟩
/-! ## `SetCell` never stops for lack of fuel -/

theorem Cell.Set_fuel (env : Env) (s : Sheet) (id : CellId) (text : String) :
    (Cell.Set env s id text).1 ≠ .outOfFuel := by
  unfold Cell.Set
  cases hd : s.deref id with
  | none => exact fun h => by cases h
  | some c0 =>
      simp only
      generalize (s.modify id (fun c => { c with cache_ := none })).modify id
            (fun c => { c with impl_ := some (Cell.makeImpl env text) }) = s2
      have h3 := Cell.InvalidateCache_fuel (s2.cells_.length + 1) s2 id
        (Nat.lt_succ_of_le s2.unflagged_le_length)
      have h3' := (Cell.InvalidateCache_rel (s2.cells_.length + 1) s2 id).1
      rcases hr3 : Cell.InvalidateCache (s2.cells_.length + 1) s2 id with ⟨st3, s3⟩
      rw [hr3] at h3 h3'
      rcases h3' with h | h | h
      · simp only at h
        subst h
        simp only
        rcases (Cell.UpdateDependencies_spec s3 id).1 with h5 | h5 | ⟨h5, _⟩ <;>
          (rw [h5]; exact fun h => by cases h)
      · simp only at h
        subst h
        exact fun h => by cases h
      · exact absurd h h3

theorem Sheet.setAndCheck_fuel (env : Env) (s1 : Sheet) (pos : Position) (id : CellId)
    (text : String) : (s1.setAndCheck env pos id text).1 ≠ .outOfFuel := by
  have hset := Cell.Set_fuel env s1 id text
  unfold Sheet.setAndCheck
  rcases hr : Cell.Set env s1 id text with ⟨st2, s2⟩
  rw [hr] at hset
  cases st2 with
  | ok =>
      simp only
      have hdfs := Sheet.HasCircularDependency_fuel s2 id
      cases hres : s2.HasCircularDependency id with
      | found =>
          simp only
          have hclr := Cell.Set_fuel env s2 id ""
          unfold Cell.Clear
          rcases hr3 : Cell.Set env s2 id "" with ⟨st3, s3⟩
          rw [hr3] at hclr
          cases st3 with
          | ok => exact fun h => by cases h
          | InvalidPositionException => exact fun h => by cases h
          | FormulaException => exact fun h => by cases h
          | CircularDependencyException => exact fun h => by cases h
          | undefinedBehaviour => exact fun h => by cases h
          | outOfFuel => exact absurd rfl hclr
      | notFound v p => exact fun h => by cases h
      | fault st =>
          simp only
          intro h
          rw [hres, h] at hdfs
          exact hdfs rfl
  | InvalidPositionException => exact fun h => by cases h
  | FormulaException => exact fun h => by cases h
  | CircularDependencyException => exact fun h => by cases h
  | undefinedBehaviour => exact fun h => by cases h
  | outOfFuel => exact absurd rfl hset

/-- The fuel that the model hands to `InvalidateCache` and to the DFS inside `SetCell` is
always enough: `SetCell` never ends with `outOfFuel`. -/
theorem Sheet.SetCell_fuel (env : Env) (s : Sheet) (pos : Position) (text : String) :
    (Sheet.SetCell env s pos text).1 ≠ .outOfFuel := by
  unfold Sheet.SetCell
  split_ifs
  · exact fun h => by cases h
  · exact fun h => by cases h
  · simp only
    split
    · exact fun h => by cases h
    · exact Sheet.setAndCheck_fuel env _ pos _ text

/-- When `pos` already holds a cell, a `SetCell` that raises `FormulaException` leaves the
sheet as it was. -/
theorem Sheet.SetCell_formulaException_of_present (env : Env) (s : Sheet) (pos : Position)
    (text : String) (hc : s.count pos = true)
    (h : (Sheet.SetCell env s pos text).1 = .FormulaException) :
    (Sheet.SetCell env s pos text).2 = s := by
  have hens : s.ensureCell pos = s := by unfold Sheet.ensureCell; rw [hc]; rfl
  unfold Sheet.SetCell at h ⊢
  rw [hens] at h ⊢
  cases hv : pos.IsValid with
  | false => rfl
  | true =>
      rw [hv] at h
      simp only [Bool.not_true, Bool.false_eq_true, if_false] at h ⊢
      by_cases hp : front text = FORMULA_SIGN ∧ size text > 1 ∧
          ParseFormula env (substr1 text) = none
      · rw [if_pos hp]
      · exfalso
        rw [if_neg hp] at h
        cases hf : s.find pos with
        | none => rw [hf] at h; cases h
        | some e =>
            rw [hf] at h
            simp only at h
            exact (Sheet.setAndCheck_spec env s pos e.addr text (Sheet.deref_of_find hf)).1 h

/-! ## The printable size along calls that return normally -/

/-- A present cell is erased and the printable size recomputed over the remaining keys. -/
theorem Sheet.ClearCell_of_present (s : Sheet) (pos : Position) (hv : pos.IsValid = true)
    (hkeys : ∀ x ∈ s.cells_, x.pos.IsValid = true) (hcount : s.count pos = true) :
    (s.ClearCell pos).1 = .ok ∧
      (s.ClearCell pos).2.cells_ = s.cells_.filter (fun e => decide (e.pos ≠ pos)) ∧
      IsBoundingSize (s.ClearCell pos).2.positions (s.ClearCell pos).2.GetPrintableSize := by
  have hres : s.ClearCell pos = (.ok,
      (s.cells_.filter (fun e => decide (e.pos ≠ pos))).foldl
        (fun st e => st.UpdatePrintableSize e.pos)
        { s with cells_ := s.cells_.filter (fun e => decide (e.pos ≠ pos)),
                 printableSize_ := ⟨0, 0⟩ }) := by
    unfold Sheet.ClearCell
    rw [hv, hcount]
    rfl
  rw [hres]
  obtain ⟨h1, h2, h3, h4, h5, h6, h7⟩ :=
    foldl_UpdatePrintableSize (s.cells_.filter (fun e => decide (e.pos ≠ pos)))
      { s with cells_ := s.cells_.filter (fun e => decide (e.pos ≠ pos)),
               printableSize_ := ⟨0, 0⟩ }
  simp only at h1 h2 h3 h4 h5 h6 h7 ⊢
  refine ⟨trivial, h1, ?_⟩
  unfold Sheet.positions Sheet.GetPrintableSize
  rw [h1]
  constructor
  · intro hnil
    have hl : s.cells_.filter (fun e => decide (e.pos ≠ pos)) = [] := by
      simpa using hnil
    rw [hl]
    rfl
  · intro hne
    have hne' : s.cells_.filter (fun e => decide (e.pos ≠ pos)) ≠ [] := by
      intro h; apply hne; rw [h]; rfl
    obtain ⟨a, ha⟩ := List.exists_mem_of_ne_nil _ hne'
    have hav := Position.nonneg_of_isValid (hkeys a (List.mem_filter.1 ha).1)
    have hra := h4 a ha
    have hca := h5 a ha
    refine ⟨?_, ?_, ?_, ?_⟩
    · rcases h6 with h | ⟨x, hx, h⟩
      · omega
      · exact ⟨x.pos, List.mem_map_of_mem _ hx, h⟩
    · intro p hp
      obtain ⟨x, hx, hxp⟩ := List.mem_map.1 hp
      subst hxp
      exact h4 x hx
    · rcases h7 with h | ⟨x, hx, h⟩
      · omega
      · exact ⟨x.pos, List.mem_map_of_mem _ hx, h⟩
    · intro p hp
      obtain ⟨x, hx, hxp⟩ := List.mem_map.1 hp
      subst hxp
      exact h5 x hx

theorem Sheet.Rel.positions_eq {R : Cell → Cell → Prop} {s s' : Sheet} (h : Sheet.Rel R s s') :
    s'.positions = s.positions := by
  unfold Sheet.positions
  have hl := h.1
  generalize s.cells_ = l at hl
  generalize s'.cells_ = l' at hl
  induction hl with
  | nil => rfl
  | cons hab _ ih => simp only [List.map_cons, hab.1, ih]

theorem Sheet.mem_positions_ensureCell (s : Sheet) (pos q : Position) :
    q ∈ (s.ensureCell pos).positions ↔ q ∈ s.positions ∨ q = pos := by
  unfold Sheet.ensureCell
  cases hc : s.count pos with
  | true =>
      simp only [if_true]
      constructor
      · exact Or.inl
      · rintro (h | h)
        · exact h
        · subst h
          unfold Sheet.count at hc
          obtain ⟨e, he⟩ := Option.isSome_iff_exists.1 hc
          obtain ⟨hm, hp⟩ := Sheet.find_some_mem he
          exact hp ▸ List.mem_map_of_mem _ hm
  | false =>
      simp only [Bool.false_eq_true, if_false]
      unfold Sheet.positions
      simp

/-- Extending a bounding rectangle by one valid position, as `UpdatePrintableSize` does. -/
theorem IsBoundingSize.insert {ps ps' : List Position} {sz : Size} {pos : Position}
    (h : IsBoundingSize ps sz) (hv : pos.IsValid = true)
    (hmem : ∀ q, q ∈ ps' ↔ q ∈ ps ∨ q = pos) :
    IsBoundingSize ps' ⟨max sz.rows (pos.row + 1), max sz.cols (pos.col + 1)⟩ := by
  have hpos := Position.nonneg_of_isValid hv
  have hin : pos ∈ ps' := (hmem pos).2 (Or.inr rfl)
  refine ⟨fun hnil => (by rw [hnil] at hin; cases hin), fun _ => ?_⟩
  by_cases hps : ps = []
  · have hsz := h.1 hps
    subst hps
    rw [hsz]
    simp only
    have hall : ∀ q ∈ ps', q = pos := fun q hq => by
      rcases (hmem q).1 hq with h1 | h1
      · cases h1
      · exact h1
    refine ⟨⟨pos, hin, ?_⟩, fun q hq => ?_, ⟨pos, hin, ?_⟩, fun q hq => ?_⟩
    · exact max_eq_right (by omega)
    · rw [hall q hq]; exact le_max_right _ _
    · exact max_eq_right (by omega)
    · rw [hall q hq]; exact le_max_right _ _
  · obtain ⟨⟨pr, hpr, hr⟩, hrle, ⟨pc, hpc, hc⟩, hcle⟩ := h.2 hps
    refine ⟨?_, fun q hq => ?_, ?_, fun q hq => ?_⟩
    · rcases max_choice sz.rows (pos.row + 1) with hm | hm
      · exact ⟨pr, (hmem pr).2 (Or.inl hpr), hm.trans hr⟩
      · exact ⟨pos, hin, hm⟩
    · rcases (hmem q).1 hq with h1 | h1
      · exact le_trans (hrle q h1) (le_max_left _ _)
      · subst h1; exact le_max_right _ _
    · rcases max_choice sz.cols (pos.col + 1) with hm | hm
      · exact ⟨pc, (hmem pc).2 (Or.inl hpc), hm.trans hc⟩
      · exact ⟨pos, hin, hm⟩
    · rcases (hmem q).1 hq with h1 | h1
      · exact le_trans (hcle q h1) (le_max_left _ _)
      · subst h1; exact le_max_right _ _

/-- A `SetCell` that returns normally was given a valid position, keeps the keys of the
sheet and adds `pos`, and extends the printable size to cover `pos`. -/
theorem Sheet.SetCell_ok_spec (env : Env) (s : Sheet) (pos : Position) (text : String)
    (h : (Sheet.SetCell env s pos text).1 = .ok) :
    pos.IsValid = true ∧
      (∀ q, q ∈ (Sheet.SetCell env s pos text).2.positions ↔ q ∈ s.positions ∨ q = pos) ∧
      (Sheet.SetCell env s pos text).2.printableSize_ =
        ⟨max s.printableSize_.rows (pos.row + 1), max s.printableSize_.cols (pos.col + 1)⟩ := by
  unfold Sheet.SetCell at h ⊢
  cases hv : pos.IsValid with
  | false => rw [hv] at h; cases h
  | true =>
      rw [hv] at h
      simp only [Bool.not_true, Bool.false_eq_true, if_false] at h ⊢
      by_cases hp : front text = FORMULA_SIGN ∧ size text > 1 ∧
          ParseFormula env (substr1 text) = none
      · rw [if_pos hp] at h; cases h
      · rw [if_neg hp] at h ⊢
        obtain ⟨e, he⟩ := Sheet.find_ensureCell s pos
        rw [he] at h ⊢
        simp only at h ⊢
        obtain ⟨s2, hset, hres⟩ := (Sheet.setAndCheck_spec env (s.ensureCell pos) pos e.addr text
          (Sheet.deref_of_find he)).2.2.2 h
        have hrel := (Cell.Set_spec env (s.ensureCell pos) e.addr text).2.1
        rw [hset] at hrel
        simp only at hrel
        rw [hres]
        refine ⟨trivial, fun q => ?_, ?_⟩
        · have hpos : (s2.UpdatePrintableSize pos).positions = s2.positions := rfl
          rw [hpos, hrel.positions_eq]
          exact Sheet.mem_positions_ensureCell s pos q
        · have hsz : s2.printableSize_ = s.printableSize_ := by
            rw [hrel.2.1]
            unfold Sheet.ensureCell
            split_ifs <;> rfl
          show (⟨max s2.printableSize_.rows (pos.row + 1),
            max s2.printableSize_.cols (pos.col + 1)⟩ : Size) = _
          rw [hsz]

/-- Along calls that return normally every key of the map is a valid position and the
printable size is the bounding rectangle of the keys. -/
theorem Sheet.ReachableOk.printableSize_isBoundingSize {env : Env} {s : Sheet}
    (h : Sheet.ReachableOk env s) :
    (∀ q ∈ s.positions, q.IsValid = true) ∧ IsBoundingSize s.positions s.GetPrintableSize := by
  induction h with
  | empty => exact ⟨fun q hq => (by cases hq), by decide⟩
  | setCell s pos text _ hok ih =>
      obtain ⟨hv, hmem, hsz⟩ := Sheet.SetCell_ok_spec env s pos text hok
      refine ⟨fun q hq => ?_, ?_⟩
      · rcases (hmem q).1 hq with h1 | h1
        · exact ih.1 q h1
        · exact h1 ▸ hv
      · unfold Sheet.GetPrintableSize
        rw [hsz]
        exact IsBoundingSize.insert ih.2 hv hmem
  | clearCell s pos _ hok ih =>
      have hkeys : ∀ x ∈ s.cells_, x.pos.IsValid = true :=
        fun x hx => ih.1 x.pos (List.mem_map_of_mem _ hx)
      cases hv : pos.IsValid with
      | false =>
          unfold Sheet.ClearCell at hok
          rw [hv] at hok
          cases hok
      | true =>
          cases hc : s.count pos with
          | false =>
              have hres : s.ClearCell pos = (.ok, s) := by
                unfold Sheet.ClearCell
                rw [hv, hc]
                rfl
              rw [hres]
              exact ih
          | true =>
              obtain ⟨_, hcells, hbound⟩ := Sheet.ClearCell_of_present s pos hv hkeys hc
              refine ⟨fun q hq => ?_, hbound⟩
              unfold Sheet.positions at hq
              rw [hcells] at hq
              obtain ⟨x, hx, hxq⟩ := List.mem_map.1 hq
              exact hxq ▸ hkeys x (List.mem_filter.1 hx).1
/-! ## `SetCell` never stores a dangling pointer -/

theorem edgesWithin_refl (s0 : Sheet) (c : Cell) : EdgesWithin s0 c c :=
  ⟨fun _ hi => Or.inl hi, fun _ hi => Or.inl hi⟩

theorem edgesWithin_trans (s0 : Sheet) (a b c : Cell) (h1 : EdgesWithin s0 a b)
    (h2 : EdgesWithin s0 b c) : EdgesWithin s0 a c := by
  refine ⟨fun i hi => ?_, fun i hi => ?_⟩
  · rcases h2.1 i hi with h | h
    · exact h1.1 i h
    · exact Or.inr h
  · rcases h2.2 i hi with h | h
    · exact h1.2 i h
    · exact Or.inr h

theorem Sheet.PointersLive.of_edgesWithin {s s' : Sheet} (h : Sheet.Rel (EdgesWithin s) s s')
    (hs : s.PointersLive) : s'.PointersLive := by
  intro e' he'
  obtain ⟨e, he, _, _, hr⟩ := h.mem_right he'
  refine ⟨fun i hi => ?_, fun i hi => ?_⟩
  · rw [h.deref_isSome]
    rcases hr.1 i hi with h1 | h1
    · exact (hs e he).1 i h1
    · exact h1
  · rw [h.deref_isSome]
    rcases hr.2 i hi with h1 | h1
    · exact (hs e he).2 i h1
    · exact h1

theorem mem_setErase {xs : List CellId} {x y : CellId} (h : y ∈ setErase xs x) : y ∈ xs :=
  (List.mem_filter.1 h).1

theorem removeDependentStep_edges (s0 : Sheet) (id : CellId) (st : Sheet) (oldCell : CellId)
    (hI : Sheet.Rel (EdgesWithin s0) s0 st) :
    Sheet.Rel (EdgesWithin s0) s0 (removeDependentStep id st oldCell).2 := by
  unfold removeDependentStep
  cases hd : st.deref oldCell with
  | none => exact hI
  | some c =>
      refine Sheet.Rel.trans (edgesWithin_trans s0) hI
        (Sheet.modify_rel (edgesWithin_refl s0) st _ _ (fun c => ?_))
      exact ⟨fun _ hi => Or.inl hi, fun _ hi => Or.inl (mem_setErase hi)⟩

theorem addReferenceStep_edges (s0 : Sheet) (id : CellId) (st : Sheet) (pos : Position)
    (hid : (s0.deref id).isSome = true) (hI : Sheet.Rel (EdgesWithin s0) s0 st) :
    Sheet.Rel (EdgesWithin s0) s0 (addReferenceStep id st pos).2 := by
  unfold addReferenceStep
  cases hv : pos.IsValid with
  | false => exact hI
  | true =>
      simp only [Bool.not_true, Bool.false_eq_true, if_false]
      cases hf : st.find pos with
      | none => exact hI
      | some e =>
          have he : (s0.deref e.addr).isSome = true := by
            rw [← hI.deref_isSome]; exact Sheet.deref_of_find hf
          refine Sheet.Rel.trans (edgesWithin_trans s0) hI ?_
          refine Sheet.Rel.trans (edgesWithin_trans s0)
            (t := st.modify id
              (fun c => { c with referencedCells_ := setInsert c.referencedCells_ e.addr })) ?_ ?_
          · refine Sheet.modify_rel (edgesWithin_refl s0) st _ _ (fun c => ?_)
            refine ⟨fun i hi => ?_, fun _ hi => Or.inl hi⟩
            rcases mem_setInsert.1 hi with h | h
            · exact Or.inl h
            · exact Or.inr (h ▸ he)
          · refine Sheet.modify_rel (edgesWithin_refl s0) _ _ _ (fun c => ?_)
            refine ⟨fun _ hi => Or.inl hi, fun i hi => ?_⟩
            rcases mem_setInsert.1 hi with h | h
            · exact Or.inl h
            · exact Or.inr (h ▸ hid)

theorem Cell.UpdateDependencies_edges (s0 s : Sheet) (id : CellId)
    (hI : Sheet.Rel (EdgesWithin s0) s0 s) :
    Sheet.Rel (EdgesWithin s0) s0 (Cell.UpdateDependencies s id).2 := by
  unfold Cell.UpdateDependencies
  cases hd : s.deref id with
  | none => exact hI
  | some c =>
      simp only
      have hid : (s0.deref id).isSome = true := by rw [← hI.deref_isSome, hd]; rfl
      have h1' := forEach_spec (removeDependentStep id) c.referencedCells_
        (fun _ => True) (fun _ => True) (fun a b => Sheet.Rel (EdgesWithin s0) s0 a →
          Sheet.Rel (EdgesWithin s0) s0 b)
        (fun _ h => h) (fun _ _ _ hab hbc h => hbc (hab h)) trivial
        (fun st x _ _ => ⟨trivial, fun hst => removeDependentStep_edges s0 id st x hst,
          fun _ => trivial⟩) s trivial
      rcases hr : forEach (removeDependentStep id) c.referencedCells_ s with ⟨st, s1⟩
      rw [hr] at h1'
      have hs1 : Sheet.Rel (EdgesWithin s0) s0 s1 := h1'.2.1 hI
      have hs2 : Sheet.Rel (EdgesWithin s0) s0
          (s1.modify id (fun c => { c with referencedCells_ := [] })) :=
        Sheet.Rel.trans (edgesWithin_trans s0) hs1
          (Sheet.modify_rel (edgesWithin_refl s0) _ _ _
            (fun c => ⟨fun _ hi => (by cases hi), fun _ hi => Or.inl hi⟩))
      cases st with
      | ok =>
          simp only
          cases hi : c.impl_ with
          | none => exact hs2
          | some impl =>
              cases impl with
              | EmptyImpl => exact hs2
              | TextImpl t => exact hs2
              | FormulaImpl f =>
                  simp only
                  have h2 := forEach_spec (addReferenceStep id) (Formula.GetReferencedCells f)
                    (fun _ => True) (fun _ => True) (fun a b => Sheet.Rel (EdgesWithin s0) s0 a →
                      Sheet.Rel (EdgesWithin s0) s0 b)
                    (fun _ h => h) (fun _ _ _ hab hbc h => hbc (hab h)) trivial
                    (fun st x _ _ => ⟨trivial, fun hst => addReferenceStep_edges s0 id st x hid hst,
                      fun _ => trivial⟩)
                    (s1.modify id (fun c => { c with referencedCells_ := [] })) trivial
                  exact h2.2.1 hs2
      | InvalidPositionException => exact hs1
      | FormulaException => exact hs1
      | CircularDependencyException => exact hs1
      | undefinedBehaviour => exact hs1
      | outOfFuel => exact hs1

theorem Cell.Set_edges (env : Env) (s0 s : Sheet) (id : CellId) (text : String)
    (hI : Sheet.Rel (EdgesWithin s0) s0 s) :
    Sheet.Rel (EdgesWithin s0) s0 (Cell.Set env s id text).2 := by
  unfold Cell.Set
  cases hd : s.deref id with
  | none => exact hI
  | some c0 =>
      simp only
      have hr2 : Sheet.Rel (EdgesWithin s0) s0
          ((s.modify id (fun c => { c with cache_ := none })).modify id
            (fun c => { c with impl_ := some (Cell.makeImpl env text) })) := by
        refine Sheet.Rel.trans (edgesWithin_trans s0) hI ?_
        refine Sheet.Rel.trans (edgesWithin_trans s0)
          (t := s.modify id (fun c => { c with cache_ := none })) ?_ ?_
        · exact Sheet.modify_rel (edgesWithin_refl s0) s _ _ (fun c => edgesWithin_refl s0 c)
        · exact Sheet.modify_rel (edgesWithin_refl s0) _ _ _ (fun c => edgesWithin_refl s0 c)
      generalize (s.modify id (fun c => { c with cache_ := none })).modify id
            (fun c => { c with impl_ := some (Cell.makeImpl env text) }) = s2 at hr2 ⊢
      have h3 := (Cell.InvalidateCache_rel (s2.cells_.length + 1) s2 id).2
      have hr3 : Sheet.Rel (EdgesWithin s0) s0
          (Cell.InvalidateCache (s2.cells_.length + 1) s2 id).2 :=
        Sheet.Rel.trans (edgesWithin_trans s0) hr2
          (h3.mono (fun c c' h => ⟨fun i hi => Or.inl (h.2.1 ▸ hi), fun i hi => Or.inl (h.2.2.1 ▸ hi)⟩))
      rcases hinv : Cell.InvalidateCache (s2.cells_.length + 1) s2 id with ⟨st3, s3⟩
      rw [hinv] at hr3
      cases st3 with
      | ok => exact Cell.UpdateDependencies_edges s0 s3 id hr3
      | InvalidPositionException => exact hr3
      | FormulaException => exact hr3
      | CircularDependencyException => exact hr3
      | undefinedBehaviour => exact hr3
      | outOfFuel => exact hr3

theorem Sheet.setAndCheck_pointersLive (env : Env) (s1 : Sheet) (pos : Position) (id : CellId)
    (text : String) (h : s1.PointersLive) : (s1.setAndCheck env pos id text).2.PointersLive := by
  have hset := Cell.Set_edges env s1 s1 id text (Sheet.Rel.refl (edgesWithin_refl s1) s1)
  unfold Sheet.setAndCheck
  rcases hr : Cell.Set env s1 id text with ⟨st2, s2⟩
  rw [hr] at hset
  have hs2 : s2.PointersLive := Sheet.PointersLive.of_edgesWithin hset h
  cases st2 with
  | ok =>
      simp only
      cases hdfs : s2.HasCircularDependency id with
      | found =>
          simp only
          have hclr := Cell.Set_edges env s2 s2 id "" (Sheet.Rel.refl (edgesWithin_refl s2) s2)
          unfold Cell.Clear
          rcases hr3 : Cell.Set env s2 id "" with ⟨st3, s3⟩
          rw [hr3] at hclr
          have hs3 : s3.PointersLive := Sheet.PointersLive.of_edgesWithin hclr hs2
          cases st3 <;> exact hs3
      | notFound v p => exact hs2
      | fault st => exact hs2
  | InvalidPositionException => exact hs2
  | FormulaException => exact hs2
  | CircularDependencyException => exact hs2
  | undefinedBehaviour => exact hs2
  | outOfFuel => exact hs2

/-- Whatever it ends with, `SetCell` keeps the edge sets free of dangling pointers. -/
theorem Sheet.SetCell_pointersLive (env : Env) (s : Sheet) (pos : Position) (text : String)
    (h : s.PointersLive) : (Sheet.SetCell env s pos text).2.PointersLive := by
  have h1 := Sheet.ensureCell_pointersLive pos h
  unfold Sheet.SetCell
  cases hv : pos.IsValid with
  | false => exact h
  | true =>
      simp only [Bool.not_true, Bool.false_eq_true, if_false]
      by_cases hp : front text = FORMULA_SIGN ∧ size text > 1 ∧
          ParseFormula env (substr1 text) = none
      · rw [if_pos hp]; exact h1
      · rw [if_neg hp]
        cases hf : (s.ensureCell pos).find pos with
        | none => exact h1
        | some e => exact Sheet.setAndCheck_pointersLive env _ pos e.addr text h1

/-- No sheet built by `SetCell` calls alone holds a dangling pointer. -/
theorem Sheet.ReachableBySetCell.pointersLive {env : Env} {s : Sheet}
    (h : Sheet.ReachableBySetCell env s) : s.PointersLive := by
  induction h with
  | empty => exact fun e he => (by cases he)
  | setCell s pos text _ ih => exact Sheet.SetCell_pointersLive env s pos text ih
/-! ## `Formula::GetReferencedCells`: sorted and free of duplicates -/

theorem Position.lt_iff {a b : Position} :
    a.lt b = true ↔ a.row < b.row ∨ (a.row = b.row ∧ a.col < b.col) := by
  unfold Position.lt
  simp only [Bool.or_eq_true, Bool.and_eq_true, decide_eq_true_eq]

theorem Position.eq_iff {a b : Position} : a = b ↔ a.row = b.row ∧ a.col = b.col := by
  cases a; cases b; simp

theorem Position.le_total (a b : Position) :
    (a.lt b = true ∨ a = b) ∨ (b.lt a = true ∨ b = a) := by
  simp only [Position.lt_iff, Position.eq_iff]
  omega

theorem Position.le_trans {a b c : Position} (h1 : a.lt b = true ∨ a = b)
    (h2 : b.lt c = true ∨ b = c) : a.lt c = true ∨ a = c := by
  simp only [Position.lt_iff, Position.eq_iff] at *
  omega

theorem Position.lt_of_le_of_ne {a b : Position} (h1 : a.lt b = true ∨ a = b) (h2 : a ≠ b) :
    a.lt b = true := by
  rcases h1 with h | h
  · exact h
  · exact absurd h h2

theorem Position.le_antisymm {a b : Position} (h1 : a.lt b = true ∨ a = b)
    (h2 : b.lt a = true ∨ b = a) : a = b := by
  simp only [Position.lt_iff, Position.eq_iff] at *
  omega

theorem Position.lt_irrefl (a : Position) : ¬ a.lt a = true := by
  simp only [Position.lt_iff]
  omega

theorem sorted_insertionSort_le (l : List Position) :
    List.Pairwise (fun a b => a.lt b = true ∨ a = b)
      (List.insertionSort (fun a b => a.lt b = true ∨ a = b) l) := by
  haveI : IsTotal Position (fun a b => a.lt b = true ∨ a = b) := ⟨Position.le_total⟩
  haveI : IsTrans Position (fun a b => a.lt b = true ∨ a = b) :=
    ⟨fun _ _ _ => Position.le_trans⟩
  exact List.sorted_insertionSort _ l

theorem mem_unique_of_mem : ∀ (l : List Position) (p : Position), p ∈ l → p ∈ unique l
  | [], _, h => h
  | [_], _, h => h
  | a :: b :: rest, p, h => by
      unfold unique
      by_cases hab : a = b
      · rw [if_pos hab]
        rcases List.mem_cons.1 h with h1 | h1
        · exact mem_unique_of_mem (b :: rest) p (h1 ▸ hab ▸ List.mem_cons_self _ _)
        · exact mem_unique_of_mem (b :: rest) p h1
      · rw [if_neg hab]
        rcases List.mem_cons.1 h with h1 | h1
        · exact h1 ▸ List.mem_cons_self _ _
        · exact List.mem_cons_of_mem _ (mem_unique_of_mem (b :: rest) p h1)

/-- On a list in non-decreasing order `std::unique` leaves a strictly increasing list. -/
theorem pairwise_lt_unique : ∀ (l : List Position),
    List.Pairwise (fun a b => a.lt b = true ∨ a = b) l →
      List.Pairwise (fun a b => a.lt b = true) (unique l)
  | [], _ => List.Pairwise.nil
  | [a], _ => List.pairwise_singleton _ a
  | a :: b :: rest, h => by
      have htail := pairwise_lt_unique (b :: rest) (List.Pairwise.of_cons h)
      unfold unique
      by_cases hab : a = b
      · rw [if_pos hab]; exact htail
      · rw [if_neg hab]
        refine List.Pairwise.cons (fun x hx => ?_) htail
        have hx' := mem_of_mem_unique _ _ hx
        have hax := List.rel_of_pairwise_cons h hx'
        refine Position.lt_of_le_of_ne hax (fun hxa => ?_)
        subst hxa
        have hba : b.lt a = true ∨ b = a := by
          rcases List.mem_cons.1 hx' with h1 | h1
          · exact Or.inr h1.symm
          · exact List.rel_of_pairwise_cons (List.Pairwise.of_cons h) h1
        exact hab (Position.le_antisymm (List.rel_of_pairwise_cons h (List.mem_cons_self _ _)) hba)
/-! ## Newlines written by `PrintTexts` and `PrintValues` -/

theorem count_flatMap_of_forall {α : Type} (a : Char) (f : α → List Char) (k : Nat) :
    ∀ l : List α, (∀ x ∈ l, (f x).count a = k) → (l.flatMap f).count a = k * l.length := by
  intro l
  induction l with
  | nil => intro _; simp
  | cons x rest ih =>
      intro h
      rw [List.flatMap_cons, List.count_append, h x (List.mem_cons_self _ _),
        ih (fun y hy => h y (List.mem_cons_of_mem _ hy)), List.length_cons]
      ring

theorem Sheet.count_separator (s : Sheet) (col : Nat) : (s.separator col).count '\n' = 0 := by
  unfold Sheet.separator
  split_ifs <;> decide

theorem Sheet.count_printTextsRow (env : Env) (s : Sheet) (h : s.TextsOneLine env) (row : Nat) :
    (s.printTextsRow env row).count '\n' = 0 := by
  unfold Sheet.printTextsRow
  rw [count_flatMap_of_forall '\n' _ 0 _ (fun col _ => ?_), Nat.zero_mul]
  rw [List.count_append, Sheet.count_separator, Nat.add_zero]
  cases hf : s.find ⟨row, col⟩ with
  | none => rfl
  | some e => exact List.count_eq_zero_of_not_mem (h e (Sheet.find_some_mem hf).1)

theorem Sheet.newlines_PrintTexts (env : Env) (s : Sheet) (h : s.TextsOneLine env) :
    newlines (s.PrintTexts env) = s.GetPrintableSize.rows.toNat := by
  unfold newlines Sheet.PrintTexts Sheet.GetPrintableSize
  simp only
  rw [count_flatMap_of_forall '\n' _ 1 _ (fun row _ => ?_), List.length_range, Nat.one_mul]
  rw [List.count_append, Sheet.count_printTextsRow env s h row]
  rfl

theorem Sheet.ValuesOneLine.modify_cache {fmt : Rat → String} {s : Sheet}
    (h : s.ValuesOneLine fmt) (id : CellId) {v : Value} (hv : '\n' ∉ (v.print fmt).data) :
    (s.modify id (fun c => { c with cache_ := some v })).ValuesOneLine fmt := by
  intro e' he'
  obtain ⟨e, he, _, _, hc⟩ := Sheet.mem_modify he'
  by_cases hid : e.addr = id
  · rw [if_pos hid] at hc
    rw [hc]
    exact ⟨(h e he).1, hv⟩
  · rw [if_neg hid] at hc
    rw [hc]
    exact h e he

theorem Impl.GetValue_noNewline (fmt : Rat → String) {impl : Impl}
    (h : ∀ text_, impl = .TextImpl text_ → '\n' ∉ text_.data) :
    '\n' ∉ (impl.GetValue.print fmt).data := by
  cases impl with
  | EmptyImpl => exact List.not_mem_nil _
  | FormulaImpl f => exact List.not_mem_nil _
  | TextImpl t =>
      have ht := h t rfl
      show '\n' ∉ ((if t.data ≠ [] ∧ front t = ESCAPE_SIGN then Value.text (substr1 t)
        else Value.text t).print fmt).data
      split_ifs
      · exact fun hm => ht (List.mem_of_mem_tail hm)
      · exact ht

theorem FormulaAST.Execute_oneLine (env : Env) (fmt : Rat → String)
    (getValue : Sheet → CellId → Option (Value × Sheet))
    (hget : ∀ s id v s', s.ValuesOneLine fmt → getValue s id = some (v, s') →
      s'.ValuesOneLine fmt) :
    ∀ (ast : FormulaAST) (s : Sheet) (r : Except FormulaError Rat) (s' : Sheet),
      s.ValuesOneLine fmt → FormulaAST.Execute env getValue ast s = some (r, s') →
        s'.ValuesOneLine fmt := by
  intro ast
  induction ast with
  | Number v =>
      intro s r s' hs h
      unfold FormulaAST.Execute at h
      cases h
      exact hs
  | CellRef p =>
      intro s r s' hs h
      unfold FormulaAST.Execute at h
      split_ifs at h with hv
      · cases h; exact hs
      · split at h
        · cases h; exact hs
        · split_ifs at h with ht
          · cases h; exact hs
          · split at h
            · cases h
            · rename_i hg; cases h; exact hget _ _ _ _ hs hg
            · rename_i hg; cases h; exact hget _ _ _ _ hs hg
            · rename_i hg
              split at h <;> (cases h; exact hget _ _ _ _ hs hg)
  | UnaryOpExpr op e ih =>
      intro s r s' hs h
      unfold FormulaAST.Execute at h
      split at h
      · cases h
      · rename_i he; cases h; exact ih _ _ _ hs he
      · rename_i he; cases h; exact ih _ _ _ hs he
  | BinaryOpExpr op l r ihl ihr =>
      intro s res s' hs h
      unfold FormulaAST.Execute at h
      split at h
      · cases h
      · rename_i hl; cases h; exact ihl _ _ _ hs hl
      · rename_i hl
        split at h
        · cases h
        · rename_i hr; cases h; exact ihr _ _ _ (ihl _ _ _ hs hl) hr
        · rename_i hr; cases h; exact ihr _ _ _ (ihl _ _ _ hs hl) hr

/-- With a number format that writes no newline, `GetValue` keeps `ValuesOneLine` and returns
a value that prints without a newline. -/
theorem Cell.GetValue_oneLine (env : Env) (fmt : Rat → String)
    (hfmt : ∀ d, '\n' ∉ (fmt d).data) (fuel : Nat) :
    ∀ (s : Sheet) (id : CellId) (v : Value) (s' : Sheet), s.ValuesOneLine fmt →
      Cell.GetValue env fuel s id = some (v, s') →
        s'.ValuesOneLine fmt ∧ '\n' ∉ (v.print fmt).data := by
  induction fuel with
  | zero => intro s id v s' _ h; unfold Cell.GetValue at h; cases h
  | succ n ih =>
      intro s id v s' hs h
      unfold Cell.GetValue Cell.GetValueWith at h
      cases hd : s.deref id with
      | none => rw [hd] at h; cases h
      | some c =>
          obtain ⟨e, he, _, hec⟩ := Sheet.deref_some_mem hd
          rw [hd] at h
          simp only at h
          cases hc : c.cache_ with
          | some v0 =>
              rw [hc] at h
              simp only [Option.some.injEq, Prod.mk.injEq] at h
              obtain ⟨h1, h2⟩ := h
              subst h1; subst h2
              refine ⟨hs, ?_⟩
              have := (hs e he).2
              rw [hec] at this
              unfold Cell.cachedPrint at this
              rw [hc] at this
              exact this
          | none =>
              rw [hc] at h
              simp only at h
              cases hi : c.impl_ with
              | none =>
                  rw [hi] at h
                  simp only [Option.some.injEq, Prod.mk.injEq] at h
                  obtain ⟨h1, h2⟩ := h
                  subst h1; subst h2
                  exact ⟨hs, List.not_mem_nil _⟩
              | some impl =>
                  rw [hi] at h
                  have himpl : ∀ text_, impl = .TextImpl text_ → '\n' ∉ text_.data := by
                    intro t ht
                    have := (hs e he).1
                    rw [hec] at this
                    unfold Cell.rawText at this
                    rw [hi, ht] at this
                    exact this
                  cases impl with
                  | EmptyImpl =>
                      simp only [Option.some.injEq, Prod.mk.injEq] at h
                      obtain ⟨h1, h2⟩ := h
                      subst h1; subst h2
                      have hv := Impl.GetValue_noNewline fmt himpl
                      exact ⟨hs.modify_cache id hv, hv⟩
                  | TextImpl t =>
                      simp only [Option.some.injEq, Prod.mk.injEq] at h
                      obtain ⟨h1, h2⟩ := h
                      subst h1; subst h2
                      have hv := Impl.GetValue_noNewline fmt himpl
                      exact ⟨hs.modify_cache id hv, hv⟩
                  | FormulaImpl f =>
                      simp only at h
                      unfold FormulaImpl.Evaluate at h
                      cases hex : FormulaAST.Execute env (Cell.GetValue env n) f s with
                      | none => rw [hex] at h; cases h
                      | some r =>
                          obtain ⟨res, s1⟩ := r
                          have hs1 := FormulaAST.Execute_oneLine env fmt (Cell.GetValue env n)
                            (fun s id v s' hs hg => (ih s id v s' hs hg).1) f s res s1 hs hex
                          rw [hex] at h
                          cases res with
                          | ok d =>
                              simp only [Option.some.injEq, Prod.mk.injEq] at h
                              obtain ⟨h1, h2⟩ := h
                              subst h1; subst h2
                              exact ⟨hs1.modify_cache id (hfmt d), hfmt d⟩
                          | error fe =>
                              simp only [Option.some.injEq, Prod.mk.injEq] at h
                              obtain ⟨h1, h2⟩ := h
                              subst h1; subst h2
                              have hv : '\n' ∉ ((Value.error fe).print fmt).data := by
                                show '\n' ∉ ("#ARITHM!" : String).data
                                decide
                              exact ⟨hs1.modify_cache id hv, hv⟩

theorem Sheet.printValuesCols_oneLine (env : Env) (fmt : Rat → String)
    (hfmt : ∀ d, '\n' ∉ (fmt d).data) (fuel : Nat) (size : Sheet) (row : Nat) :
    ∀ (cols : List Nat) (out : List Char) (s : Sheet) (out' : List Char) (s' : Sheet),
      s.ValuesOneLine fmt →
      Sheet.printValuesCols env fmt fuel size row cols out s = some (out', s') →
        s'.ValuesOneLine fmt ∧ out'.count '\n' = out.count '\n' := by
  intro cols
  induction cols with
  | nil =>
      intro out s out' s' hs h
      unfold Sheet.printValuesCols at h
      simp only [Option.some.injEq, Prod.mk.injEq] at h
      exact ⟨h.2 ▸ hs, by rw [h.1]⟩
  | cons col rest ih =>
      intro out s out' s' hs h
      unfold Sheet.printValuesCols at h
      cases hf : s.find ⟨row, col⟩ with
      | none =>
          rw [hf] at h
          obtain ⟨h1, h2⟩ := ih _ _ _ _ hs h
          refine ⟨h1, ?_⟩
          rw [h2, List.count_append, Sheet.count_separator, Nat.add_zero]
      | some e =>
          rw [hf] at h
          simp only at h
          cases hg : Cell.GetValue env fuel s e.addr with
          | none => rw [hg] at h; cases h
          | some r =>
              obtain ⟨v, s1⟩ := r
              rw [hg] at h
              obtain ⟨hs1, hv⟩ := Cell.GetValue_oneLine env fmt hfmt fuel s e.addr v s1 hs hg
              obtain ⟨h1, h2⟩ := ih _ _ _ _ hs1 h
              refine ⟨h1, ?_⟩
              rw [h2, List.count_append, List.count_append, Sheet.count_separator,
                List.count_eq_zero_of_not_mem hv]
              rfl

theorem Sheet.printValuesRows_oneLine (env : Env) (fmt : Rat → String)
    (hfmt : ∀ d, '\n' ∉ (fmt d).data) (fuel : Nat) (size : Sheet) :
    ∀ (rows : List Nat) (out : List Char) (s : Sheet) (out' : List Char) (s' : Sheet),
      s.ValuesOneLine fmt →
      Sheet.printValuesRows env fmt fuel size rows out s = some (out', s') →
        s'.ValuesOneLine fmt ∧ out'.count '\n' = out.count '\n' + rows.length := by
  intro rows
  induction rows with
  | nil =>
      intro out s out' s' hs h
      unfold Sheet.printValuesRows at h
      simp only [Option.some.injEq, Prod.mk.injEq] at h
      exact ⟨h.2 ▸ hs, by rw [h.1]; rfl⟩
  | cons row rest ih =>
      intro out s out' s' hs h
      unfold Sheet.printValuesRows at h
      cases hc : Sheet.printValuesCols env fmt fuel size row
          (List.range size.printableSize_.cols.toNat) out s with
      | none => rw [hc] at h; cases h
      | some r =>
          obtain ⟨out1, s1⟩ := r
          rw [hc] at h
          simp only at h
          obtain ⟨hs1, hcount⟩ :=
            Sheet.printValuesCols_oneLine env fmt hfmt fuel size row _ _ _ _ _ hs hc
          obtain ⟨h1, h2⟩ := ih _ _ _ _ hs1 h
          refine ⟨h1, ?_⟩
          rw [h2, List.count_append, hcount, List.length_cons]
          have : ['\n'].count '\n' = 1 := rfl
          omega

theorem Sheet.newlines_PrintValues (env : Env) (fmt : Rat → String)
    (hfmt : ∀ d, '\n' ∉ (fmt d).data) (fuel : Nat) (s : Sheet) (hs : s.ValuesOneLine fmt)
    {out : String} {s' : Sheet} (h : s.PrintValues env fmt fuel = some (out, s')) :
    newlines out = s.GetPrintableSize.rows.toNat := by
  unfold Sheet.PrintValues at h
  cases hr : Sheet.printValuesRows env fmt fuel s (List.range s.printableSize_.rows.toNat) [] s with
  | none => rw [hr] at h; cases h
  | some r =>
      obtain ⟨out1, s1⟩ := r
      rw [hr] at h
      simp only [Option.map_some', Option.some.injEq, Prod.mk.injEq] at h
      obtain ⟨_, hcount⟩ := Sheet.printValuesRows_oneLine env fmt hfmt fuel s _ _ _ _ _ hs hr
      unfold newlines Sheet.GetPrintableSize
      rw [← h.1]
      simp only
      rw [hcount, List.length_range, List.count_nil, Nat.zero_add]

theorem Sheet.printValuesCols_returns (env : Env) (fmt : Rat → String) (fuel : Nat)
    (rank : CellId → Nat) (hfuel : ∀ i, rank i < fuel) (size : Sheet) (row : Nat) :
    ∀ (cols : List Nat) (out : List Char) (s : Sheet), s.rankedBy rank = true →
      ∃ out' s', Sheet.printValuesCols env fmt fuel size row cols out s = some (out', s') ∧
        s'.rankedBy rank = true := by
  intro cols
  induction cols with
  | nil => intro out s hs; exact ⟨out, s, rfl, hs⟩
  | cons col rest ih =>
      intro out s hs
      unfold Sheet.printValuesCols
      cases hf : s.find ⟨row, col⟩ with
      | none => exact ih _ s hs
      | some e =>
          simp only
          obtain ⟨v, s1, hg⟩ := Cell.GetValue_returns env rank fuel s e.addr hs
            (Sheet.deref_of_find hf) (hfuel _)
          rw [hg]
          exact ih _ s1 (Sheet.rankedBy_of_rel (Cell.GetValue_rel env fuel _ _ _ _ hg) hs)

theorem Sheet.printValuesRows_returns (env : Env) (fmt : Rat → String) (fuel : Nat)
    (rank : CellId → Nat) (hfuel : ∀ i, rank i < fuel) (size : Sheet) :
    ∀ (rows : List Nat) (out : List Char) (s : Sheet), s.rankedBy rank = true →
      ∃ out' s', Sheet.printValuesRows env fmt fuel size rows out s = some (out', s') := by
  intro rows
  induction rows with
  | nil => intro out s _; exact ⟨out, s, rfl⟩
  | cons row rest ih =>
      intro out s hs
      unfold Sheet.printValuesRows
      obtain ⟨out1, s1, hc, hs1⟩ :=
        Sheet.printValuesCols_returns env fmt fuel rank hfuel size row
          (List.range size.printableSize_.cols.toNat) out s hs
      rw [hc]
      exact ih _ s1 hs1

theorem Sheet.PrintValues_returns (env : Env) (fmt : Rat → String) (fuel : Nat) (s : Sheet)
    (rank : CellId → Nat) (hs : s.rankedBy rank = true) (hfuel : ∀ i, rank i < fuel) :
    (s.PrintValues env fmt fuel).isSome = true := by
  unfold Sheet.PrintValues
  obtain ⟨out, s', h⟩ := Sheet.printValuesRows_returns env fmt fuel rank hfuel s
    (List.range s.printableSize_.rows.toNat) [] s hs
  rw [h]
  rfl

theorem scenarioFormat_oneLine (d : Rat) : '\n' ∉ (scenarioFormat d).data := by
  unfold scenarioFormat
  split_ifs <;> decide

/-! ## Exactness of the depth-first search -/

theorem Sheet.reachesCycle_of_edge {s : Sheet} {a b : CellId} (h : s.Edge a b)
    (hb : s.ReachesCycle b) : s.ReachesCycle a := by
  obtain ⟨z, hbz, hzz⟩ := hb
  exact ⟨z, Relation.ReflTransGen.head h hbz, hzz⟩

/-- A cell all of whose neighbours reach no cycle reaches none itself. -/
theorem Sheet.not_reachesCycle_of_succ {s : Sheet} {c : CellId}
    (h : ∀ y, s.Edge c y → ¬ s.ReachesCycle y) : ¬ s.ReachesCycle c := by
  rintro ⟨z, hcz, hzz⟩
  rcases Relation.ReflTransGen.cases_head hcz with heq | ⟨y, hcy, hyz⟩
  · subst heq
    obtain ⟨y, hcy, hyc⟩ := Relation.TransGen.head'_iff.1 hzz
    exact h y hcy ⟨c, hyc, hzz⟩
  · exact h y hcy ⟨z, hyz, hzz⟩

theorem setErase_setInsert {p : List CellId} {c : CellId} (hc : c ∉ p) :
    setErase (setInsert p c) c = p := by
  unfold setErase setInsert
  rw [if_neg hc, List.filter_append]
  have h1 : List.filter (fun y => decide (y ≠ c)) p = p := by
    refine List.filter_eq_self.2 (fun a ha => ?_)
    simp only [ne_eq, decide_not, Bool.not_eq_eq_eq_not, Bool.not_true, decide_eq_false_iff_not]
    exact fun h => hc (h ▸ ha)
  rw [h1]
  simp

/-- The loop over the neighbours, given the specification of the recursive call. -/
theorem dfsLoop_spec (s : Sheet) (rec : List CellId → List CellId → CellId → DfsResult)
    (n : Nat) (c : CellId) (p : List CellId)
    (hrec : ∀ v y, (s.deref y).isSome = true → s.unvisited v < n → (∀ x ∈ p, x ∈ v) →
      (∀ x ∈ v, x ∉ p → ¬ s.ReachesCycle x) → (∀ a ∈ p, Relation.ReflTransGen s.Edge a y) →
      s.DfsSpec v p y (rec v p y))
    (hpc : ∀ a ∈ p, Relation.ReflTransGen s.Edge a c) :
    ∀ (l v : List CellId), (∀ y ∈ l, s.Edge c y ∧ (s.deref y).isSome = true) →
      s.unvisited v < n → (∀ x ∈ p, x ∈ v) → (∀ x ∈ v, x ∉ p → ¬ s.ReachesCycle x) →
      s.DfsLoopSpec l v p c (dfsLoop rec l v p) := by
  intro l
  induction l with
  | nil =>
      intro v _ _ _ hsafe
      unfold dfsLoop
      exact ⟨rfl, fun x hx => hx, fun y hy => absurd hy (List.not_mem_nil _), hsafe⟩
  | cons y rest ih =>
      intro v hl hfuel hpv hsafe
      have hy := hl y (List.mem_cons_self _ _)
      have hrest : ∀ z ∈ rest, s.Edge c z ∧ (s.deref z).isSome = true :=
        fun z hz => hl z (List.mem_cons_of_mem _ hz)
      unfold dfsLoop
      by_cases hyp : y ∈ p
      · rw [if_pos hyp]
        have hyc := hpc y hyp
        exact ⟨y, Relation.ReflTransGen.single hy.1,
          Relation.TransGen.trans_right hyc (Relation.TransGen.single hy.1)⟩
      · rw [if_neg hyp]
        have hcall := hrec v y hy.2 hfuel hpv hsafe
          (fun a ha => Relation.ReflTransGen.tail (hpc a ha) hy.1)
        cases hr : rec v p y with
        | found =>
            rw [hr] at hcall
            exact Sheet.reachesCycle_of_edge hy.1 hcall
        | fault st =>
            rw [hr] at hcall
            exact hcall.elim
        | notFound v2 p2 =>
            rw [hr] at hcall
            obtain ⟨hp2, hsub, hyv, hsafe2⟩ := hcall
            subst hp2
            have h2 : s.unvisited v2 < n :=
              Nat.lt_of_le_of_lt (Sheet.unvisited_mono s hsub) hfuel
            have hnext := ih v2 hrest h2 (fun x hx => hsub x (hpv x hx)) hsafe2
            show s.DfsLoopSpec (y :: rest) v p2 c (dfsLoop rec rest v2 p2)
            cases hr2 : dfsLoop rec rest v2 p2 with
            | found => rw [hr2] at hnext; exact hnext
            | fault st => rw [hr2] at hnext; exact hnext.elim
            | notFound v3 p3 =>
                rw [hr2] at hnext
                obtain ⟨hp3, hsub3, hmem3, hsafe3⟩ := hnext
                refine ⟨hp3, fun x hx => hsub3 x (hsub x hx), fun z hz => ?_, hsafe3⟩
                rcases List.mem_cons.1 hz with hzy | hzr
                · exact hzy ▸ ⟨hsub3 y hyv, hyp⟩
                · exact hmem3 z hzr

/-- Specification of the DFS: it never faults; `found` means a cycle is reachable from the
cell; otherwise the path is restored, the visited set has grown by the cell, and no visited
cell off the path reaches a cycle. -/
theorem dfs_spec (s : Sheet) (hlive : s.RefsLive) (fuel : Nat) :
    ∀ (p v : List CellId) (c : CellId), (s.deref c).isSome = true → s.unvisited v < fuel →
      (∀ x ∈ p, x ∈ v) → (∀ x ∈ v, x ∉ p → ¬ s.ReachesCycle x) →
      (∀ a ∈ p, Relation.ReflTransGen s.Edge a c) →
      s.DfsSpec v p c (dfs s fuel v p c) := by
  induction fuel with
  | zero => intro p v c _ h; exact absurd h (Nat.not_lt_zero _)
  | succ n ih =>
      intro p v c hc hfuel hpv hsafe hpc
      unfold dfs
      by_cases hv : c ∈ v
      · rw [if_pos hv]
        exact ⟨rfl, fun x hx => hx, hv, hsafe⟩
      · rw [if_neg hv]
        simp only
        have hcp : c ∉ p := fun h => hv (hpv c h)
        cases hd : s.deref c with
        | none => rw [hd] at hc; cases hc
        | some cell =>
            simp only
            obtain ⟨e, he, _, hecell⟩ := Sheet.deref_some_mem hd
            have hlt1 : s.unvisited (setInsert v c) < n := by
              have := Sheet.unvisited_insert_lt s hv hd
              omega
            have hnb : ∀ y ∈ cell.GetDependentCells,
                s.Edge c y ∧ (s.deref y).isSome = true := by
              intro y hy
              refine ⟨⟨cell, hd, hy⟩, hlive e he y ?_⟩
              rw [hecell]
              exact hy
            have hloop := dfsLoop_spec s (dfs s n) n c (setInsert p c)
              (fun v1 y hy1 hf1 hpv1 hs1 hpy => ih (setInsert p c) v1 y hy1 hf1 hpv1 hs1 hpy)
              (fun a ha => by
                rcases mem_setInsert.1 ha with h1 | h1
                · exact hpc a h1
                · rw [h1])
              cell.GetDependentCells (setInsert v c) hnb hlt1
              (fun x hx => by
                rcases mem_setInsert.1 hx with h1 | h1
                · exact mem_setInsert.2 (Or.inl (hpv x h1))
                · exact mem_setInsert.2 (Or.inr h1))
              (fun x hx hxp => by
                rcases mem_setInsert.1 hx with h1 | h1
                · exact hsafe x h1 (fun h => hxp (mem_setInsert.2 (Or.inl h)))
                · exact absurd (mem_setInsert.2 (Or.inr h1)) hxp)
            cases hr : dfsLoop (dfs s n) cell.GetDependentCells (setInsert v c)
                (setInsert p c) with
            | found => rw [hr] at hloop; exact hloop
            | fault st => rw [hr] at hloop; exact hloop.elim
            | notFound v2 p2 =>
                rw [hr] at hloop
                obtain ⟨hp2, hsub, hmem, hsafe2⟩ := hloop
                show s.DfsSpec v p c (.notFound v2 (setErase p2 c))
                rw [hp2, setErase_setInsert hcp]
                have hcv2 : c ∈ v2 := hsub c (mem_setInsert.2 (Or.inr rfl))
                have hsafec : ¬ s.ReachesCycle c := by
                  refine Sheet.not_reachesCycle_of_succ (fun y hy => ?_)
                  obtain ⟨c2, hd2, hy2⟩ := hy
                  rw [hd] at hd2
                  cases hd2
                  exact hsafe2 y (hmem y hy2).1 (hmem y hy2).2
                refine ⟨rfl, fun x hx => hsub x (mem_setInsert.2 (Or.inl hx)), hcv2,
                  fun x hx hxp => ?_⟩
                by_cases hxc : x = c
                · rw [hxc]; exact hsafec
                · refine hsafe2 x hx (fun h => ?_)
                  rcases mem_setInsert.1 h with h1 | h1
                  · exact hxp h1
                  · exact hxc h1

/-- The cycle check is exact: on a sheet whose recorded references are live it answers
without fault, and answers `found` exactly when a cycle is reachable from the start cell. -/
theorem Sheet.HasCircularDependency_spec {s : Sheet} (hlive : s.RefsLive) {id : CellId}
    (hid : (s.deref id).isSome = true) :
    (s.HasCircularDependency id = .found ∧ s.ReachesCycle id) ∨
      ((∃ v p, s.HasCircularDependency id = .notFound v p) ∧ ¬ s.ReachesCycle id) := by
  have h := dfs_spec s hlive (s.cells_.length + 1) [] [] id hid
    (Nat.lt_succ_of_le (List.countP_le_length _))
    (fun x hx => absurd hx (List.not_mem_nil _))
    (fun x hx => absurd hx (List.not_mem_nil _))
    (fun x hx => absurd hx (List.not_mem_nil _))
  unfold Sheet.HasCircularDependency
  cases hr : dfs s (s.cells_.length + 1) [] [] id with
  | found => rw [hr] at h; exact Or.inl ⟨rfl, h⟩
  | fault st => rw [hr] at h; exact h.elim
  | notFound v p =>
      rw [hr] at h
      exact Or.inr ⟨⟨v, p, rfl⟩, h.2.2.2 id h.2.2.1 (List.not_mem_nil _)⟩

/-- A closed walk either avoids the out-edges of `c` or passes through `c`. -/
theorem transGen_avoid_or_through {α : Type} {r : α → α → Prop} (c : α) {a b : α}
    (h : Relation.TransGen r a b) :
    Relation.TransGen (fun x y => r x y ∧ x ≠ c) a b ∨
      (Relation.ReflTransGen r a c ∧ Relation.TransGen r c b) := by
  induction h with
  | single hab =>
      rename_i b
      by_cases hac : a = c
      · right
        exact ⟨hac ▸ Relation.ReflTransGen.refl, hac ▸ Relation.TransGen.single hab⟩
      · left
        exact Relation.TransGen.single ⟨hab, hac⟩
  | tail hab hbc ih =>
      rename_i b d
      rcases ih with h1 | ⟨h1, h2⟩
      · by_cases hbc2 : b = c
        · right
          exact ⟨hbc2 ▸ hab.to_reflTransGen, hbc2 ▸ Relation.TransGen.single hbc⟩
        · left
          exact Relation.TransGen.tail h1 ⟨hbc, hbc2⟩
      · right
        exact ⟨h1, Relation.TransGen.tail h2 hbc⟩

/-- When the graph without the out-edges of `c` has no cycle, reaching a cycle from `c` is
the same as `c` lying on one. -/
theorem Sheet.reachesCycle_iff_onCycle {s : Sheet} {c : CellId}
    (hrest : ∀ z, ¬ Relation.TransGen (fun x y => s.Edge x y ∧ x ≠ c) z z) :
    s.ReachesCycle c ↔ Relation.TransGen s.Edge c c := by
  constructor
  · rintro ⟨z, hcz, hzz⟩
    rcases transGen_avoid_or_through c hzz with h | ⟨h1, h2⟩
    · exact absurd h (hrest z)
    · rcases Relation.ReflTransGen.cases_head hcz with heq | ⟨y, hcy, hyz⟩
      · rw [heq]; exact hzz
      · exact Relation.TransGen.trans_left (Relation.TransGen.head'_iff.2 ⟨y, hcy, hyz⟩) h1
  · intro h
    exact ⟨c, Relation.ReflTransGen.refl, h⟩

/-! ## The recorded graph stays acyclic -/

theorem Sheet.sameRefsOff_refl (id : CellId) (s : Sheet) : Sheet.SameRefsOff id s s :=
  fun _ _ => rfl

theorem Sheet.sameRefsOff_trans {id : CellId} {a b c : Sheet} (h1 : Sheet.SameRefsOff id a b)
    (h2 : Sheet.SameRefsOff id b c) : Sheet.SameRefsOff id a c :=
  fun j hj => (h2 j hj).trans (h1 j hj)

theorem Sheet.sameRefsOff_modify_self (s : Sheet) (id : CellId) (f : Cell → Cell) :
    Sheet.SameRefsOff id s (s.modify id f) := by
  intro j hj
  rw [Sheet.deref_modify_ne s f hj]

theorem Sheet.sameRefsOff_modify_keep (s : Sheet) (id k : CellId) (f : Cell → Cell)
    (hf : ∀ c, (f c).referencedCells_ = c.referencedCells_) :
    Sheet.SameRefsOff id s (s.modify k f) := by
  intro j _
  by_cases hjk : j = k
  · subst hjk
    rw [Sheet.deref_modify]
    cases s.deref j with
    | none => rfl
    | some c => exact congrArg some (hf c)
  · rw [Sheet.deref_modify_ne s f hjk]

theorem Sheet.Rel.sameRefsOff {R : Cell → Cell → Prop} {s s' : Sheet} (h : Sheet.Rel R s s')
    (hR : ∀ c c', R c c' → c'.referencedCells_ = c.referencedCells_) (id : CellId) :
    Sheet.SameRefsOff id s s' := by
  intro j _
  rcases h.deref_cases j with ⟨h1, h2⟩ | ⟨c, c', h1, h2, h3⟩
  · rw [h1, h2]
  · rw [h1, h2]
    exact congrArg some (hR c c' h3)

theorem removeDependentStep_sameRefs (id : CellId) (s : Sheet) (oldCell : CellId) :
    Sheet.SameRefsOff id s (removeDependentStep id s oldCell).2 := by
  unfold removeDependentStep
  cases s.deref oldCell with
  | none => exact Sheet.sameRefsOff_refl id s
  | some c => exact Sheet.sameRefsOff_modify_keep s id oldCell _ (fun _ => rfl)

theorem addReferenceStep_sameRefs (id : CellId) (s : Sheet) (pos : Position) :
    Sheet.SameRefsOff id s (addReferenceStep id s pos).2 := by
  unfold addReferenceStep
  cases hv : pos.IsValid with
  | false => exact Sheet.sameRefsOff_refl id s
  | true =>
      simp only [Bool.not_true, Bool.false_eq_true, if_false]
      cases hf : s.find pos with
      | none => exact Sheet.sameRefsOff_refl id s
      | some e =>
          exact Sheet.sameRefsOff_trans (Sheet.sameRefsOff_modify_self s id _)
            (Sheet.sameRefsOff_modify_keep _ id e.addr _ (fun _ => rfl))

theorem forEach_sameRefs {α : Type} (id : CellId) (step : Sheet → α → Status × Sheet)
    (hstep : ∀ s x, Sheet.SameRefsOff id s (step s x).2) (l : List α) (s : Sheet) :
    Sheet.SameRefsOff id s (forEach step l s).2 :=
  (forEach_spec step l (fun _ => True) (fun _ => True) (Sheet.SameRefsOff id)
    (Sheet.sameRefsOff_refl id) (fun _ _ _ => Sheet.sameRefsOff_trans) trivial
    (fun st x _ _ => ⟨trivial, hstep st x, fun _ => trivial⟩) s trivial).2.1

/-- Method `UpdateDependencies` on `id` rewrites no `referencedCells_` but that of `id`. -/
theorem Cell.UpdateDependencies_sameRefs (s : Sheet) (id : CellId) :
    Sheet.SameRefsOff id s (Cell.UpdateDependencies s id).2 := by
  unfold Cell.UpdateDependencies
  cases hd : s.deref id with
  | none => exact Sheet.sameRefsOff_refl id s
  | some c =>
      simp only
      have h1 := forEach_sameRefs id (removeDependentStep id)
        (removeDependentStep_sameRefs id) c.referencedCells_ s
      rcases hr : forEach (removeDependentStep id) c.referencedCells_ s with ⟨st, s1⟩
      rw [hr] at h1
      have h2 : Sheet.SameRefsOff id s (s1.modify id (fun c => { c with referencedCells_ := [] })) :=
        Sheet.sameRefsOff_trans h1 (Sheet.sameRefsOff_modify_self s1 id _)
      cases st with
      | ok =>
          simp only
          cases hi : c.impl_ with
          | none => exact h2
          | some impl =>
              cases impl with
              | EmptyImpl => exact h2
              | TextImpl t => exact h2
              | FormulaImpl f =>
                  exact Sheet.sameRefsOff_trans h2 (forEach_sameRefs id (addReferenceStep id)
                    (addReferenceStep_sameRefs id) _ _)
      | InvalidPositionException => exact h1
      | FormulaException => exact h1
      | CircularDependencyException => exact h1
      | undefinedBehaviour => exact h1
      | outOfFuel => exact h1

/-- Method `Cell::Set` on `id` rewrites no `referencedCells_` but that of `id`. -/
theorem Cell.Set_sameRefs (env : Env) (s : Sheet) (id : CellId) (text : String) :
    Sheet.SameRefsOff id s (Cell.Set env s id text).2 := by
  unfold Cell.Set
  cases hd : s.deref id with
  | none => exact Sheet.sameRefsOff_refl id s
  | some c0 =>
      simp only
      have h2 : Sheet.SameRefsOff id s
          ((s.modify id (fun c => { c with cache_ := none })).modify id
            (fun c => { c with impl_ := some (Cell.makeImpl env text) })) :=
        Sheet.sameRefsOff_trans (Sheet.sameRefsOff_modify_self s id _)
          (Sheet.sameRefsOff_modify_self _ id _)
      generalize (s.modify id (fun c => { c with cache_ := none })).modify id
            (fun c => { c with impl_ := some (Cell.makeImpl env text) }) = s2 at h2 ⊢
      have h3 := (Cell.InvalidateCache_rel (s2.cells_.length + 1) s2 id).2.sameRefsOff
        (fun _ _ h => h.2.1) id
      rcases hr3 : Cell.InvalidateCache (s2.cells_.length + 1) s2 id with ⟨st3, s3⟩
      rw [hr3] at h3
      have h23 := Sheet.sameRefsOff_trans h2 h3
      cases st3 with
      | ok => exact Sheet.sameRefsOff_trans h23 (Cell.UpdateDependencies_sameRefs s3 id)
      | InvalidPositionException => exact h23
      | FormulaException => exact h23
      | CircularDependencyException => exact h23
      | undefinedBehaviour => exact h23
      | outOfFuel => exact h23

/-- With live pointers and valid referenced positions `UpdateDependencies` returns. -/
theorem Cell.UpdateDependencies_ok {s : Sheet} {id : CellId} {c : Cell}
    (hd : s.deref id = some c) (hlive : ∀ x ∈ c.referencedCells_, (s.deref x).isSome = true)
    (hvalid : ∀ formula_, c.impl_ = some (.FormulaImpl formula_) →
      ∀ p ∈ Formula.GetReferencedCells formula_, p.IsValid = true) :
    (Cell.UpdateDependencies s id).1 = .ok := by
  unfold Cell.UpdateDependencies
  rw [hd]
  simp only
  have h1 := removeLoop_spec id c.referencedCells_ s
  rcases hr : forEach (removeDependentStep id) c.referencedCells_ s with ⟨st, s1⟩
  rw [hr] at h1
  have hst : st = .ok := h1.2.2 hlive
  subst hst
  simp only
  cases hi : c.impl_ with
  | none => rfl
  | some impl =>
      cases impl with
      | EmptyImpl => rfl
      | TextImpl t => rfl
      | FormulaImpl f =>
          simp only
          rcases (addLoop_spec id (Formula.GetReferencedCells f)
            (s1.modify id (fun c => { c with referencedCells_ := [] }))).1 with h | ⟨_, p, hp, hv⟩
          · exact h
          · rw [hvalid f hi p hp] at hv
            cases hv

/-- With live pointers and valid referenced positions `Cell::Set` returns. -/
theorem Cell.Set_ok (env : Env) {s : Sheet} {id : CellId} {text : String}
    (hpl : s.PointersLive) (hlive : (s.deref id).isSome = true)
    (hvalid : ∀ formula_, Cell.makeImpl env text = .FormulaImpl formula_ →
      ∀ p ∈ Formula.GetReferencedCells formula_, p.IsValid = true) :
    (Cell.Set env s id text).1 = .ok := by
  unfold Cell.Set
  cases hd : s.deref id with
  | none => rw [hd] at hlive; cases hlive
  | some c0 =>
      simp only
      have hf2 := Sheet.modify_set_fields env s id text
      have hr2 : Sheet.Rel (fun c c' => c'.referencedCells_ = c.referencedCells_ ∧
            c'.dependentCells_ = c.dependentCells_) s
          ((s.modify id (fun c => { c with cache_ := none })).modify id
            (fun c => { c with impl_ := some (Cell.makeImpl env text) })) := by
        refine Sheet.Rel.trans (fun _ _ _ h1 h2 => ⟨h2.1.trans h1.1, h2.2.trans h1.2⟩)
          (t := s.modify id (fun c => { c with cache_ := none })) ?_ ?_
        · exact Sheet.modify_rel (fun _ => ⟨rfl, rfl⟩) s _ _ (fun _ => ⟨rfl, rfl⟩)
        · exact Sheet.modify_rel (fun _ => ⟨rfl, rfl⟩) _ _ _ (fun _ => ⟨rfl, rfl⟩)
      generalize (s.modify id (fun c => { c with cache_ := none })).modify id
            (fun c => { c with impl_ := some (Cell.makeImpl env text) }) = s2 at hf2 hr2 ⊢
      have hpl2 : s2.PointersLive := Sheet.PointersLive.of_rel (fun _ _ h => h) hr2 hpl
      have hlive2 : (s2.deref id).isSome = true := by rw [hr2.deref_isSome, hd]; rfl
      have hok := Cell.InvalidateCache_ok (s2.cells_.length + 1) s2 id hpl2 hlive2
        (Nat.lt_succ_of_le s2.unflagged_le_length)
      have h3 := Cell.InvalidateCache_rel (s2.cells_.length + 1) s2 id
      rcases hr3 : Cell.InvalidateCache (s2.cells_.length + 1) s2 id with ⟨st3, s3⟩
      rw [hr3] at h3 hok
      simp only at hok
      subst hok
      simp only
      have hpl3 : s3.PointersLive :=
        Sheet.PointersLive.of_rel (fun _ _ h => ⟨h.2.1, h.2.2.1⟩) h3.2 hpl2
      have hf3 : ∀ e ∈ s3.cells_, e.addr = id → e.cell.impl_ = some (Cell.makeImpl env text) :=
        h3.2.forall_addr (P := fun c => c.impl_ = some (Cell.makeImpl env text))
          (fun c c' hr hp => hr.1.trans hp) (fun e he hid => (hf2 e he hid).1)
      cases hd3 : s3.deref id with
      | none => rw [← h3.2.deref_isSome, hd3] at hlive2; cases hlive2
      | some c3 =>
          obtain ⟨e, he, hea, hec⟩ := Sheet.deref_some_mem hd3
          refine Cell.UpdateDependencies_ok hd3 (fun x hx => ?_) (fun f hf => ?_)
          · exact (hpl3 e he).1 x (hec ▸ hx)
          · have := hf3 e he hea
            rw [hec, hf] at this
            exact hvalid f (Option.some.inj this).symm

theorem Env.RefsValid.makeImpl {env : Env} (henv : env.RefsValid) (text : String)
    (formula_ : FormulaAST) (h : Cell.makeImpl env text = .FormulaImpl formula_) :
    ∀ p ∈ Formula.GetReferencedCells formula_, p.IsValid = true :=
  fun p hp => henv _ _ (Cell.makeImpl_formula h) p
    (Formula.mem_GetCells_of_mem_GetReferencedCells hp)

theorem Sheet.SameRefsOff.edge {id : CellId} {s s' : Sheet} (h : Sheet.SameRefsOff id s s')
    {i j : CellId} (hi : i ≠ id) (he : s'.Edge i j) : s.Edge i j := by
  obtain ⟨c', hc', hj⟩ := he
  have h1 := h i hi
  rw [hc'] at h1
  cases hd : s.deref i with
  | none => rw [hd] at h1; cases h1
  | some c =>
      rw [hd] at h1
      refine ⟨c, hd, ?_⟩
      have h2 : c'.GetDependentCells = c.GetDependentCells := Option.some.inj h1
      rw [← h2]
      exact hj

theorem Sheet.edge_ensureCell {s : Sheet} {pos : Position} {i j : CellId}
    (he : (s.ensureCell pos).Edge i j) : s.Edge i j := by
  unfold Sheet.ensureCell at he
  cases hc : s.count pos with
  | true => rw [hc] at he; exact he
  | false =>
      rw [hc] at he
      simp only [Bool.false_eq_true, if_false] at he
      obtain ⟨c, hd, hj⟩ := he
      unfold Sheet.deref at hd
      simp only [List.find?_append] at hd
      cases hf : s.cells_.find? (fun e => decide (e.addr = i)) with
      | some e =>
          rw [hf] at hd
          refine ⟨c, ?_, hj⟩
          unfold Sheet.deref
          rw [hf]
          exact hd
      | none =>
          rw [hf] at hd
          simp only [Option.none_or, List.find?_cons, List.find?_nil] at hd
          split at hd
          · simp only [Option.map_some', Option.some.injEq] at hd
            subst hd
            cases hj
          · cases hd

theorem Sheet.Acyclic.of_edges {s s' : Sheet} (hs : s.Acyclic)
    (h : ∀ i j, s'.Edge i j → s.Edge i j) : s'.Acyclic :=
  fun i hi => hs i (Relation.TransGen.mono h hi)

/-- Rewiring one cell keeps the graph acyclic when the DFS from that cell reaches no cycle. -/
theorem Sheet.Acyclic.of_sameRefsOff_safe {id : CellId} {s s' : Sheet} (hs : s.Acyclic)
    (h : Sheet.SameRefsOff id s s') (hsafe : ¬ s'.ReachesCycle id) : s'.Acyclic := by
  intro z hz
  rcases transGen_avoid_or_through id hz with h1 | ⟨h1, h2⟩
  · exact hs z (Relation.TransGen.mono (fun a b hab => h.edge hab.2 hab.1) h1)
  · exact hsafe ⟨id, Relation.ReflTransGen.refl, Relation.TransGen.trans_left h2 h1⟩

/-- Rewiring one cell keeps the graph acyclic when it leaves that cell without references. -/
theorem Sheet.Acyclic.of_sameRefsOff_noRefs {id : CellId} {s s' : Sheet} (hs : s.Acyclic)
    (h : Sheet.SameRefsOff id s s')
    (hno : ∀ c, s'.deref id = some c → c.referencedCells_ = []) : s'.Acyclic := by
  refine hs.of_edges (fun i j he => ?_)
  by_cases hi : i = id
  · subst hi
    obtain ⟨c, hc, hj⟩ := he
    have := hno c hc
    unfold Cell.GetDependentCells at hj
    rw [this] at hj
    cases hj
  · exact h.edge hi he

/-- Lines 33-41 of `SetCell` keep the recorded graph acyclic: either the DFS finds nothing
from the rewired cell, or the cell is cleared and is left without references. -/
theorem Sheet.setAndCheck_acyclic (env : Env) (henv : env.RefsValid) (s1 : Sheet)
    (pos : Position) (id : CellId) (text : String) (hpl : s1.PointersLive)
    (hlive : (s1.deref id).isSome = true) (hac : s1.Acyclic) :
    (s1.setAndCheck env pos id text).2.Acyclic := by
  have hok := Cell.Set_ok env hpl hlive (henv.makeImpl text)
  have hsame := Cell.Set_sameRefs env s1 id text
  have hedges := Cell.Set_edges env s1 s1 id text (Sheet.Rel.refl (edgesWithin_refl s1) s1)
  unfold Sheet.setAndCheck
  rcases hr : Cell.Set env s1 id text with ⟨st2, s2⟩
  rw [hr] at hok hsame hedges
  simp only at hok hsame hedges
  subst hok
  simp only
  have hpl2 : s2.PointersLive := Sheet.PointersLive.of_edgesWithin hedges hpl
  have hlive2 : (s2.deref id).isSome = true := by rw [hedges.deref_isSome]; exact hlive
  have hrl2 : s2.RefsLive := fun e he => (hpl2 e he).1
  rcases Sheet.HasCircularDependency_spec hrl2 hlive2 with ⟨hf, _⟩ | ⟨⟨v, p, hnf⟩, hsafe⟩
  · rw [hf]
    simp only
    unfold Cell.Clear
    have hnf : ∀ formula_, Cell.makeImpl env "" ≠ .FormulaImpl formula_ :=
      fun f hf => by rw [Cell.makeImpl_empty] at hf; cases hf
    obtain ⟨hok3, c', hc', hrefs⟩ := Cell.Set_no_formula env hpl2 hlive2 hnf
    have hsame3 := Cell.Set_sameRefs env s2 id ""
    rcases hr3 : Cell.Set env s2 id "" with ⟨st3, s3⟩
    rw [hr3] at hok3 hc' hsame3
    simp only at hok3 hc' hsame3
    subst hok3
    simp only
    exact hac.of_sameRefsOff_noRefs (Sheet.sameRefsOff_trans hsame hsame3)
      (fun c hc => by rw [hc'] at hc; cases hc; exact hrefs)
  · rw [hnf]
    simp only
    exact (hac.of_sameRefsOff_safe hsame hsafe).of_edges (fun i j he => he)

/-- Whatever it ends with, `SetCell` keeps the recorded graph acyclic. -/
theorem Sheet.SetCell_acyclic (env : Env) (henv : env.RefsValid) (s : Sheet) (pos : Position)
    (text : String) (hpl : s.PointersLive) (hac : s.Acyclic) :
    (Sheet.SetCell env s pos text).2.Acyclic := by
  have hpl1 := Sheet.ensureCell_pointersLive pos hpl
  have hac1 : (s.ensureCell pos).Acyclic :=
    hac.of_edges (fun i j he => Sheet.edge_ensureCell he)
  unfold Sheet.SetCell
  cases hv : pos.IsValid with
  | false => exact hac
  | true =>
      simp only [Bool.not_true, Bool.false_eq_true, if_false]
      by_cases hp : front text = FORMULA_SIGN ∧ size text > 1 ∧
          ParseFormula env (substr1 text) = none
      · rw [if_pos hp]; exact hac1
      · rw [if_neg hp]
        cases hf : (s.ensureCell pos).find pos with
        | none => exact hac1
        | some e =>
            exact Sheet.setAndCheck_acyclic env henv _ pos e.addr text hpl1
              (Sheet.deref_of_find hf) hac1

theorem Sheet.empty_acyclic : Sheet.empty.Acyclic := by
  intro i hi
  obtain ⟨b, ⟨c, hc, _⟩, _⟩ := Relation.TransGen.head'_iff.1 hi
  cases hc

/-- The test of line 25 reads a character exactly when the text has one, and then it is the
test the model of `SetCell` makes. -/
theorem Sheet.formulaGuard_eq (text : String) :
    Sheet.formulaGuard text =
      if text.data = [] then none
      else some (decide (front text = FORMULA_SIGN) && decide (size text > 1)) := by
  unfold Sheet.formulaGuard frontChecked front
  cases text.data with
  | nil => rfl
  | cons a l => rfl

/-- C1 (defect in the code): on the empty sheet `SetCell(A1, "=A2")` succeeds but records no edge,
because `A2` holds no cell yet; `SetCell(A2, "=A1")` then returns normally instead of
raising `CircularDependency`, and `GetText(A2)` is `"=A1"`, not the empty string.  The two
formulas now reference each other and `GetValue(A1)` does not return, whatever the fuel. -/
theorem C1_cycle_not_rejected :
    S3.first.1 = .ok ∧
      (S3.first.2.find A1).map (fun e => e.cell.referencedCells_) = some [] ∧
      S3.second.1 = .ok ∧
      Sheet.GetText scenarioEnv S3.second.2 A2 = some "=A1" ∧
      ∀ fuel, Sheet.GetValue scenarioEnv fuel S3.second.2 A1 = none := by
  refine ⟨by decide, by decide, by decide, by decide, fun fuel => ?_⟩
  have hfind : S3.second.2.find A1 = some ⟨A1, 0, S3.cellA1⟩ := by decide
  unfold Sheet.GetValue
  rw [hfind]
  exact (S3.getValue_diverges fuel).1

/-- C2 (defect in the code): in scenario S2 the first `GetValue(B1)` is 5; `SetCell(B2, "10")`
succeeds without invalidating `B1` (no edge from `B1` to the then absent `B2` was recorded),
so the next `GetValue(B1)` is still the cached 5, while `B1`'s formula evaluated against the
updated sheet is 15.  With the edge recorded (`B2` set to `10` before `B1`), `GetValue(B1)`
is 15; the later `SetCell(B2, "20")` finds `isCacheInvalidated_` of `B2` still true from
its first `Set` and returns from `InvalidateCache` at once, so `GetValue(B1)` stays 15 while
the formula evaluates to 25. -/
theorem C2_stale_value_survives :
    (S2.setB1.1 = .ok ∧ S2.read1.map Prod.fst = some (.number 5) ∧
        S2.setB2.1 = .ok ∧ S2.read2.map Prod.fst = some (.number 5) ∧
        (FormulaImpl.Evaluate scenarioEnv (Cell.GetValue scenarioEnv 2)
          (.BinaryOpExpr .Add (.CellRef B2) (.Number 5)) S2.setB2.2).map Prod.fst
          = some (.number 15)) ∧
      (Reedit.setB2.1 = .ok ∧ Reedit.setB1.1 = .ok ∧
        (Reedit.setB1.2.find B1).map (fun e => e.cell.referencedCells_) = some [0] ∧
        Reedit.read1.map Prod.fst = some (.number 15) ∧
        Reedit.editB2.1 = .ok ∧ Reedit.read2.map Prod.fst = some (.number 15) ∧
        (FormulaImpl.Evaluate scenarioEnv (Cell.GetValue scenarioEnv 2)
          (.BinaryOpExpr .Add (.CellRef B2) (.Number 5)) Reedit.editB2.2).map Prod.fst
          = some (.number 25)) := by
  with_unfolding_all decide

/-- C3 as stated fails: with `A2` holding the text `x` and `A1` holding `=A2`,
`SetCell(A2, "=A1")` raises `CircularDependency`, and afterwards `GetText(A2)` is the empty
string although it was `x` before the call. -/
theorem C3_rollback_counterexample :
    Rollback.setA2.1 = .ok ∧ Rollback.setA1.1 = .ok ∧
      Rollback.cycle.1 = .CircularDependencyException ∧
      Sheet.GetText scenarioEnv Rollback.setA1.2 A2 = some "x" ∧
      Sheet.GetText scenarioEnv Rollback.cycle.2 A2 = some "" ∧
      Sheet.GetText scenarioEnv Rollback.cycle.2 A2 ≠ Sheet.GetText scenarioEnv Rollback.setA1.2 A2 := by
  decide

/-- C3 (amended): whenever `SetCell(pos, text)` raises `CircularDependency`, the cell at `pos`
is left cleared: `GetText(pos)` after the failed call is the empty string, whatever the cell
held before. -/
theorem C3_cycle_leaves_cell_cleared (env : Env) (s : Sheet) (pos : Position) (text : String)
    (h : (Sheet.SetCell env s pos text).1 = .CircularDependencyException) :
    Sheet.GetText env (Sheet.SetCell env s pos text).2 pos = some "" := by
  unfold Sheet.SetCell at h ⊢
  cases hv : pos.IsValid with
  | false => rw [hv] at h; simp at h
  | true =>
      rw [hv] at h
      simp only [Bool.not_true, Bool.false_eq_true, if_false] at h ⊢
      by_cases hp : front text = FORMULA_SIGN ∧ size text > 1 ∧
          ParseFormula env (substr1 text) = none
      · rw [if_pos hp] at h; cases h
      · rw [if_neg hp] at h ⊢
        obtain ⟨e, he⟩ := Sheet.find_ensureCell s pos
        rw [he] at h ⊢
        simp only at h ⊢
        have hspec := Sheet.setAndCheck_spec env (s.ensureCell pos) pos e.addr text
          (Sheet.deref_of_find he)
        obtain ⟨hrel, himpl⟩ := hspec.2.2.1 h
        obtain ⟨e', he', _, hea, _⟩ := hrel.find_some he
        unfold Sheet.GetText
        rw [he']
        have := himpl e' (Sheet.find_some_mem he').1 hea
        simp [Cell.GetText, this, Impl.GetText]

/-- Witness for C3 (amended): the rollback scenario. -/
theorem C3_cycle_leaves_cell_cleared_witness :
    (Sheet.SetCell scenarioEnv Rollback.setA1.2 A2 "=A1").1 = .CircularDependencyException ∧
      Sheet.GetText scenarioEnv (Sheet.SetCell scenarioEnv Rollback.setA1.2 A2 "=A1").2 A2 = some "" :=
  ⟨by decide, C3_cycle_leaves_cell_cleared scenarioEnv Rollback.setA1.2 A2 "=A1" (by decide)⟩

/-- For a front end whose parsed formulas reference valid positions only, `SetCell`,
`GetCell` and `ClearCell` raise `InvalidPosition` exactly when the position is not valid,
for every text and every sheet, and `SetCell` and `ClearCell` then leave the sheet as it
was (`GetCell` never writes). -/
theorem Sheet.invalidPosition_iff_of_refsValid (env : Env) (henv : env.RefsValid) (s : Sheet) (pos : Position)
    (text : String) :
    ((Sheet.SetCell env s pos text).1 = .InvalidPositionException ↔ pos.IsValid = false) ∧
      ((s.GetCell pos).1 = .InvalidPositionException ↔ pos.IsValid = false) ∧
      ((s.ClearCell pos).1 = .InvalidPositionException ↔ pos.IsValid = false) ∧
      ((Sheet.SetCell env s pos text).1 = .InvalidPositionException →
        (Sheet.SetCell env s pos text).2 = s) ∧
      ((s.ClearCell pos).1 = .InvalidPositionException → (s.ClearCell pos).2 = s) := by
  have hset : (Sheet.SetCell env s pos text).1 = .InvalidPositionException → pos.IsValid = false := by
    intro h
    cases hv : pos.IsValid with
    | false => rfl
    | true =>
        exfalso
        unfold Sheet.SetCell at h
        rw [hv] at h
        simp only [Bool.not_true, Bool.false_eq_true, if_false] at h
        by_cases hp : front text = FORMULA_SIGN ∧ size text > 1 ∧
            ParseFormula env (substr1 text) = none
        · rw [if_pos hp] at h; cases h
        · rw [if_neg hp] at h
          obtain ⟨e, he⟩ := Sheet.find_ensureCell s pos
          rw [he] at h
          simp only at h
          obtain ⟨f, p, hf, hp1, hp2⟩ :=
            (Sheet.setAndCheck_spec env (s.ensureCell pos) pos e.addr text
              (Sheet.deref_of_find he)).2.1 h
          have := henv _ _ (Cell.makeImpl_formula hf) p
            (Formula.mem_GetCells_of_mem_GetReferencedCells hp1)
          rw [hp2] at this
          cases this
  have hclear : (s.ClearCell pos).1 = .InvalidPositionException → pos.IsValid = false := by
    intro h
    cases hv : pos.IsValid with
    | false => rfl
    | true =>
        exfalso
        unfold Sheet.ClearCell at h
        rw [hv] at h
        simp only [Bool.not_true, Bool.false_eq_true, if_false] at h
        split_ifs at h
  refine ⟨⟨hset, fun hv => ?_⟩, ⟨fun h => ?_, fun hv => ?_⟩, ⟨hclear, fun hv => ?_⟩, fun h => ?_,
    fun h => ?_⟩
  · unfold Sheet.SetCell; rw [hv]; rfl
  · cases hv : pos.IsValid with
    | false => rfl
    | true =>
        exfalso
        unfold Sheet.GetCell at h
        rw [hv] at h
        simp only [Bool.not_true, Bool.false_eq_true, if_false] at h
        split at h
        · cases h
        · cases h
  · unfold Sheet.GetCell; rw [hv]; rfl
  · unfold Sheet.ClearCell; rw [hv]; rfl
  · have hv := hset h
    unfold Sheet.SetCell; rw [hv]; rfl
  · have hv := hclear h
    unfold Sheet.ClearCell; rw [hv]; rfl

theorem scenarioEnv_refsValid : scenarioEnv.RefsValid := by
  intro expression ast h p hp
  unfold scenarioEnv at h
  simp only at h
  split_ifs at h <;> cases h <;> simp [FormulaAST.GetCells] at hp <;> subst hp <;> decide

/-- Example: the scenario front end references valid positions only; position `(-1, 0)` is
rejected by all three operations on the sheet of the rollback scenario. -/
theorem Sheet.invalidPosition_iff_of_refsValid_example :
    scenarioEnv.RefsValid ∧
      (Sheet.SetCell scenarioEnv Rollback.setA1.2 ⟨-1, 0⟩ "=A1").1 = .InvalidPositionException ∧
      (Rollback.setA1.2.GetCell ⟨-1, 0⟩).1 = .InvalidPositionException ∧
      (Rollback.setA1.2.ClearCell ⟨-1, 0⟩).1 = .InvalidPositionException ∧
      (Sheet.SetCell scenarioEnv Rollback.setA1.2 ⟨-1, 0⟩ "=A1").2 = Rollback.setA1.2 :=
  have h := Sheet.invalidPosition_iff_of_refsValid scenarioEnv scenarioEnv_refsValid Rollback.setA1.2 ⟨-1, 0⟩ "=A1"
  ⟨scenarioEnv_refsValid, h.1.2 (by decide), h.2.1.2 (by decide), h.2.2.1.2 (by decide),
    h.2.2.2.1 (h.1.2 (by decide))⟩

theorem Cell.makeImpl_text (env : Env) {text : String} (hne : text ≠ "")
    (ht : front text ≠ FORMULA_SIGN ∨ text = "=") : Cell.makeImpl env text = .TextImpl text := by
  have hdata : text.data ≠ [] := by
    intro h
    apply hne
    cases text
    simp_all
  unfold Cell.makeImpl
  rw [if_neg hdata]
  rcases ht with h | h
  · rw [if_neg h]
  · subst h
    rfl

/-- C7 (defect in the code): after `SetCell(A2, "x")`, `SetCell(A1, "=A2")` and `ClearCell(A2)`,
all of which return normally, the cell of `A1` keeps in `referencedCells_` the pointer to
the destroyed cell of `A2`.  `SetCell(A1, "y")`, a valid position and a plain text, does not
succeed: `UpdateDependencies` calls `RemoveDependentCell` through the dangling pointer, for
which C++ defines no behaviour. -/
theorem C7_text_set_reads_destroyed_cell :
    Rollback.setA2.1 = .ok ∧ Rollback.setA1.1 = .ok ∧ Dangling.clear.1 = .ok ∧
      (Dangling.clear.2.find A1).map (fun e => e.cell.referencedCells_) = some [0] ∧
      (Dangling.clear.2.deref 0).isSome = false ∧
      A1.IsValid = true ∧ Dangling.set.1 = .undefinedBehaviour := by
  decide

/-- In a sheet whose edge sets hold no dangling pointer (every sheet built by `SetCell`
calls is one), for every valid position and every non-empty text that does not start with
`=` or is exactly `=`, `SetCell` succeeds; afterwards `GetText` is the text itself and
`GetValue` is the text with one leading `'` removed when it starts with `'`, the text
itself otherwise. -/
theorem Sheet.SetCell_text_round_trip (env : Env) (s : Sheet) (pos : Position) (text : String)
    (hpl : s.PointersLive) (hv : pos.IsValid = true) (hne : text ≠ "")
    (ht : front text ≠ FORMULA_SIGN ∨ text = "=") :
    (Sheet.SetCell env s pos text).1 = .ok ∧
      Sheet.GetText env (Sheet.SetCell env s pos text).2 pos = some text ∧
      ∀ fuel, (Sheet.GetValue env (fuel + 1) (Sheet.SetCell env s pos text).2 pos).map Prod.fst
        = some (.text (if front text = ESCAPE_SIGN then substr1 text else text)) := by
  have himpl := Cell.makeImpl_text env hne ht
  have hdata : text.data ≠ [] := by
    intro h
    apply hne
    cases text
    simp_all
  have hp : ¬ (front text = FORMULA_SIGN ∧ size text > 1 ∧
      ParseFormula env (substr1 text) = none) := by
    rintro ⟨h1, h2, _⟩
    rcases ht with h | h
    · exact h h1
    · subst h
      revert h2
      decide
  obtain ⟨e, he⟩ := Sheet.find_ensureCell s pos
  have hlive := Sheet.deref_of_find he
  have hpl1 := Sheet.ensureCell_pointersLive pos hpl
  have hnf : ∀ formula_, Cell.makeImpl env text ≠ .FormulaImpl formula_ := by
    intro f hf
    rw [himpl] at hf
    cases hf
  obtain ⟨hok, c', hc', hrefs⟩ := Cell.Set_no_formula env hpl1 hlive hnf
  have hspec := Cell.Set_spec env (s.ensureCell pos) e.addr text
  rcases hr : Cell.Set env (s.ensureCell pos) e.addr text with ⟨st2, s2⟩
  rw [hr] at hok hc' hspec
  simp only at hok hc' hspec
  subst hok
  have hres : Sheet.SetCell env s pos text = (.ok, s2.UpdatePrintableSize pos) := by
    unfold Sheet.SetCell
    rw [hv]
    simp only [Bool.not_true, Bool.false_eq_true, if_false]
    rw [if_neg hp, he]
    exact Sheet.setAndCheck_no_edges hr hc' hrefs
  rw [hres]
  obtain ⟨e2, he2, _, hea, _⟩ := hspec.2.1.find_some he
  have hfields := hspec.2.2 hlive
  rw [himpl] at hfields
  have hfind : (s2.UpdatePrintableSize pos).find pos = some e2 := he2
  refine ⟨rfl, ?_, fun fuel => ?_⟩
  · unfold Sheet.GetText
    rw [hfind]
    have := (hfields e2 (Sheet.find_some_mem he2).1 hea).1
    simp [Cell.GetText, this, Impl.GetText]
  · unfold Sheet.GetValue
    rw [hfind]
    simp only
    have hd : (s2.UpdatePrintableSize pos).deref e2.addr = some c' := by
      rw [hea]; exact hc'
    obtain ⟨e3, he3, hea3, hec3⟩ := Sheet.deref_some_mem hc'
    have hf3 := hfields e3 he3 hea3
    rw [hec3] at hf3
    unfold Cell.GetValue Cell.GetValueWith
    rw [hd]
    simp only [hf3.1, hf3.2, Option.map_some', Impl.GetValue]
    by_cases hesc : front text = ESCAPE_SIGN
    · simp [hesc, hdata]
    · simp [hesc]

/-- Example: `SetCell(B2, "'abc")` and `SetCell(B2, "=")` on the sheet of the rollback
scenario. -/
theorem Sheet.SetCell_text_round_trip_example :
    Rollback.setA1.2.PointersLive ∧
      ((Sheet.SetCell scenarioEnv Rollback.setA1.2 B2 "'abc").1 = .ok ∧
        Sheet.GetText scenarioEnv (Sheet.SetCell scenarioEnv Rollback.setA1.2 B2 "'abc").2 B2
          = some "'abc" ∧
        (Sheet.GetValue scenarioEnv 1
          (Sheet.SetCell scenarioEnv Rollback.setA1.2 B2 "'abc").2 B2).map Prod.fst
          = some (.text "abc")) ∧
      ((Sheet.SetCell scenarioEnv Rollback.setA1.2 B2 "=").1 = .ok ∧
        Sheet.GetText scenarioEnv (Sheet.SetCell scenarioEnv Rollback.setA1.2 B2 "=").2 B2
          = some "=" ∧
        (Sheet.GetValue scenarioEnv 1
          (Sheet.SetCell scenarioEnv Rollback.setA1.2 B2 "=").2 B2).map Prod.fst
          = some (.text "=")) :=
  have h := Sheet.SetCell_text_round_trip scenarioEnv Rollback.setA1.2 B2 "'abc" (by decide) (by decide)
    (by decide) (Or.inl (by decide))
  have h' := Sheet.SetCell_text_round_trip scenarioEnv Rollback.setA1.2 B2 "=" (by decide) (by decide)
    (by decide) (Or.inr rfl)
  ⟨by decide, ⟨h.1, h.2.1, h.2.2 0⟩, ⟨h'.1, h'.2.1, h'.2.2 0⟩⟩

/-- C4 (defect in the code): on the empty sheet `SetCell(A1, "=*bad")` raises
`FormulaException`, but the cell for `A1` was allocated before the formula was checked:
`GetCell(A1)` was null before the call and returns a cell after it. -/
theorem C4_parse_failure_adds_cell :
    (Sheet.SetCell scenarioEnv Sheet.empty A1 "=*bad").1 = .FormulaException ∧
      Sheet.empty.GetCell A1 = (.ok, none) ∧
      (Sheet.SetCell scenarioEnv Sheet.empty A1 "=*bad").2.GetCell A1 = (.ok, some 0) ∧
      Sheet.empty.positions = [] ∧
      (Sheet.SetCell scenarioEnv Sheet.empty A1 "=*bad").2.positions = [A1] := by
  decide

/-- C5 (defect in the code): in the sheet where `A2` holds `x` and `A1` holds `=A2`, the cell at
`A2` is referenced (its `dependentCells_` holds the cell of `A1`), yet `ClearCell(A2)`
removes it: `GetCell(A2)` is null afterwards and the pointer kept by `A1` dangles. -/
theorem C5_clear_drops_referenced_cell :
    (Rollback.setA1.2.find A2).map (fun e => (e.addr, e.cell.dependentCells_)) = some (0, [1]) ∧
      (Rollback.setA1.2.ClearCell A2).1 = .ok ∧
      (Rollback.setA1.2.ClearCell A2).2.GetCell A2 = (.ok, none) ∧
      ((Rollback.setA1.2.ClearCell A2).2.find A1).map (fun e => e.cell.referencedCells_)
        = some [0] ∧
      (Rollback.setA1.2.ClearCell A2).2.deref 0 = none := by
  decide

/-- C8 (defect in the code): a failed `SetCell` leaves the cell it allocated outside the printable
size.  After `SetCell(B2, "=*bad")` (`FormulaException`) on the empty sheet, and likewise
after `SetCell(B2, "=B2+5")` (`CircularDependency`), `GetCell(B2)` returns a cell while
`GetPrintableSize()` is `(0, 0)`, not `(2, 2)`. -/
theorem C8_failed_set_breaks_printable_size :
    BadFormula.set.1 = .FormulaException ∧ BadFormula.set.2.positions = [B2] ∧
      BadFormula.set.2.GetPrintableSize = ⟨0, 0⟩ ∧
      ¬ IsBoundingSize BadFormula.set.2.positions BadFormula.set.2.GetPrintableSize ∧
      SelfRef.set.1 = .CircularDependencyException ∧ SelfRef.set.2.positions = [B2] ∧
      SelfRef.set.2.GetPrintableSize = ⟨0, 0⟩ ∧
      ¬ IsBoundingSize SelfRef.set.2.positions SelfRef.set.2.GetPrintableSize := by
  decide

/-- C9: in a sheet whose keys are valid positions, `ClearCell` on a valid position that holds
a cell with empty `dependentCells_` returns normally; afterwards `GetCell(pos)` is null,
the cell found at any other position is the one found before, and the printable size is the
bounding rectangle of the remaining positions.  `ClearCell` on a valid position that holds
no cell changes nothing.  (`ClearCell` never reads `dependentCells_`: the proof does not use
that it is empty.) -/
theorem C9_clear_unreferenced_cell (s : Sheet) (pos : Position) (e : Entry)
    (hv : pos.IsValid = true) (hkeys : ∀ x ∈ s.cells_, x.pos.IsValid = true)
    (he : s.find pos = some e) (_hin : e.cell.dependentCells_ = []) :
    (s.ClearCell pos).1 = .ok ∧
      (s.ClearCell pos).2.GetCell pos = (.ok, none) ∧
      (∀ q, q ≠ pos → (s.ClearCell pos).2.find q = s.find q) ∧
      IsBoundingSize (s.ClearCell pos).2.positions (s.ClearCell pos).2.GetPrintableSize ∧
      ∀ q, q.IsValid = true → s.find q = none → s.ClearCell q = (.ok, s) := by
  have hcount : s.count pos = true := by unfold Sheet.count; rw [he]; rfl
  obtain ⟨hok, hcells, hbound⟩ := Sheet.ClearCell_of_present s pos hv hkeys hcount
  refine ⟨hok, ?_, ?_, hbound, ?_⟩
  · unfold Sheet.GetCell Sheet.find
    rw [hv, hcells, find?_filter_pos_self]
    rfl
  · intro q hq
    unfold Sheet.find
    rw [hcells]
    exact find?_filter_pos_ne pos q hq s.cells_
  · intro q hq hnone
    unfold Sheet.ClearCell Sheet.count
    rw [hq, hnone]
    rfl

/-- Witness for C9: with the text `x` at `A1` and at `B2` the printable size is `(2, 2)`;
`ClearCell(B2)` removes the unreferenced cell and the size shrinks to `(1, 1)`. -/
theorem C9_clear_unreferenced_cell_witness :
    Shrink.sheet.GetPrintableSize = ⟨2, 2⟩ ∧
      (Shrink.sheet.ClearCell B2).2.GetPrintableSize = ⟨1, 1⟩ ∧
      (Shrink.sheet.ClearCell B2).1 = .ok ∧
      (Shrink.sheet.ClearCell B2).2.GetCell B2 = (.ok, none) ∧
      (Shrink.sheet.ClearCell B2).2.find A1 = Shrink.sheet.find A1 ∧
      IsBoundingSize (Shrink.sheet.ClearCell B2).2.positions
        (Shrink.sheet.ClearCell B2).2.GetPrintableSize ∧
      Shrink.sheet.ClearCell A2 = (.ok, Shrink.sheet) :=
  have h := C9_clear_unreferenced_cell Shrink.sheet B2
    ⟨B2, 1, { impl_ := some (.TextImpl "x"), isCacheInvalidated_ := true }⟩
    (by decide) (by decide) (by decide) rfl
  ⟨by decide, by decide, h.1, h.2.1, h.2.2.1 A1 (by decide), h.2.2.2.1,
    h.2.2.2.2 A2 (by decide) (by decide)⟩

/-- C10 (defect in the code): in the sheet of scenario S3, reached by two `SetCell` calls that
return normally, the cells of `A1` and `A2` are formula cells with an empty cache whose
formulas reference each other.  `GetValue` on either of them returns for no fuel: the
evaluation recurses without end, so there is no first result to store or to repeat. -/
theorem C10_get_value_never_returns :
    S3.first.1 = .ok ∧ S3.second.1 = .ok ∧
      (S3.second.2.deref 0).map (fun c => (c.impl_, c.cache_))
        = some (some (.FormulaImpl (.CellRef A2)), none) ∧
      (S3.second.2.deref 1).map (fun c => (c.impl_, c.cache_))
        = some (some (.FormulaImpl (.CellRef A1)), none) ∧
      ∀ fuel, Cell.GetValue scenarioEnv fuel S3.second.2 0 = none ∧
        Cell.GetValue scenarioEnv fuel S3.second.2 1 = none :=
  ⟨by decide, by decide, by decide, by decide, fun fuel => S3.getValue_diverges fuel⟩

/-- Let `id` be a formula cell.  Whenever `GetValue` on it returns `v`, the cell's cache
holds `v` afterwards; when the cache was empty before, `v` is what the evaluator returned
for the cell's formula; and a second `GetValue` with no edit in between returns `v` again
and leaves the sheet as it is, whatever evaluator it is given: the evaluator is not
invoked.  The first call does return, with fuel above the cell's rank, on every sheet whose
formula references decrease a rank (no reference cycle). -/
theorem Cell.GetValue_memoized (env : Env) (fuel : Nat) (s : Sheet) (id : CellId) (c : Cell)
    (formula_ : FormulaAST) (hd : s.deref id = some c)
    (hf : c.impl_ = some (.FormulaImpl formula_)) :
    (∀ v s', Cell.GetValue env fuel s id = some (v, s') →
        (∃ c', s'.deref id = some c' ∧ c'.cache_ = some v) ∧
        (c.cache_ = none → ∃ s1,
          FormulaImpl.Evaluate env (Cell.GetValue env (fuel - 1)) formula_ s = some (v, s1) ∧
            s' = s1.modify id (fun c => { c with cache_ := some v })) ∧
        (∀ Evaluate, Cell.GetValueWith Evaluate s' id = some (v, s')) ∧
        ∀ fuel', Cell.GetValue env (fuel' + 1) s' id = some (v, s')) ∧
      ∀ rank : CellId → Nat, s.rankedBy rank = true → rank id < fuel →
        ∃ v s', Cell.GetValue env fuel s id = some (v, s') := by
  refine ⟨fun v s' h1 => ?_, fun rank hs hlt =>
    Cell.GetValue_returns env rank fuel s id hs (by rw [hd]; rfl) hlt⟩
  have hcache : ∃ c', s'.deref id = some c' ∧ c'.cache_ = some v := by
    cases fuel with
    | zero => unfold Cell.GetValue at h1; cases h1
    | succ n =>
        unfold Cell.GetValue Cell.GetValueWith at h1
        rw [hd] at h1
        simp only at h1
        cases hc : c.cache_ with
        | some v0 =>
            rw [hc] at h1
            simp only [Option.some.injEq, Prod.mk.injEq] at h1
            obtain ⟨hv, hs⟩ := h1
            subst hv; subst hs
            exact ⟨c, hd, hc⟩
        | none =>
            rw [hc, hf] at h1
            simp only at h1
            cases he : FormulaImpl.Evaluate env (Cell.GetValue env n) formula_ s with
            | none => rw [he] at h1; cases h1
            | some r =>
                obtain ⟨v1, s1⟩ := r
                rw [he] at h1
                simp only [Option.some.injEq, Prod.mk.injEq] at h1
                obtain ⟨hv, hs⟩ := h1
                subst hv; subst hs
                have hrel := FormulaImpl.Evaluate_rel env (Cell.GetValue env n)
                  (Cell.GetValue_rel env n) he
                obtain ⟨c1, hc1, _⟩ := hrel.deref_some hd
                rw [Sheet.deref_modify, hc1]
                exact ⟨_, rfl, rfl⟩
  obtain ⟨c', hc', hcv⟩ := hcache
  refine ⟨⟨c', hc', hcv⟩, fun hc => ?_, fun Evaluate => Cell.GetValueWith_cached Evaluate hc' hcv,
    fun fuel' => ?_⟩
  · cases fuel with
    | zero => unfold Cell.GetValue at h1; cases h1
    | succ n =>
        unfold Cell.GetValue Cell.GetValueWith at h1
        rw [hd] at h1
        simp only [hc, hf] at h1
        cases he : FormulaImpl.Evaluate env (Cell.GetValue env n) formula_ s with
        | none => rw [he] at h1; cases h1
        | some r =>
            obtain ⟨v1, s1⟩ := r
            rw [he] at h1
            simp only [Option.some.injEq, Prod.mk.injEq] at h1
            obtain ⟨hv, hs⟩ := h1
            subst hv
            exact ⟨s1, (by rw [Nat.add_sub_cancel]; exact he), hs.symm⟩
  · unfold Cell.GetValue
    exact Cell.GetValueWith_cached _ hc' hcv

/-- Example: in the re-edit scenario the cell of `B1` (address 1, formula `B2+5`,
`B2` holding `10`) has rank 1 above the rank 0 of `B2`; the first `GetValue` returns 15 and
the second returns the cached 15 for every evaluator. -/
theorem Cell.GetValue_memoized_example :
    (∃ v s', Cell.GetValue scenarioEnv 2 Reedit.setB1.2 1 = some (v, s')) ∧
      (∃ c', ((Reedit.read1.map Prod.snd).getD Sheet.empty).deref 1 = some c' ∧
        c'.cache_ = some (.number 15)) ∧
      ∀ Evaluate, Cell.GetValueWith Evaluate ((Reedit.read1.map Prod.snd).getD Sheet.empty) 1
        = some (.number 15, (Reedit.read1.map Prod.snd).getD Sheet.empty) :=
  have h := Cell.GetValue_memoized scenarioEnv 2 Reedit.setB1.2 1
    { impl_ := some (.FormulaImpl (.BinaryOpExpr .Add (.CellRef B2) (.Number 5))),
      isCacheInvalidated_ := true, referencedCells_ := [0] }
    (.BinaryOpExpr .Add (.CellRef B2) (.Number 5)) (by decide) rfl
  have h1 := h.1 (.number 15) ((Reedit.read1.map Prod.snd).getD Sheet.empty)
    (by with_unfolding_all decide)
  ⟨h.2 (fun i => i) (by decide) (by decide), h1.1, h1.2.2.1⟩
/-! ## The claims, continued -/

/-- C11: for every formula, `GetReferencedCells()` is strictly increasing in the order of
`Position` (row first, then column), hence without duplicates, and it holds exactly the
positions that occur as cell references in the AST. -/
theorem C11_referenced_cells_sorted_unique (ast_ : FormulaAST) :
    List.Pairwise (fun a b => a.lt b = true) (Formula.GetReferencedCells ast_) ∧
      (Formula.GetReferencedCells ast_).Nodup ∧
      ∀ p, p ∈ Formula.GetReferencedCells ast_ ↔ p ∈ ast_.GetCells := by
  have hs := pairwise_lt_unique _ (sorted_insertionSort_le ast_.GetCells)
  refine ⟨hs, hs.imp (fun {a b} hab heq => ?_), fun p => ⟨fun h => ?_, fun h => ?_⟩⟩
  · subst heq; exact Position.lt_irrefl a hab
  · exact (List.perm_insertionSort _ _).mem_iff.1 (mem_of_mem_unique _ _ h)
  · exact mem_unique_of_mem _ _ ((List.perm_insertionSort _ _).mem_iff.2 h)

/-- C12 as stated fails: with the text `a`, newline, `b` at `A1` the printable size has one
row, and both `PrintTexts` and `PrintValues` write two newline characters. -/
theorem C12_newline_in_text_counterexample :
    TwoLines.sheet.GetPrintableSize.rows = 1 ∧
      newlines (TwoLines.sheet.PrintTexts scenarioEnv) = 2 ∧
      (TwoLines.sheet.PrintValues scenarioEnv scenarioFormat 1).map (fun r => newlines r.1)
        = some 2 := by
  decide

/-- C12 (amended): on a sheet where no cell text, no raw text of a text cell and no cached
value contains a newline character, and with a number format that writes none, the output
of `PrintTexts` contains exactly `GetPrintableSize().rows` newline characters, and so does
the output of `PrintValues` whenever it returns; it returns, with fuel above every rank, on
every sheet whose formula references decrease a rank. -/
theorem C12_print_newlines_one_line (env : Env) (fmt : Rat → String) (fuel : Nat) (s : Sheet)
    (htexts : s.TextsOneLine env) (hvalues : s.ValuesOneLine fmt)
    (hfmt : ∀ d, '\n' ∉ (fmt d).data) :
    newlines (s.PrintTexts env) = s.GetPrintableSize.rows.toNat ∧
      (∀ out s', s.PrintValues env fmt fuel = some (out, s') →
        newlines out = s.GetPrintableSize.rows.toNat) ∧
      ∀ rank : CellId → Nat, s.rankedBy rank = true → (∀ i, rank i < fuel) →
        (s.PrintValues env fmt fuel).isSome = true :=
  ⟨Sheet.newlines_PrintTexts env s htexts,
    fun _ _ h => Sheet.newlines_PrintValues env fmt hfmt fuel s hvalues h,
    fun rank hs hfuel => Sheet.PrintValues_returns env fmt fuel s rank hs hfuel⟩

/-- Witness for C12 (amended): the sheet with `10` at `B2` and `=B2+5` at `B1` has two rows;
`PrintTexts` and `PrintValues` each write two newline characters. -/
theorem C12_print_newlines_one_line_witness :
    Reedit.setB1.2.GetPrintableSize.rows = 2 ∧
      newlines (Reedit.setB1.2.PrintTexts scenarioEnv) = 2 ∧
      (Reedit.setB1.2.PrintValues scenarioEnv scenarioFormat 2).isSome = true ∧
      ∀ out s', Reedit.setB1.2.PrintValues scenarioEnv scenarioFormat 2 = some (out, s') →
        newlines out = 2 :=
  have h := C12_print_newlines_one_line scenarioEnv scenarioFormat 2 Reedit.setB1.2
    (by decide) (by decide) scenarioFormat_oneLine
  ⟨by decide, h.1, h.2.2 (fun i => if i = 1 then 1 else 0) (by decide)
    (fun i => by show (if i = 1 then 1 else 0) < 2; split_ifs <;> decide), h.2.1⟩

/-- For a front end whose parsed formulas reference valid positions only, every sheet
reached from the empty sheet by `SetCell` calls, whatever each call ends with, has an
acyclic recorded graph: no cell reaches itself by one or more steps from a live cell to a
member of its `referencedCells_`, so there is no self-loop either. -/
theorem Sheet.ReachableBySetCell.acyclic (env : Env) (henv : env.RefsValid) (s : Sheet)
    (h : Sheet.ReachableBySetCell env s) : s.Acyclic := by
  induction h with
  | empty => exact Sheet.empty_acyclic
  | setCell s pos text hs ih =>
      exact Sheet.SetCell_acyclic env henv s pos text hs.pointersLive ih

/-- Example: the sheet left by the rollback scenario, whose last call closes a cycle
and is rejected, is reached by `SetCell` calls and has an acyclic recorded graph. -/
theorem Sheet.ReachableBySetCell.acyclic_example :
    scenarioEnv.RefsValid ∧ Sheet.ReachableBySetCell scenarioEnv Rollback.cycle.2 ∧
      Rollback.cycle.1 = .CircularDependencyException ∧ Rollback.cycle.2.Acyclic :=
  have hr : Sheet.ReachableBySetCell scenarioEnv Rollback.cycle.2 :=
    .setCell _ A2 "=A1" (.setCell _ A1 "=A2" (.setCell _ A2 "x" .empty))
  ⟨scenarioEnv_refsValid, hr, by decide,
    Sheet.ReachableBySetCell.acyclic scenarioEnv scenarioEnv_refsValid Rollback.cycle.2 hr⟩

/-- C14 (defect in the code): with `x` at `A2` and `=A2` at `A1` the edges are consistent; after
`ClearCell(A2)` the cell of `A1` still names the erased cell (address 0) in its
`referencedCells_`, no live cell has that address, and the edges are no longer consistent. -/
theorem C14_clear_breaks_edge_consistency :
    Rollback.setA1.2.EdgesConsistent ∧ (Rollback.setA1.2.ClearCell A2).1 = .ok ∧
      ((Rollback.setA1.2.ClearCell A2).2.find A1).map (fun e => e.cell.referencedCells_)
        = some [0] ∧
      ((Rollback.setA1.2.ClearCell A2).2.deref 0).isSome = false ∧
      ¬ (Rollback.setA1.2.ClearCell A2).2.EdgesConsistent := by
  decide

/-- C15 (defect in the code): with `x` at `A1` and no cell at `A2`, `Cell::Set("=A2")` on the cell
of `A1` returns normally and the new body's `GetReferencedCells()` is `[A2]`, but the sheet
holds no cell at `A2` afterwards and the cell's `referencedCells_` is empty. -/
theorem C15_set_skips_absent_target :
    Rebuild.sheet.find A2 = none ∧ Rebuild.set.1 = .ok ∧
      (Rebuild.set.2.deref 0).map Cell.GetReferencedCells = some [A2] ∧
      Rebuild.set.2.find A2 = none ∧
      (Rebuild.set.2.deref 0).map (fun c => c.referencedCells_) = some [] := by
  decide

/-- C16 (defect in the code): after `SetCell(A1, "x")` and one `GetValue(A1)` the cell holds the
cached value `x` while `isCacheInvalidated_` is still true: `GetValue` stores the value but
does not clear the flag, and the invariant between cache and flag is broken. -/
theorem C16_get_value_leaves_flag_raised :
    Flag.read.map Prod.fst = some (.text "x") ∧
      (((Flag.read.map Prod.snd).getD Sheet.empty).deref 0).map
        (fun c => (c.cache_, c.isCacheInvalidated_)) = some (some (.text "x"), true) ∧
      (((Flag.read.map Prod.snd).getD Sheet.empty).deref 0).map
        (fun c => decide c.CacheFlagConsistent) = some false := by
  decide

/-- C17: on every sheet whose `referencedCells_` pointers are live, and for every live start
cell, `HasCircularDependency` returns (it neither faults nor runs out of fuel), and it
returns true exactly when a cell reachable from the start cell along `GetDependentCells()`
lies on a directed cycle; when the graph without the out-edges of the start cell has no
cycle, that is exactly when the start cell reaches itself. -/
theorem C17_dfs_cycle_check_exact (s : Sheet) (id : CellId) (hlive : s.RefsLive)
    (hid : (s.deref id).isSome = true) :
    (s.HasCircularDependency id = .found ∨
        ∃ v p, s.HasCircularDependency id = .notFound v p) ∧
      (s.HasCircularDependency id = .found ↔ s.ReachesCycle id) ∧
      ((∀ z, ¬ Relation.TransGen (fun x y => s.Edge x y ∧ x ≠ id) z z) →
        (s.HasCircularDependency id = .found ↔ Relation.TransGen s.Edge id id)) := by
  have hiff : s.HasCircularDependency id = .found ↔ s.ReachesCycle id := by
    rcases Sheet.HasCircularDependency_spec hlive hid with ⟨hf, hc⟩ | ⟨⟨v, p, hnf⟩, hsafe⟩
    · exact ⟨fun _ => hc, fun _ => hf⟩
    · exact ⟨(fun h => by rw [hnf] at h; cases h), fun h => absurd h hsafe⟩
  refine ⟨?_, hiff, fun hrest => hiff.trans (Sheet.reachesCycle_iff_onCycle hrest)⟩
  rcases Sheet.HasCircularDependency_spec hlive hid with ⟨hf, _⟩ | ⟨hnf, _⟩
  · exact Or.inl hf
  · exact Or.inr hnf

/-- Witness for C17: in the loop scenario the cell at address 2 points at a two-cell cycle
it is not part of; the check from it returns true and a cycle is reachable from it. -/
theorem C17_dfs_cycle_check_exact_witness :
    Loop.sheet.RefsLive ∧ (Loop.sheet.deref 2).isSome = true ∧
      Loop.sheet.HasCircularDependency 2 = .found ∧ Loop.sheet.ReachesCycle 2 :=
  have h := C17_dfs_cycle_check_exact Loop.sheet 2 (by decide) (by decide)
  ⟨by decide, by decide, by decide, h.2.1.1 (by decide)⟩

/-- C18 (defect in the code): in the guard scenario the cell of `B1` (address 1) is flagged and
holds the cached value 5.  `InvalidateCache` called on it returns at the guard and leaves
the sheet as it is: on return the cell is flagged but its cache is not empty.  This is the
call that `SetCell(B2, "10")` makes on the dependent `B1`: afterwards the cache of `B1`
still holds 5. -/
theorem C18_guard_returns_with_cache_filled :
    BadFormula.set.1 = .FormulaException ∧ Guard.setB1.1 = .ok ∧
      (Guard.sheet.deref 1).map (fun c => (c.cache_, c.isCacheInvalidated_))
        = some (some (.number 5), true) ∧
      Cell.InvalidateCache 3 Guard.sheet 1 = (.ok, Guard.sheet) ∧
      (Guard.sheet.deref 0).map (fun c => (c.isCacheInvalidated_, c.dependentCells_))
        = some (false, [1]) ∧
      Guard.setB2.1 = .ok ∧
      (Guard.setB2.2.deref 1).map (fun c => (c.cache_, c.isCacheInvalidated_))
        = some (some (.number 5), true) := by
  with_unfolding_all decide

/-- C19 (defect in the code): `SetCell(A1, "")` reaches the test of line 25 with the empty text, and
its left operand `text.front()` has no character to read.  With the terminating NUL as the
byte read, the call goes on to succeed: `GetText(A1)` and `GetValue(A1)` are empty and the
printable size covers `A1`. -/
theorem C19_empty_text_reaches_front :
    Sheet.formulaGuard "" = none ∧ EmptyText.set.1 = .ok ∧
      Sheet.GetText scenarioEnv EmptyText.set.2 A1 = some "" ∧
      (Sheet.GetValue scenarioEnv 1 EmptyText.set.2 A1).map Prod.fst = some (.text "") ∧
      EmptyText.set.2.GetPrintableSize = ⟨1, 1⟩ := by
  decide

end Spreadsheet
